import Mathlib

/-! Alarm registry of `New_Alarm_Cond.c`.

A shallow embedding of the alarm list of `src/Files/New_Alarm_Cond.c`.

The C program keeps the alarm requests on a singly linked list bounded by the two
sentinel nodes `head` and `tail`.  The embedding represents the list by the sequence of
nodes linked strictly between `head` and `tail`, in link order; following `next->link`
until `next == tail` is recursion over that sequence.  A node carries its own address
(`addr`), so that the pointer comparison `next == alarm` of the dispatcher is a
comparison of addresses.  The C `int` fields are integers; none of the modelled code
does arithmetic on them except `time (NULL) + alarm->seconds`, whose result is stored
and never read.

`main` runs `alarm_insert` and the dispatcher runs its removal while holding
`alarm_cond1`; the dispatcher scan and the passes of the display threads run between the
counter's enter and exit, the first entrant holding `alarm_cond1` for the group.  The
embedding takes each of the four as one atomic step on the state (`State`, `Step`,
`Reachable`).  The gate is embedded apart from the list: `gate_enter` and `gate_exit`
are the two sequences run without interruption, and `thread_step`, `producer_step` and
`SysStep` take the threads one semaphore operation at a time, in any interleaving.
-/

namespace AlarmCond

/-- The struct `alarm_tag` (lines 28-48).  The `link` field is the list structure itself;
`addr` is the address of the node. -/
structure alarm_t where
  addr : Nat
  seconds : Int
  time : Int
  message : String
  messageNum : Int
  alarmRequestType : Int
  changeTracker : Int
  newAlarmFlag : Int
  alarmExistsFlag : Int
deriving DecidableEq, Repr

/-- The lines the program prints (the `printf` calls of the modelled functions). -/
inductive Output where
  | doesNotExist (messageNum : Int)
  | multiple (messageNum : Int)
  | displayCreated (messageNum : Int) (message : String)
  | displayExiting (messageNum : Int)
  | messageLine (messageNum : Int) (message : String)
  | messageChanged (messageNum : Int) (message : String)
  | cancelLine (messageNum : Int) (message : String)
deriving DecidableEq, Repr

/-- `findTypeA` (lines 63-87): 1 when some listed node has `alarmRequestType == 1` and the
message number of `alarm`, else 0. -/
def findTypeA : List alarm_t → alarm_t → Int
  | [], _ => 0
  | next :: rest, alarm =>
    if next.alarmRequestType = 1 ∧ alarm.messageNum = next.messageNum then 1
    else findTypeA rest alarm

/-- `findTypeB` (lines 91-115): 1 when some listed node has `alarmRequestType == 0` and the
message number of `alarm`, else 0. -/
def findTypeB : List alarm_t → alarm_t → Int
  | [], _ => 0
  | next :: rest, alarm =>
    if next.alarmRequestType = 0 ∧ alarm.messageNum = next.messageNum then 1
    else findTypeB rest alarm

/-- `changeAlarm` (lines 119-144): the first listed node with `alarmRequestType == 1` and
the message number of `alarm` gets the seconds and the message of `alarm` and
`changeTracker = 1`; the loop stops there. -/
def changeAlarm : List alarm_t → alarm_t → List alarm_t
  | [], _ => []
  | next :: rest, alarm =>
    if next.alarmRequestType = 1 ∧ alarm.messageNum = next.messageNum then
      { next with seconds := alarm.seconds, message := alarm.message, changeTracker := 1 }
        :: rest
    else next :: changeAlarm rest alarm

/-- The insertion of the register branch (lines 171-202): link `alarm` before the first
node with `next->messageNum >= alarm->messageNum`, or before `tail` when the loop reaches
it; either way `alarm->alarmExistsFlag = 1`. -/
def insertRegister : List alarm_t → alarm_t → List alarm_t
  | [], alarm => [{ alarm with alarmExistsFlag := 1 }]
  | next :: rest, alarm =>
    if next.messageNum ≥ alarm.messageNum then
      { alarm with alarmExistsFlag := 1 } :: next :: rest
    else next :: insertRegister rest alarm

/-- The insertion of the cancel branch (lines 232-252): link `alarm` before the first node
with `next->messageNum >= alarm->messageNum`; when the loop reaches `tail` nothing is
linked (this branch has no end-of-list case). -/
def insertCancel : List alarm_t → alarm_t → List alarm_t
  | [], _ => []
  | next :: rest, alarm =>
    if next.messageNum ≥ alarm.messageNum then
      { alarm with alarmExistsFlag := 1 } :: next :: rest
    else next :: insertCancel rest alarm

/-- `alarm_insert` (lines 149-256): the new list and the lines printed.  `statusA` and
`statusB` are tested as C truth values (non-zero is true). -/
def alarm_insert (list : List alarm_t) (alarm : alarm_t) : List alarm_t × List Output :=
  if alarm.alarmRequestType = 1 then
    if findTypeA list alarm ≠ 0 then (changeAlarm list alarm, [])
    else (insertRegister list alarm, [])
  else
    if findTypeA list alarm = 0 then (list, [Output.doesNotExist alarm.messageNum])
    else if findTypeB list alarm ≠ 0 then (list, [Output.multiple alarm.messageNum])
    else (insertCancel list alarm, [])

/-- What `main` has parsed from an input line it accepts (lines 536-568). -/
inductive Command where
  | register (seconds : Int) (messageNum : Int) (message : String)
  | cancel (messageNum : Int)
deriving DecidableEq, Repr

/-- The request node of an accepted line (lines 526-568): `raw` is the node as `malloc`
returned it (its address and the indeterminate contents of its fields); a register line
writes seconds, message number, message and type 1, a cancel line writes the message
number, seconds 0, the empty message and type 0. -/
def main_request (raw : alarm_t) : Command → alarm_t
  | .register seconds messageNum message =>
    { raw with seconds := seconds, messageNum := messageNum, message := message,
               alarmRequestType := 1 }
  | .cancel messageNum =>
    { raw with messageNum := messageNum, seconds := 0, message := "",
               alarmRequestType := 0 }

/-- The accepted-request path of `main` (lines 570-589), `now` being `time (NULL)`:
the time is set, `newAlarmFlag = 1`, `changeTracker = 0`, then `alarm_insert`. -/
def main_submit (now : Int) (list : List alarm_t) (alarm : alarm_t) :
    List alarm_t × List Output :=
  alarm_insert list
    { alarm with time := now + alarm.seconds, newAlarmFlag := 1, changeTracker := 0 }

/-- The scan of the dispatcher (lines 404-418): the first listed node with
`newAlarmFlag == 1` gets `newAlarmFlag = 0` and is the selected node; the result is the
selected node as it stands after the write (or `none` for `alarm == NULL`) and the list. -/
def scanNew : List alarm_t → Option alarm_t × List alarm_t
  | [] => (none, [])
  | next :: rest =>
    if next.newAlarmFlag = 1 then
      (some { next with newAlarmFlag := 0 }, { next with newAlarmFlag := 0 } :: rest)
    else ((scanNew rest).1, next :: (scanNew rest).2)

/-- The first removal loop of the dispatcher (lines 457-475): the first listed node whose
address is `alarm` is unlinked and gets `alarmExistsFlag = 0`; the result is that node
(`none` when the loop reaches `tail`) and the remaining list. -/
def unlinkPointer : List alarm_t → Nat → Option alarm_t × List alarm_t
  | [], _ => (none, [])
  | next :: rest, alarm =>
    if next.addr = alarm then (some { next with alarmExistsFlag := 0 }, rest)
    else ((unlinkPointer rest alarm).1, next :: (unlinkPointer rest alarm).2)

/-- The second removal loop of the dispatcher (lines 476-490): the first listed node with
`messageNum == alarmRemove` gets `alarmExistsFlag = 0` and is unlinked. -/
def unlinkNumber : List alarm_t → Int → Option alarm_t × List alarm_t
  | [], _ => (none, [])
  | next :: rest, alarmRemove =>
    if next.messageNum = alarmRemove then (some { next with alarmExistsFlag := 0 }, rest)
    else ((unlinkNumber rest alarmRemove).1, next :: (unlinkNumber rest alarmRemove).2)

/-- What one removal part of a dispatcher cycle does: the list it leaves, the node the
first loop unlinked, the node the second loop unlinked, and the lines printed. -/
structure Removal where
  list : List alarm_t
  first : Option alarm_t
  second : Option alarm_t
  out : List Output
deriving DecidableEq, Repr

/-- The removal part of a dispatcher cycle (lines 451-498) for the selected node `alarm`
(what the pointer `alarm` points to).  `garbage` is the indeterminate value the local
`alarmRemove` holds when the first loop assigns nothing to it. -/
def alarm_thread_remove (list : List alarm_t) (alarm : alarm_t) (garbage : Int) : Removal :=
  if alarm.alarmRequestType = 0 then
    let r1 := unlinkPointer list alarm.addr
    let alarmRemove := match r1.1 with
      | some next => next.messageNum
      | none => garbage
    let r2 := unlinkNumber r1.2 alarmRemove
    { list := r2.2, first := r1.1, second := r2.1,
      out := [Output.cancelLine alarm.messageNum alarm.message] }
  else { list := list, first := none, second := none, out := [] }

/-- The scan part of a dispatcher cycle (lines 404-430): the selected node, the list, and
the creation line when the selected node has `alarmRequestType == 1` (the branch that
starts a `periodic_display_thread` on it). -/
def alarm_thread_scan (list : List alarm_t) : Option alarm_t × List alarm_t × List Output :=
  ((scanNew list).1, (scanNew list).2,
    match (scanNew list).1 with
    | some alarm =>
      if alarm.alarmRequestType = 1 then
        [Output.displayCreated alarm.messageNum alarm.message]
      else []
    | none => [])

/-- What one pass through the loop body of `periodic_display_thread` leaves: the local
`temp`, the lines printed, and whether the thread returned. -/
structure Iteration where
  temp : Int
  out : List Output
  exited : Bool
deriving DecidableEq, Repr

/-- One pass through the loop body of `periodic_display_thread` (lines 288-340) on the
bound node as it stands during the pass, with the local `temp` as a C truth value.  The
three print tests run in source order, the third one writing `temp`. -/
def periodic_display_iteration (alarm : alarm_t) (temp : Int) : Iteration :=
  if alarm.alarmExistsFlag = 0 then
    { temp := temp, out := [Output.displayExiting alarm.messageNum], exited := true }
  else
    let out1 := if alarm.changeTracker = 0 then
      [Output.messageLine alarm.messageNum alarm.message] else []
    let out2 := if alarm.changeTracker = 1 ∧ temp ≠ 0 then
      [Output.messageChanged alarm.messageNum alarm.message] else []
    let out3 := if alarm.changeTracker = 1 ∧ ¬ (temp ≠ 0) then
      [Output.messageLine alarm.messageNum alarm.message] else []
    let temp3 := if alarm.changeTracker = 1 ∧ ¬ (temp ≠ 0) then 1 else temp
    { temp := temp3, out := out1 ++ out2 ++ out3, exited := false }

/-- The head-to-tail lookup of a message number among the Register entries: the first
listed node with `alarmRequestType == 1` and that message number. -/
def lookupRegister (list : List alarm_t) (m : Int) : Option alarm_t :=
  list.find? (fun x => decide (x.alarmRequestType = 1 ∧ x.messageNum = m))

/-- The number of listed Register entries with message number `m`. -/
def countRegister (list : List alarm_t) (m : Int) : Nat :=
  list.countP (fun x => decide (x.alarmRequestType = 1 ∧ x.messageNum = m))

/-- A running `periodic_display_thread`: the address of the node it was created on and
its local `temp`. -/
structure Worker where
  alarm : Nat
  temp : Int
deriving DecidableEq, Repr

/-- The state shared by the threads, between two atomic steps: the nodes linked between
`head` and `tail`, the nodes the dispatcher has unlinked (the program frees no node that
was linked), the pointer `alarm` of the dispatcher when its scan has selected a node with
`alarmRequestType == 0` whose removal has not run yet (`none` when the dispatcher is at
the top of its loop), the running display threads, and the lines printed so far. -/
structure State where
  list : List alarm_t
  unlinked : List alarm_t
  alarm : Option Nat
  workers : List Worker
  out : List Output
deriving DecidableEq, Repr

/-- The state `main` sets up (lines 507-513): `head->link == tail`. -/
def State.init : State :=
  { list := [], unlinked := [], alarm := none, workers := [], out := [] }

/-- Dereference of a node pointer: the node with that address, linked or unlinked. -/
def State.node (s : State) (p : Nat) : Option alarm_t :=
  (s.list ++ s.unlinked).find? (fun x => decide (x.addr = p))

/-- The producer step: `main` accepts a line and runs `alarm_insert` on its node. -/
def State.submit (s : State) (now : Int) (raw : alarm_t) (cmd : Command) : State :=
  { s with
    list := (main_submit now s.list (main_request raw cmd)).1
    out := s.out ++ (main_submit now s.list (main_request raw cmd)).2 }

/-- The pointer the dispatcher carries from its scan to line 451: the selected node when
it has `alarmRequestType == 0`.  For any other outcome of the scan the test of line 451
is false and the dispatcher is back at the top of its loop. -/
def pendingRemoval : Option alarm_t → Option Nat
  | some alarm => if alarm.alarmRequestType = 0 then some alarm.addr else none
  | none => none

/-- The display thread the scan part creates (lines 421-430): one on the selected node,
with `temp = 0`, when the node has `alarmRequestType == 1`. -/
def createdWorker : Option alarm_t → List Worker
  | some alarm => if alarm.alarmRequestType = 1 then [⟨alarm.addr, 0⟩] else []
  | none => []

/-- The scan part of a dispatcher cycle as a step. -/
def State.scan (s : State) : State :=
  { s with
    list := (alarm_thread_scan s.list).2.1
    alarm := pendingRemoval (alarm_thread_scan s.list).1
    workers := s.workers ++ createdWorker (alarm_thread_scan s.list).1
    out := s.out ++ (alarm_thread_scan s.list).2.2 }

/-- The removal part of a dispatcher cycle as a step, `garbage` being the indeterminate
initial value of `alarmRemove`. -/
def State.remove (s : State) (garbage : Int) : State :=
  match s.alarm with
  | none => s
  | some p =>
    match s.node p with
    | none => s
    | some a =>
      { s with
        list := (alarm_thread_remove s.list a garbage).list
        unlinked := s.unlinked ++ (alarm_thread_remove s.list a garbage).first.toList
          ++ (alarm_thread_remove s.list a garbage).second.toList
        alarm := none
        out := s.out ++ (alarm_thread_remove s.list a garbage).out }

/-- One pass of the `i`-th display thread through its loop body as a step. -/
def State.work (s : State) (i : Nat) : State :=
  match s.workers.get? i with
  | none => s
  | some w =>
    match s.node w.alarm with
    | none => s
    | some a =>
      { s with
        workers :=
          if (periodic_display_iteration a w.temp).exited then s.workers.eraseIdx i
          else s.workers.set i { w with temp := (periodic_display_iteration a w.temp).temp }
        out := s.out ++ (periodic_display_iteration a w.temp).out }

/-- The states the program reaches from the one `main` sets up.  A submitted node comes
from `malloc`, so its address is the address of no node still allocated; the dispatcher
scans only from the top of its loop. -/
inductive Reachable : State → Prop
  | init : Reachable State.init
  | submit (s : State) (now : Int) (raw : alarm_t) (cmd : Command) :
      Reachable s → (∀ x ∈ s.list ++ s.unlinked, x.addr ≠ raw.addr) →
      Reachable (s.submit now raw cmd)
  | scan (s : State) : Reachable s → s.alarm = none → Reachable s.scan
  | remove (s : State) (garbage : Int) : Reachable s → Reachable (s.remove garbage)
  | work (s : State) (i : Nat) : Reachable s → Reachable (s.work i)

/-- One atomic step of the program: a submission, a dispatcher scan from the top of its
loop, a dispatcher removal, or a pass of a display thread. -/
inductive Step : State → State → Prop
  | submit (s : State) (now : Int) (raw : alarm_t) (cmd : Command) :
      (∀ x ∈ s.list ++ s.unlinked, x.addr ≠ raw.addr) → Step s (s.submit now raw cmd)
  | scan (s : State) : s.alarm = none → Step s s.scan
  | remove (s : State) (garbage : Int) : Step s (s.remove garbage)
  | work (s : State) (i : Nat) : Step s (s.work i)

/-- The shape of the list: it is a run of blocks with strictly ascending message numbers,
each block being one Register node, or one Cancel node directly followed by the Register
node with the same message number. -/
def Ordered : List alarm_t → Prop
  | [] => True
  | x :: rest =>
    ((x.alarmRequestType = 1 ∧ ∀ y ∈ rest, x.messageNum < y.messageNum) ∨
      (x.alarmRequestType = 0 ∧ ∃ y rest2, rest = y :: rest2 ∧ y.alarmRequestType = 1 ∧
        y.messageNum = x.messageNum)) ∧ Ordered rest

/-- The invariant of the reachable states. -/
structure Inv (s : State) : Prop where
  ordered : Ordered s.list
  exists_flag : ∀ x ∈ s.list, x.alarmExistsFlag = 1
  unlinked_flag : ∀ x ∈ s.unlinked, x.alarmExistsFlag = 0
  nodup : ((s.list ++ s.unlinked).map (fun x => x.addr)).Nodup
  pending : ∀ p, s.alarm = some p → ∃ c ∈ s.list, c.addr = p ∧ c.alarmRequestType = 0

/-- The fields of a node that neither `changeAlarm` nor the dispatcher scan writes. -/
def key (x : alarm_t) : Nat × Int × Int × Int :=
  (x.addr, x.messageNum, x.alarmRequestType, x.alarmExistsFlag)

/-- The lines a display thread prints over consecutive passes through its loop body,
given the bound node as it stands at each pass and the value of `temp` at the first of
them; the thread stops at the pass in which it returns. -/
def periodic_display_run : List alarm_t → Int → List Output
  | [], _ => []
  | alarm :: later, temp =>
    if (periodic_display_iteration alarm temp).exited then
      (periodic_display_iteration alarm temp).out
    else
      (periodic_display_iteration alarm temp).out ++
        periodic_display_run later (periodic_display_iteration alarm temp).temp

/-! ### Example states -/

/-- A node as `malloc` returns it: its address, and some contents of its fields. -/
def rawNode (p : Nat) : alarm_t := ⟨p, 7, 7, "?", 7, 7, 7, 7, 7⟩

/-- The input `5 Message(2) A` at time 100. -/
def exOne : State := State.init.submit 100 (rawNode 1) (.register 5 2 "A")

/-- Then the input `4 Message(1) B` at time 101. -/
def exTwo : State := exOne.submit 101 (rawNode 2) (.register 4 1 "B")

/-- Then the input `Cancel: Message(2)` at time 102. -/
def exCancelled : State := exTwo.submit 102 (rawNode 3) (.cancel 2)

/-- Then two dispatcher scans: the first selects the Register node of message 1, the
second the Cancel node of message 2. -/
def exSelected : State := exCancelled.scan.scan

/-- The Register node of message 2 as `exOne` links it. -/
def exRegister2 : alarm_t := ⟨1, 5, 105, "A", 2, 1, 0, 1, 1⟩

/-- The Register node of message 1 as `exTwo` links it. -/
def exRegister1 : alarm_t := ⟨2, 4, 105, "B", 1, 1, 0, 1, 1⟩

/-- The request node of `Cancel: Message(2)` as `main` passes it to `alarm_insert`. -/
def exCancel2 : alarm_t := ⟨3, 0, 102, "", 2, 0, 0, 1, 7⟩

/-- A second request node of `Cancel: Message(2)`. -/
def exCancel2Again : alarm_t := ⟨4, 0, 103, "", 2, 0, 0, 1, 7⟩

/-- The request node of `9 Message(2) C` as `main` passes it to `alarm_insert`. -/
def exRegister2Again : alarm_t := ⟨5, 9, 112, "C", 2, 1, 0, 1, 7⟩

/-- The request node of `6 Message(3) D` before `main` sets its time and flags. -/
def exRegister3 : alarm_t := main_request (rawNode 6) (.register 6 3 "D")

/-- The request node of `Cancel: Message(9)`. -/
def exCancel9 : alarm_t := ⟨7, 0, 103, "", 9, 0, 0, 1, 7⟩

/-- After `exOne`: a dispatcher scan creates the display thread of message 2, which
makes one pass through its loop body. -/
def exWorker : State := exOne.scan.work 0

/-- Then the input `3 Message(2) B` at time 103: message 2 is registered again. -/
def exChanged : State := exWorker.submit 103 (rawNode 2) (.register 3 2 "B")

/-- Then three more passes of the display thread of message 2. -/
def exNotice : State := ((exChanged.work 0).work 0).work 0

/-- The number of listed Cancel entries with message number `m`. -/
def countCancel (list : List alarm_t) (m : Int) : Nat :=
  list.countP (fun x => decide (x.alarmRequestType = 0 ∧ x.messageNum = m))

/-- The reachable states, each with the addresses of the nodes for which the dispatcher
has taken its thread-creation branch (lines 421-430) on the way, in the order of the
creations. -/
inductive Created : State → List Nat → Prop
  | init : Created State.init []
  | submit (s : State) (cs : List Nat) (now : Int) (raw : alarm_t) (cmd : Command) :
      Created s cs → (∀ x ∈ s.list ++ s.unlinked, x.addr ≠ raw.addr) →
      Created (s.submit now raw cmd) cs
  | scan (s : State) (cs : List Nat) : Created s cs → s.alarm = none →
      Created s.scan
        (cs ++ (createdWorker (alarm_thread_scan s.list).1).map (fun w => w.alarm))
  | remove (s : State) (cs : List Nat) (garbage : Int) : Created s cs →
      Created (s.remove garbage) cs
  | work (s : State) (cs : List Nat) (i : Nat) : Created s cs → Created (s.work i) cs

/-- One dispatcher cycle, one turn of the loop of `alarm_thread` (lines 385-499): the scan
part, then the removal part (which does nothing unless the scan selected a node of
type 0). -/
def State.cycle (s : State) (garbage : Int) : State := (s.scan).remove garbage

/-- Consecutive dispatcher cycles with no other step in between, one value of `garbage`
for each cycle. -/
def State.cycles : State → List Int → State
  | s, [] => s
  | s, garbage :: later => State.cycles (s.cycle garbage) later

/-- The nodes that consecutive dispatcher cycles select, in the order of the cycles. -/
def State.selected : State → List Int → List alarm_t
  | _, [] => []
  | s, garbage :: later =>
    (scanNew s.list).1.toList ++ State.selected (s.cycle garbage) later

/-- The line a dispatcher cycle prints for the node it selected: the creation line for
type 1 (line 424), the cancel line for type 0 (line 493). -/
def cycleLine (a : alarm_t) : Output :=
  if a.alarmRequestType = 1 then Output.displayCreated a.messageNum a.message
  else Output.cancelLine a.messageNum a.message

/-- The message number a printed line is about. -/
def Output.num : Output → Int
  | .doesNotExist n => n
  | .multiple n => n
  | .displayCreated n _ => n
  | .displayExiting n => n
  | .messageLine n _ => n
  | .messageChanged n _ => n
  | .cancelLine n _ => n

/-- The scenario of the spec: from the empty list the input `2 Message(3) X` at time
`t1`, then the dispatcher cycles `gs1`.  This is the state the first `Cancel: Message(3)`
finds. -/
def scenarioFirstCancel (t1 : Int) (raw1 : alarm_t) (gs1 : List Int) : State :=
  (State.init.submit t1 raw1 (.register 2 3 "X")).cycles gs1

/-- Then the first `Cancel: Message(3)` at time `t2` and the dispatcher cycles `gs2`.
This is the state the second `Cancel: Message(3)` finds. -/
def scenarioSecondCancel (t1 : Int) (raw1 : alarm_t) (gs1 : List Int)
    (t2 : Int) (raw2 : alarm_t) (gs2 : List Int) : State :=
  ((scenarioFirstCancel t1 raw1 gs1).submit t2 raw2 (.cancel 3)).cycles gs2

/-- A state with the dispatcher at the top of its loop whose list is one Register node
of message 3. -/
def OnlyRegister3 (s : State) : Prop :=
  s.alarm = none ∧ ∃ r, s.list = [r] ∧ r.alarmRequestType = 1 ∧ r.messageNum = 3

/-! ### The gate -/

/-- The gate: the global `counter` (line 55) and the values of the semaphores
`alarm_mutex1` and `alarm_cond1` (lines 59-60). -/
structure Gate where
  counter : Int
  alarm_mutex1 : Nat
  alarm_cond1 : Nat
deriving DecidableEq, Repr

/-- The call `sem_wait` on a semaphore of value `v`: the value it leaves, or `none` when
the caller blocks. -/
def sem_wait (v : Nat) : Option Nat := if v = 0 then none else some (v - 1)

/-- The call `sem_post` on a semaphore of value `v`: the value it leaves. -/
def sem_post (v : Nat) : Nat := v + 1

/-- The enter sequence of a display thread and of the dispatcher (lines 270-285 and
388-402), run without another thread in between: `sem_wait (&alarm_mutex1)`,
`counter = counter + 1`, `sem_wait (&alarm_cond1)` when `counter == 1`,
`sem_post (&alarm_mutex1)`.  The result is `none` when one of the two waits blocks. -/
def gate_enter (g : Gate) : Option Gate :=
  match sem_wait g.alarm_mutex1 with
  | none => none
  | some m =>
    if g.counter + 1 = 1 then
      match sem_wait g.alarm_cond1 with
      | none => none
      | some c =>
        some { counter := g.counter + 1, alarm_mutex1 := sem_post m, alarm_cond1 := c }
    else
      some { counter := g.counter + 1, alarm_mutex1 := sem_post m,
             alarm_cond1 := g.alarm_cond1 }

/-- The exit sequence (lines 298-311, 343-358 and 433-446), run without another thread
in between: `sem_wait (&alarm_mutex1)`, `counter = counter - 1`,
`sem_post (&alarm_cond1)` when `counter == 0`, `sem_post (&alarm_mutex1)`. -/
def gate_exit (g : Gate) : Option Gate :=
  match sem_wait g.alarm_mutex1 with
  | none => none
  | some m =>
    if g.counter - 1 = 0 then
      some { counter := g.counter - 1, alarm_mutex1 := sem_post m,
             alarm_cond1 := sem_post g.alarm_cond1 }
    else
      some { counter := g.counter - 1, alarm_mutex1 := sem_post m,
             alarm_cond1 := g.alarm_cond1 }

/-- The two operations on the gate. -/
inductive GateOp where
  | enter
  | exit
deriving DecidableEq, Repr

/-- One operation on the gate. -/
def gate_step (g : Gate) : GateOp → Option Gate
  | .enter => gate_enter g
  | .exit => gate_exit g

/-- A sequence of operations on the gate, each run to its end before the next starts;
`none` when one of them blocks. -/
def gate_run : Gate → List GateOp → Option Gate
  | g, [] => some g
  | g, op :: ops =>
    match gate_step g op with
    | none => none
    | some g2 => gate_run g2 ops

/-- No prefix of the sequence has more exits than enters, `n` entrants being inside when
it starts. -/
def balancedFrom : Nat → List GateOp → Bool
  | _, [] => true
  | n, .enter :: ops => balancedFrom (n + 1) ops
  | 0, .exit :: _ => false
  | n + 1, .exit :: ops => balancedFrom n ops

/-- A gate with `counter == 0` and both semaphores free (value 1). -/
def gate_free : Gate := { counter := 0, alarm_mutex1 := 1, alarm_cond1 := 1 }

/-- The gate between operations, `n` entrants being inside: the counter is `n`, the
mutex is free, and the permit is held exactly when `n` is not 0. -/
def GateAt (n : Nat) (g : Gate) : Prop :=
  g.counter = n ∧ g.alarm_mutex1 = 1 ∧ (n = 0 → g.alarm_cond1 = 1) ∧
    (n ≠ 0 → g.alarm_cond1 = 0)

/-! ### The threads at the gate, operation by operation -/

/-- Where a thread that brackets a section with the counter stands: a display thread
(lines 267-363) or the dispatcher (lines 385-499), which has the removal part in
addition. -/
inductive Pc where
  /-- Before the `sem_wait (&alarm_mutex1)` of the enter: the top of the loop (a display
  thread may be asleep or may have returned). -/
  | outside
  /-- In the enter, `alarm_mutex1` held, before `counter = counter + 1`. -/
  | enterLocked
  /-- In the enter, `counter == 1`: at `sem_wait (&alarm_cond1)`, `alarm_mutex1` held. -/
  | enterWait
  /-- At the `sem_post (&alarm_mutex1)` that ends the enter. -/
  | enterUnlock
  /-- In the bracketed section, before the `sem_wait (&alarm_mutex1)` of the exit. -/
  | inside
  /-- In the exit, `alarm_mutex1` held, before `counter = counter - 1`. -/
  | exitLocked
  /-- In the exit, `counter == 0`: at `sem_post (&alarm_cond1)`. -/
  | exitPost
  /-- At the `sem_post (&alarm_mutex1)` that ends the exit. -/
  | exitUnlock
  /-- The dispatcher at `sem_wait (&alarm_cond1)` of line 454. -/
  | removeWait
  /-- The dispatcher in its removal (lines 457-493), before the `sem_post` of line 496. -/
  | removing
deriving DecidableEq, Repr

/-- The next operation of a thread at the gate: the gate and the place it leaves, or
`none` when the thread is at a `sem_wait` that blocks.  `cancel` tells whether the test
of line 451 is true (only the dispatcher has that part). -/
def thread_step (g : Gate) (cancel : Bool) : Pc → Option (Gate × Pc)
  | .outside =>
    match sem_wait g.alarm_mutex1 with
    | none => none
    | some m => some ({ g with alarm_mutex1 := m }, .enterLocked)
  | .enterLocked =>
    some ({ g with counter := g.counter + 1 },
      if g.counter + 1 = 1 then .enterWait else .enterUnlock)
  | .enterWait =>
    match sem_wait g.alarm_cond1 with
    | none => none
    | some c => some ({ g with alarm_cond1 := c }, .enterUnlock)
  | .enterUnlock => some ({ g with alarm_mutex1 := sem_post g.alarm_mutex1 }, .inside)
  | .inside =>
    match sem_wait g.alarm_mutex1 with
    | none => none
    | some m => some ({ g with alarm_mutex1 := m }, .exitLocked)
  | .exitLocked =>
    some ({ g with counter := g.counter - 1 },
      if g.counter - 1 = 0 then .exitPost else .exitUnlock)
  | .exitPost => some ({ g with alarm_cond1 := sem_post g.alarm_cond1 }, .exitUnlock)
  | .exitUnlock =>
    some ({ g with alarm_mutex1 := sem_post g.alarm_mutex1 },
      if cancel then .removeWait else .outside)
  | .removeWait =>
    match sem_wait g.alarm_cond1 with
    | none => none
    | some c => some ({ g with alarm_cond1 := c }, .removing)
  | .removing => some ({ g with alarm_cond1 := sem_post g.alarm_cond1 }, .outside)

/-- Where `main` stands (lines 520-590). -/
inductive ProducerPc where
  /-- Reading and parsing a line (lines 522-568). -/
  | reading
  /-- A line was accepted: at `sem_wait (&alarm_cond1)` of line 573. -/
  | insertWait
  /-- In `alarm_insert` (lines 574-586), before the `sem_post` of line 587. -/
  | inserting
deriving DecidableEq, Repr

/-- The next operation of `main`; `none` when it is at a `sem_wait` that blocks. -/
def producer_step (g : Gate) : ProducerPc → Option (Gate × ProducerPc)
  | .reading => some (g, .insertWait)
  | .insertWait =>
    match sem_wait g.alarm_cond1 with
    | none => none
    | some c => some ({ g with alarm_cond1 := c }, .inserting)
  | .inserting => some ({ g with alarm_cond1 := sem_post g.alarm_cond1 }, .reading)

/-- The gate and the places of all threads. -/
structure Sys where
  gate : Gate
  producer : ProducerPc
  dispatcher : Pc
  workers : List Pc
deriving DecidableEq, Repr

/-- One operation of one thread.  The dispatcher creates display threads while it is in
its section (lines 421-430); a display thread never takes the removal part. -/
inductive SysStep : Sys → Sys → Prop
  | producer (s : Sys) (g : Gate) (p : ProducerPc) :
      producer_step s.gate s.producer = some (g, p) →
      SysStep s { s with gate := g, producer := p }
  | dispatcher (s : Sys) (cancel : Bool) (g : Gate) (pc : Pc) :
      thread_step s.gate cancel s.dispatcher = some (g, pc) →
      SysStep s { s with gate := g, dispatcher := pc }
  | create (s : Sys) : s.dispatcher = Pc.inside →
      SysStep s { s with workers := s.workers ++ [Pc.outside] }
  | worker (s : Sys) (pre post : List Pc) (pc pc2 : Pc) (g : Gate) :
      s.workers = pre ++ pc :: post → thread_step s.gate false pc = some (g, pc2) →
      SysStep s { s with gate := g, workers := pre ++ pc2 :: post }

/-- The states reachable from `s0` in any interleaving. -/
inductive SysReachable (s0 : Sys) : Sys → Prop
  | start : SysReachable s0 s0
  | step (s s2 : Sys) : SysReachable s0 s → SysStep s s2 → SysReachable s0 s2

/-- The start with `counter == 0` and both semaphores free: `main` reading, the
dispatcher at the top of its loop, no display thread. -/
def sys_free : Sys :=
  { gate := gate_free, producer := .reading, dispatcher := .outside, workers := [] }

/-- The dispatcher and the display threads. -/
def Sys.threads (s : Sys) : List Pc := s.dispatcher :: s.workers

/-- 1 when `main` is in `alarm_insert`, else 0. -/
def Sys.inserting (s : Sys) : Nat := if s.producer = ProducerPc.inserting then 1 else 0

/-- The invariant of the gate, for the threads at their places and `inserting` producers
in `alarm_insert`: one holder of `alarm_mutex1` at most; `counter` counts the threads
between their increment and their decrement; `alarm_cond1` is held by the group of
counted threads, by the producer or by the removal, and by one of them only; a thread
waiting for the permit in its enter is the only counted one, and a thread about to post
the permit in its exit has left no counted one. -/
def GateInv (g : Gate) (inserting : Nat) (threads : List Pc) : Prop :=
  g.alarm_mutex1 + threads.count Pc.enterLocked + threads.count Pc.enterWait +
      threads.count Pc.enterUnlock + threads.count Pc.exitLocked +
      threads.count Pc.exitPost + threads.count Pc.exitUnlock = 1 ∧
    g.counter = ((threads.count Pc.enterWait + threads.count Pc.enterUnlock +
      threads.count Pc.inside + threads.count Pc.exitLocked : Nat) : Int) ∧
    (threads.count Pc.enterUnlock + threads.count Pc.inside +
        threads.count Pc.exitLocked + threads.count Pc.exitPost = 0 ∨
      g.alarm_cond1 + inserting + threads.count Pc.removing = 0) ∧
    (0 < threads.count Pc.enterUnlock + threads.count Pc.inside +
        threads.count Pc.exitLocked + threads.count Pc.exitPost ∨
      g.alarm_cond1 + inserting + threads.count Pc.removing = 1) ∧
    (threads.count Pc.enterWait = 0 ∨ g.counter = 1) ∧
    (threads.count Pc.exitPost = 0 ∨ g.counter = 0)

/-- Every thread is at a `sem_wait` that blocks: no thread has a next operation. -/
def AllBlocked (s : Sys) : Prop :=
  producer_step s.gate s.producer = none ∧
    ∀ t ∈ s.threads, thread_step s.gate false t = none

/-- The gate as `main` sets it up before the first `sem_wait`: `counter = 0` (line 507),
and no `sem_init` for `alarm_mutex1` or `alarm_cond1` anywhere in the program.  Both are
objects of static storage duration (lines 59-60), so all their bytes are zero, which is
a semaphore of value 0 for the implementation the program is written for (POSIX leaves
the use of a semaphore that was never initialised undefined). -/
def main_gate : Gate := { counter := 0, alarm_mutex1 := 0, alarm_cond1 := 0 }

/-- The start of the program: the gate of `main`, `main` reading its first line, the
dispatcher created (line 516) at the top of its loop, no display thread. -/
def main_sys : Sys :=
  { gate := main_gate, producer := .reading, dispatcher := .outside, workers := [] }

/-- The program after `main` has accepted its first line, whatever the line. -/
def main_sys_accepted : Sys :=
  { gate := main_gate, producer := .insertWait, dispatcher := .outside, workers := [] }

/-- From the free gate: `main` has accepted a line and is in `alarm_insert`. -/
def exInserting : Sys :=
  { gate := { counter := 0, alarm_mutex1 := 1, alarm_cond1 := 0 },
    producer := .inserting, dispatcher := .outside, workers := [] }

/-! ### Runs that continue from a state -/

/-- The runs that continue from the state `s` whose creation record is `cs`: the states
they reach, each with the record extended by the creations on the way. -/
inductive Later (s : State) (cs : List Nat) : State → List Nat → Prop
  | start : Later s cs s cs
  | submit (s1 : State) (cs1 : List Nat) (now : Int) (raw : alarm_t) (cmd : Command) :
      Later s cs s1 cs1 → (∀ x ∈ s1.list ++ s1.unlinked, x.addr ≠ raw.addr) →
      Later s cs (s1.submit now raw cmd) cs1
  | scan (s1 : State) (cs1 : List Nat) : Later s cs s1 cs1 → s1.alarm = none →
      Later s cs s1.scan
        (cs1 ++ (createdWorker (alarm_thread_scan s1.list).1).map (fun w => w.alarm))
  | remove (s1 : State) (cs1 : List Nat) (garbage : Int) : Later s cs s1 cs1 →
      Later s cs (s1.remove garbage) cs1
  | work (s1 : State) (cs1 : List Nat) (i : Nat) : Later s cs s1 cs1 →
      Later s cs (s1.work i) cs1

/-- The Cancel node at the address of `c` and the Register node at the address of `r`
are both linked, the Register node still with `newAlarmFlag == 1`, and the Cancel node
either still with `newAlarmFlag == 1` or selected by the dispatcher, whose removal has
not run yet. -/
def PairListed (c r : alarm_t) (s : State) : Prop :=
  ∃ c1 ∈ s.list, ∃ r1 ∈ s.list, c1.addr = c.addr ∧ c1.alarmRequestType = 0 ∧
    c1.messageNum = c.messageNum ∧ c1.message = c.message ∧ r1.addr = r.addr ∧
    r1.alarmRequestType = 1 ∧ r1.messageNum = c.messageNum ∧ r1.newAlarmFlag = 1 ∧
    (c1.newAlarmFlag = 1 ∨ s.alarm = some c.addr)

/-- The removal has unlinked the node at the address of `c` and the node at the address
of `r`, the latter with `newAlarmFlag` still 1; no listed node has the address of `r`;
and the cancel line of `c` was printed. -/
def PairUnlinked (c r : alarm_t) (s : State) : Prop :=
  ∃ c1 ∈ s.unlinked, ∃ r1 ∈ s.unlinked, c1.addr = c.addr ∧ r1.addr = r.addr ∧
    r1.newAlarmFlag = 1 ∧ (∀ x ∈ s.list, x.addr ≠ r.addr) ∧
    Output.cancelLine c.messageNum c.message ∈ s.out

/-- After `exOne`: the input `Cancel: Message(2)` at time 102, before any dispatcher
scan. -/
def exPending : State := exOne.submit 102 (rawNode 3) (.cancel 2)

/-- The Cancel node of message 2 as `exPending` links it. -/
def exCancel2Listed : alarm_t := ⟨3, 0, 102, "", 2, 0, 0, 1, 1⟩

/-- After `exWorker` (the display thread of message 2 runs): the input
`Cancel: Message(2)` at time 102 and one dispatcher cycle, which unlinks both nodes of
message 2. -/
def exRemoved : State := ((exWorker.submit 102 (rawNode 3) (.cancel 2)).scan).remove 0

/-! ## Lemmas on the list operations -/

theorem findTypeA_eq_zero_iff (list : List alarm_t) (alarm : alarm_t) :
    findTypeA list alarm = 0 ↔
      ∀ x ∈ list, ¬ (x.alarmRequestType = 1 ∧ x.messageNum = alarm.messageNum) := by
  induction list with
  | nil => simp [findTypeA]
  | cons next rest ih =>
    by_cases h : next.alarmRequestType = 1 ∧ alarm.messageNum = next.messageNum
    · simp only [findTypeA, if_pos h]
      constructor
      · intro h1; exact absurd h1 (by decide)
      · intro h2; exact absurd ⟨h.1, h.2.symm⟩ (h2 next (List.mem_cons_self _ _))
    · simp only [findTypeA, if_neg h, ih, List.mem_cons, forall_eq_or_imp]
      constructor
      · intro h1; exact ⟨fun h2 => h ⟨h2.1, h2.2.symm⟩, h1⟩
      · intro h1; exact h1.2

theorem findTypeB_eq_zero_iff (list : List alarm_t) (alarm : alarm_t) :
    findTypeB list alarm = 0 ↔
      ∀ x ∈ list, ¬ (x.alarmRequestType = 0 ∧ x.messageNum = alarm.messageNum) := by
  induction list with
  | nil => simp [findTypeB]
  | cons next rest ih =>
    by_cases h : next.alarmRequestType = 0 ∧ alarm.messageNum = next.messageNum
    · simp only [findTypeB, if_pos h]
      constructor
      · intro h1; exact absurd h1 (by decide)
      · intro h2; exact absurd ⟨h.1, h.2.symm⟩ (h2 next (List.mem_cons_self _ _))
    · simp only [findTypeB, if_neg h, ih, List.mem_cons, forall_eq_or_imp]
      constructor
      · intro h1; exact ⟨fun h2 => h ⟨h2.1, h2.2.symm⟩, h1⟩
      · intro h1; exact h1.2

/-- The register insertion splits the list at the first node whose message number is not
below the one of `alarm`. -/
theorem insertRegister_split (list : List alarm_t) (alarm : alarm_t) :
    ∃ pre post, list = pre ++ post ∧
      (∀ x ∈ pre, x.messageNum < alarm.messageNum) ∧
      (∀ y, post.head? = some y → alarm.messageNum ≤ y.messageNum) ∧
      insertRegister list alarm = pre ++ { alarm with alarmExistsFlag := 1 } :: post := by
  induction list with
  | nil => exact ⟨[], [], rfl, by simp, by simp, rfl⟩
  | cons next rest ih =>
    by_cases h : next.messageNum ≥ alarm.messageNum
    · refine ⟨[], next :: rest, rfl, by simp, ?_, ?_⟩
      · intro y hy
        simp only [List.head?_cons, Option.some.injEq] at hy
        subst hy; exact h
      · simp [insertRegister, h]
    · obtain ⟨pre, post, h1, h2, h3, h4⟩ := ih
      refine ⟨next :: pre, post, by simp [h1], ?_, h3, ?_⟩
      · intro x hx
        rcases List.mem_cons.1 hx with rfl | hx
        · exact lt_of_not_ge h
        · exact h2 x hx
      · simp [insertRegister, h, h4]

/-- The cancel insertion, when some listed node has a message number not below the one of
`alarm`, splits the list at the first such node. -/
theorem insertCancel_split (list : List alarm_t) (alarm : alarm_t)
    (hex : ∃ x ∈ list, alarm.messageNum ≤ x.messageNum) :
    ∃ pre y post, list = pre ++ y :: post ∧
      (∀ x ∈ pre, x.messageNum < alarm.messageNum) ∧
      alarm.messageNum ≤ y.messageNum ∧
      insertCancel list alarm = pre ++ { alarm with alarmExistsFlag := 1 } :: y :: post := by
  induction list with
  | nil => simp at hex
  | cons next rest ih =>
    by_cases h : next.messageNum ≥ alarm.messageNum
    · exact ⟨[], next, rest, rfl, by simp, h, by simp [insertCancel, h]⟩
    · have hex2 : ∃ x ∈ rest, alarm.messageNum ≤ x.messageNum := by
        obtain ⟨x, hx, hle⟩ := hex
        rcases List.mem_cons.1 hx with rfl | hx
        · exact absurd hle h
        · exact ⟨x, hx, hle⟩
      obtain ⟨pre, y, post, h1, h2, h3, h4⟩ := ih hex2
      refine ⟨next :: pre, y, post, by simp [h1], ?_, h3, ?_⟩
      · intro x hx
        rcases List.mem_cons.1 hx with rfl | hx
        · exact lt_of_not_ge h
        · exact h2 x hx
      · simp [insertCancel, h, h4]

/-- `changeAlarm` rewrites the first Register entry with the message number of `alarm`
in place. -/
theorem changeAlarm_first (pre post : List alarm_t) (e alarm : alarm_t)
    (he : e.alarmRequestType = 1) (hm : e.messageNum = alarm.messageNum)
    (hpre : ∀ x ∈ pre, ¬ (x.alarmRequestType = 1 ∧ x.messageNum = alarm.messageNum)) :
    changeAlarm (pre ++ e :: post) alarm =
      pre ++ { e with seconds := alarm.seconds, message := alarm.message,
                      changeTracker := 1 } :: post := by
  induction pre with
  | nil => simp [changeAlarm, he, hm]
  | cons next rest ih =>
    have h : ¬ (next.alarmRequestType = 1 ∧ alarm.messageNum = next.messageNum) :=
      fun h => hpre next (List.mem_cons_self _ _) ⟨h.1, h.2.symm⟩
    have ih2 := ih (fun x hx => hpre x (List.mem_cons_of_mem _ hx))
    rw [List.cons_append]
    simp only [changeAlarm, if_neg h]
    exact congrArg _ ih2

/-- A list with a Register entry for a message number splits at the first one. -/
theorem exists_first_register (list : List alarm_t) (m : Int)
    (h : ∃ x ∈ list, x.alarmRequestType = 1 ∧ x.messageNum = m) :
    ∃ pre e post, list = pre ++ e :: post ∧ e.alarmRequestType = 1 ∧ e.messageNum = m ∧
      ∀ x ∈ pre, ¬ (x.alarmRequestType = 1 ∧ x.messageNum = m) := by
  induction list with
  | nil => simp at h
  | cons next rest ih =>
    by_cases hn : next.alarmRequestType = 1 ∧ next.messageNum = m
    · exact ⟨[], next, rest, rfl, hn.1, hn.2, by simp⟩
    · have h2 : ∃ x ∈ rest, x.alarmRequestType = 1 ∧ x.messageNum = m := by
        obtain ⟨x, hx, hx2⟩ := h
        rcases List.mem_cons.1 hx with rfl | hx
        · exact absurd hx2 hn
        · exact ⟨x, hx, hx2⟩
      obtain ⟨pre, e, post, h1, h3, h4, h5⟩ := ih h2
      refine ⟨next :: pre, e, post, by simp [h1], h3, h4, ?_⟩
      intro x hx
      rcases List.mem_cons.1 hx with rfl | hx
      · exact hn
      · exact h5 x hx

theorem lookupRegister_skip (pre rest : List alarm_t) (m : Int)
    (hpre : ∀ x ∈ pre, ¬ (x.alarmRequestType = 1 ∧ x.messageNum = m)) :
    lookupRegister (pre ++ rest) m = lookupRegister rest m := by
  induction pre with
  | nil => rfl
  | cons next pre2 ih =>
    have h := hpre next (List.mem_cons_self _ _)
    have ih2 := ih (fun x hx => hpre x (List.mem_cons_of_mem _ hx))
    unfold lookupRegister at ih2 ⊢
    rw [List.cons_append, List.find?_cons_of_neg _ (by simpa using h)]
    exact ih2

theorem lookupRegister_hit (e : alarm_t) (rest : List alarm_t) (m : Int)
    (he : e.alarmRequestType = 1) (hm : e.messageNum = m) :
    lookupRegister (e :: rest) m = some e := by
  unfold lookupRegister
  rw [List.find?_cons_of_pos _ (by simp [he, hm])]

/-- C2: after `alarm_insert` of a Register request `r`, the head-to-tail lookup of
`r.messageNum` among the Register entries yields an entry with the seconds and the
message of `r`, whether `r` was merged into an existing entry or newly linked. -/
theorem lookup_after_register (list : List alarm_t) (r : alarm_t)
    (hr : r.alarmRequestType = 1) :
    ∃ e, lookupRegister (alarm_insert list r).1 r.messageNum = some e ∧
      e.seconds = r.seconds ∧ e.message = r.message := by
  by_cases hA : findTypeA list r = 0
  · have hno := (findTypeA_eq_zero_iff list r).1 hA
    obtain ⟨pre, post, h1, _, _, h4⟩ := insertRegister_split list r
    refine ⟨{ r with alarmExistsFlag := 1 }, ?_, rfl, rfl⟩
    have hpre : ∀ x ∈ pre, ¬ (x.alarmRequestType = 1 ∧ x.messageNum = r.messageNum) :=
      fun x hx => hno x (by rw [h1]; exact List.mem_append_left _ hx)
    simp only [alarm_insert, if_pos hr, hA, ne_eq, not_true_eq_false, if_false, h4]
    rw [lookupRegister_skip pre _ _ hpre]
    exact lookupRegister_hit _ _ _ hr rfl
  · have hex : ∃ x ∈ list, x.alarmRequestType = 1 ∧ x.messageNum = r.messageNum := by
      by_contra hcon
      exact hA ((findTypeA_eq_zero_iff list r).2 (fun x hx hx2 => hcon ⟨x, hx, hx2⟩))
    obtain ⟨pre, e, post, h1, h2, h3, h4⟩ := exists_first_register list r.messageNum hex
    refine ⟨{ e with seconds := r.seconds, message := r.message, changeTracker := 1 },
      ?_, rfl, rfl⟩
    simp only [alarm_insert, if_pos hr, ne_eq, hA, not_false_eq_true, if_true]
    rw [h1, changeAlarm_first pre post e r h2 h3 h4, lookupRegister_skip pre _ _ h4]
    exact lookupRegister_hit _ _ _ h2 h3

/-- A concrete instance: `9 Message(2) C` on the list of `exTwo`,
which holds message 2 already. -/
theorem lookup_after_register_witness :
    ∃ e, lookupRegister (alarm_insert exTwo.list exRegister2Again).1
        exRegister2Again.messageNum = some e ∧
      e.seconds = exRegister2Again.seconds ∧ e.message = exRegister2Again.message :=
  lookup_after_register exTwo.list exRegister2Again (by decide)

theorem countRegister_append (l1 l2 : List alarm_t) (m : Int) :
    countRegister (l1 ++ l2) m = countRegister l1 m + countRegister l2 m := by
  unfold countRegister
  exact List.countP_append _ l1 l2

theorem countRegister_eq_zero (l : List alarm_t) (m : Int)
    (h : ∀ x ∈ l, ¬ (x.alarmRequestType = 1 ∧ x.messageNum = m)) :
    countRegister l m = 0 := by
  unfold countRegister
  rw [List.countP_eq_zero]
  intro x hx
  simpa using h x hx

theorem countRegister_cons_pos (e : alarm_t) (l : List alarm_t) (m : Int)
    (he : e.alarmRequestType = 1) (hm : e.messageNum = m) :
    countRegister (e :: l) m = countRegister l m + 1 := by
  unfold countRegister
  rw [List.countP_cons_of_pos _ _ (by simp [he, hm])]

/-- C3: when `e` is the Register entry the list holds for a message number (the first
one from the head), `alarm_insert` of a Register request `r` with that number links no
node: the list is the old one with `e.seconds` and `e.message` overwritten by the values
of `r` and `e.changeTracker = 1`, every other field and every other entry as before, and
the number of Register entries with that number is unchanged, so it stays 1 when `e` was
the only one. -/
theorem reregister_updates_in_place (pre post : List alarm_t) (e r : alarm_t)
    (hr : r.alarmRequestType = 1) (he : e.alarmRequestType = 1)
    (hm : e.messageNum = r.messageNum)
    (hpre : ∀ x ∈ pre, ¬ (x.alarmRequestType = 1 ∧ x.messageNum = r.messageNum)) :
    alarm_insert (pre ++ e :: post) r =
        (pre ++ { e with seconds := r.seconds, message := r.message, changeTracker := 1 }
          :: post, []) ∧
      countRegister (alarm_insert (pre ++ e :: post) r).1 r.messageNum =
        countRegister (pre ++ e :: post) r.messageNum ∧
      ((∀ x ∈ post, ¬ (x.alarmRequestType = 1 ∧ x.messageNum = r.messageNum)) →
        countRegister (pre ++ e :: post) r.messageNum = 1 ∧
        countRegister (alarm_insert (pre ++ e :: post) r).1 r.messageNum = 1) := by
  have hA : findTypeA (pre ++ e :: post) r ≠ 0 := by
    intro h0
    exact (findTypeA_eq_zero_iff _ r).1 h0 e (by simp) ⟨he, hm⟩
  have hres : alarm_insert (pre ++ e :: post) r =
      (pre ++ { e with seconds := r.seconds, message := r.message, changeTracker := 1 }
        :: post, []) := by
    simp only [alarm_insert, if_pos hr, ne_eq, hA, not_false_eq_true, if_true]
    rw [changeAlarm_first pre post e r he hm hpre]
  have hc1 : ∀ l : List alarm_t, countRegister (pre ++ e :: l) r.messageNum =
      countRegister l r.messageNum + 1 := by
    intro l
    rw [countRegister_append, countRegister_eq_zero pre _ hpre,
      countRegister_cons_pos e l _ he hm]
    omega
  have hc2 : ∀ l : List alarm_t, countRegister
      (pre ++ { e with seconds := r.seconds, message := r.message, changeTracker := 1 }
        :: l) r.messageNum = countRegister l r.messageNum + 1 := by
    intro l
    have hc := countRegister_cons_pos
      { e with seconds := r.seconds, message := r.message, changeTracker := 1 }
      l r.messageNum he hm
    rw [countRegister_append, countRegister_eq_zero pre _ hpre, hc]
    omega
  refine ⟨hres, ?_, ?_⟩
  · rw [hres, hc1, hc2]
  · intro hpost
    rw [hres, hc1, hc2, countRegister_eq_zero post _ hpost]
    exact ⟨rfl, rfl⟩

/-- A concrete instance: `9 Message(2) C` on the list that holds
the Register entries of the messages 1 and 2. -/
theorem reregister_updates_in_place_witness :
    alarm_insert ([exRegister1] ++ exRegister2 :: []) exRegister2Again =
        ([exRegister1] ++
          { exRegister2 with
            seconds := exRegister2Again.seconds
            message := exRegister2Again.message
            changeTracker := 1 } :: [], []) ∧
      countRegister (alarm_insert ([exRegister1] ++ exRegister2 :: []) exRegister2Again).1
          exRegister2Again.messageNum =
        countRegister ([exRegister1] ++ exRegister2 :: []) exRegister2Again.messageNum ∧
      ((∀ x ∈ ([] : List alarm_t),
          ¬ (x.alarmRequestType = 1 ∧ x.messageNum = exRegister2Again.messageNum)) →
        countRegister ([exRegister1] ++ exRegister2 :: [])
            exRegister2Again.messageNum = 1 ∧
          countRegister
            (alarm_insert ([exRegister1] ++ exRegister2 :: []) exRegister2Again).1
            exRegister2Again.messageNum = 1) :=
  reregister_updates_in_place [exRegister1] [] exRegister2 exRegister2Again
    (by decide) (by decide) (by decide) (by decide)

/-- A Register request whose message number has no Register entry on the list is linked
by `alarm_insert` between an old prefix and an old suffix. -/
theorem alarm_insert_register_new (list : List alarm_t) (a : alarm_t)
    (ha : a.alarmRequestType = 1)
    (hno : ∀ x ∈ list, ¬ (x.alarmRequestType = 1 ∧ x.messageNum = a.messageNum)) :
    ∃ pre post, list = pre ++ post ∧
      (∀ x ∈ pre, x.messageNum < a.messageNum) ∧
      (∀ y, post.head? = some y → a.messageNum ≤ y.messageNum) ∧
      alarm_insert list a = (pre ++ { a with alarmExistsFlag := 1 } :: post, []) := by
  have hA : findTypeA list a = 0 := (findTypeA_eq_zero_iff list a).2 hno
  obtain ⟨pre, post, h1, h2, h3, h4⟩ := insertRegister_split list a
  refine ⟨pre, post, h1, h2, h3, ?_⟩
  simp only [alarm_insert, if_pos ha, hA, ne_eq, not_true_eq_false, if_false, h4]

/-- C4: submitting a Register request `r` whose message number has no Register entry
on the list (the accepted-request path of `main`, then `alarm_insert`) links `r` with
`newAlarmFlag = 1`, `changeTracker = 0` and `alarmExistsFlag = 1` directly before the
first listed entry whose message number is not below the one of `r`, or last when there
is none; the new list is the old prefix, then `r`, then the old suffix, so every entry
listed before is still listed, unchanged and in the same order. -/
theorem register_new_links_in_order (list : List alarm_t) (now : Int) (r : alarm_t)
    (hr : r.alarmRequestType = 1)
    (hno : ∀ x ∈ list, ¬ (x.alarmRequestType = 1 ∧ x.messageNum = r.messageNum)) :
    ∃ pre post, list = pre ++ post ∧
      (∀ x ∈ pre, x.messageNum < r.messageNum) ∧
      (∀ y, post.head? = some y → r.messageNum ≤ y.messageNum) ∧
      main_submit now list r =
        (pre ++ { r with time := now + r.seconds, newAlarmFlag := 1, changeTracker := 0,
                         alarmExistsFlag := 1 } :: post, []) :=
  alarm_insert_register_new list
    { r with time := now + r.seconds, newAlarmFlag := 1, changeTracker := 0 } hr hno

/-- C5: `alarm_insert` of a Cancel request whose message number has no Register entry on
the list prints the `Does NOT Exist` error and returns the list as it was. -/
theorem cancel_nonexistent_unchanged (list : List alarm_t) (c : alarm_t)
    (hc : c.alarmRequestType = 0)
    (hno : ∀ x ∈ list, ¬ (x.alarmRequestType = 1 ∧ x.messageNum = c.messageNum)) :
    alarm_insert list c = (list, [Output.doesNotExist c.messageNum]) := by
  have hA : findTypeA list c = 0 := (findTypeA_eq_zero_iff list c).2 hno
  have hc1 : ¬ c.alarmRequestType = 1 := by rw [hc]; decide
  simp only [alarm_insert, if_neg hc1, hA, if_true]

/-- An accepted Cancel request: with a Register entry for its message number on the list
and no Cancel entry for it, `alarm_insert` prints nothing and links the request, with
`alarmExistsFlag = 1`, between an old prefix and an old suffix that are left as they
were. -/
theorem cancel_accepted (list : List alarm_t) (c e : alarm_t)
    (hc : c.alarmRequestType ≠ 1)
    (he : e ∈ list) (het : e.alarmRequestType = 1) (hem : e.messageNum = c.messageNum)
    (hnoB : ∀ x ∈ list, ¬ (x.alarmRequestType = 0 ∧ x.messageNum = c.messageNum)) :
    ∃ pre y post, list = pre ++ y :: post ∧
      (∀ x ∈ pre, x.messageNum < c.messageNum) ∧ c.messageNum ≤ y.messageNum ∧
      alarm_insert list c = (pre ++ { c with alarmExistsFlag := 1 } :: y :: post, []) := by
  have hA : findTypeA list c ≠ 0 := by
    intro h0
    exact (findTypeA_eq_zero_iff list c).1 h0 e he ⟨het, hem⟩
  have hB : findTypeB list c = 0 := (findTypeB_eq_zero_iff list c).2 hnoB
  obtain ⟨pre, y, post, h1, h2, h3, h4⟩ :=
    insertCancel_split list c ⟨e, he, le_of_eq hem.symm⟩
  refine ⟨pre, y, post, h1, h2, h3, ?_⟩
  simp only [alarm_insert, if_neg hc, if_neg hA, hB, ne_eq, not_true_eq_false, if_false, h4]

/-- C6: with a Register entry and no Cancel entry for message number `m` on the list, of
two consecutive `alarm_insert` calls with Cancel requests for `m` the first is accepted
(it prints no error and links its request) and the second prints the `Multiple` error and
returns the list exactly as the first call left it. -/
theorem cancel_twice_duplicate (list : List alarm_t) (c1 c2 e : alarm_t)
    (hc1 : c1.alarmRequestType = 0) (hc2 : c2.alarmRequestType = 0)
    (hm : c2.messageNum = c1.messageNum)
    (he : e ∈ list) (het : e.alarmRequestType = 1) (hem : e.messageNum = c1.messageNum)
    (hnoB : ∀ x ∈ list, ¬ (x.alarmRequestType = 0 ∧ x.messageNum = c1.messageNum)) :
    (alarm_insert list c1).2 = [] ∧
      { c1 with alarmExistsFlag := 1 } ∈ (alarm_insert list c1).1 ∧
      (alarm_insert list c1).1.length = list.length + 1 ∧
      alarm_insert (alarm_insert list c1).1 c2 =
        ((alarm_insert list c1).1, [Output.multiple c2.messageNum]) := by
  have hc1n : c1.alarmRequestType ≠ 1 := by rw [hc1]; decide
  have hc2n : ¬ c2.alarmRequestType = 1 := by rw [hc2]; decide
  obtain ⟨pre, y, post, h1, _, _, h4⟩ := cancel_accepted list c1 e hc1n he het hem hnoB
  rw [h4]
  refine ⟨rfl, by simp, by simp [h1]; omega, ?_⟩
  have hA : findTypeA (pre ++ { c1 with alarmExistsFlag := 1 } :: y :: post) c2 ≠ 0 := by
    intro h0
    refine (findTypeA_eq_zero_iff _ c2).1 h0 e ?_ ⟨het, by rw [hem, hm]⟩
    rw [h1] at he
    rcases List.mem_append.1 he with h | h
    · exact List.mem_append_left _ h
    · exact List.mem_append_right _ (List.mem_cons_of_mem _ h)
  have hB : findTypeB (pre ++ { c1 with alarmExistsFlag := 1 } :: y :: post) c2 ≠ 0 := by
    intro h0
    exact (findTypeB_eq_zero_iff _ c2).1 h0 { c1 with alarmExistsFlag := 1 } (by simp)
      ⟨hc1, hm.symm⟩
  simp only [alarm_insert, if_neg hc2n, if_neg hA, ne_eq, hB, not_false_eq_true, if_true]

/-- C7 as amended: with a Register entry `e` and no Cancel entry for its message number
on the list, an accepted Cancel request writes no field of `e` and of no other listed
entry: `e` stays linked, its `alarmExistsFlag` as it was, and the request itself is
linked as a further entry, of type 0 and with `alarmExistsFlag = 1`, at the first entry
whose message number is not below its own. -/
theorem cancel_keeps_register_entry (list : List alarm_t) (c e : alarm_t)
    (hc : c.alarmRequestType = 0)
    (he : e ∈ list) (het : e.alarmRequestType = 1) (hem : e.messageNum = c.messageNum)
    (hnoB : ∀ x ∈ list, ¬ (x.alarmRequestType = 0 ∧ x.messageNum = c.messageNum)) :
    e ∈ (alarm_insert list c).1 ∧
      (∀ x ∈ list, x ∈ (alarm_insert list c).1) ∧
      (∀ x ∈ (alarm_insert list c).1, x ∈ list ∨ x = { c with alarmExistsFlag := 1 }) ∧
      ∃ pre y post, list = pre ++ y :: post ∧
        (∀ x ∈ pre, x.messageNum < c.messageNum) ∧ c.messageNum ≤ y.messageNum ∧
        (alarm_insert list c).1 = pre ++ { c with alarmExistsFlag := 1 } :: y :: post := by
  have hcn : c.alarmRequestType ≠ 1 := by rw [hc]; decide
  obtain ⟨pre, y, post, h1, h2, h3, h4⟩ := cancel_accepted list c e hcn he het hem hnoB
  have hall : ∀ x ∈ list, x ∈ (alarm_insert list c).1 := by
    intro x hx
    rw [h4]
    rw [h1] at hx
    rcases List.mem_append.1 hx with h | h
    · exact List.mem_append_left _ h
    · exact List.mem_append_right _ (List.mem_cons_of_mem _ h)
  refine ⟨hall e he, hall, ?_, pre, y, post, h1, h2, h3, by rw [h4]⟩
  intro x hx
  rw [h4] at hx
  rcases List.mem_append.1 hx with h | h
  · exact Or.inl (by rw [h1]; exact List.mem_append_left _ h)
  · rcases List.mem_cons.1 h with h | h
    · exact Or.inr h
    · exact Or.inl (by rw [h1]; exact List.mem_append_right _ h)

theorem key_changeAlarm (list : List alarm_t) (alarm : alarm_t) :
    (changeAlarm list alarm).map key = list.map key := by
  induction list with
  | nil => rfl
  | cons next rest ih =>
    by_cases h : next.alarmRequestType = 1 ∧ alarm.messageNum = next.messageNum
    · simp only [changeAlarm, if_pos h, List.map_cons]
      rfl
    · simp only [changeAlarm, if_neg h, List.map_cons, ih]

theorem key_scanNew (list : List alarm_t) : (scanNew list).2.map key = list.map key := by
  induction list with
  | nil => rfl
  | cons next rest ih =>
    by_cases h : next.newAlarmFlag = 1
    · simp only [scanNew, if_pos h, List.map_cons]
      rfl
    · simp only [scanNew, if_neg h, List.map_cons, ih]

theorem mem_of_key_eq {l l2 : List alarm_t} (h : l.map key = l2.map key) {y : alarm_t}
    (hy : y ∈ l2) : ∃ x ∈ l, key x = key y := by
  have h1 : key y ∈ l.map key := by
    rw [h]
    exact List.mem_map_of_mem key hy
  obtain ⟨x, hx, hxy⟩ := List.mem_map.1 h1
  exact ⟨x, hx, hxy⟩

theorem key_messageNum {x y : alarm_t} (h : key x = key y) : x.messageNum = y.messageNum :=
  congrArg (fun k => k.2.1) h

theorem key_type {x y : alarm_t} (h : key x = key y) :
    x.alarmRequestType = y.alarmRequestType :=
  congrArg (fun k => k.2.2.1) h

theorem key_addr {x y : alarm_t} (h : key x = key y) : x.addr = y.addr :=
  congrArg (fun k => k.1) h

theorem key_flag {x y : alarm_t} (h : key x = key y) :
    x.alarmExistsFlag = y.alarmExistsFlag :=
  congrArg (fun k => k.2.2.2) h

/-- The shape of the list depends on the addresses, message numbers and types only. -/
theorem ordered_congr (l : List alarm_t) :
    ∀ l2 : List alarm_t, l.map key = l2.map key → Ordered l → Ordered l2 := by
  induction l with
  | nil =>
    intro l2 h _
    cases l2 with
    | nil => trivial
    | cons y r => simp at h
  | cons x rest ih =>
    intro l2 h ho
    cases l2 with
    | nil => simp at h
    | cons y rest2 =>
      simp only [List.map_cons, List.cons.injEq] at h
      obtain ⟨hxy, hrest⟩ := h
      obtain ⟨hhead, htail⟩ := ho
      refine ⟨?_, ih rest2 hrest htail⟩
      rcases hhead with ⟨ht, hlt⟩ | ⟨ht, z, rest3, hz, hzt, hzm⟩
      · left
        refine ⟨by rw [← key_type hxy]; exact ht, ?_⟩
        intro z hz
        obtain ⟨w, hw, hwz⟩ := mem_of_key_eq hrest hz
        rw [← key_messageNum hxy, ← key_messageNum hwz]
        exact hlt w hw
      · right
        refine ⟨by rw [← key_type hxy]; exact ht, ?_⟩
        subst hz
        cases rest2 with
        | nil => simp at hrest
        | cons z2 rest4 =>
          simp only [List.map_cons, List.cons.injEq] at hrest
          exact ⟨z2, rest4, rfl, by rw [← key_type hrest.1]; exact hzt,
            by rw [← key_messageNum hrest.1, ← key_messageNum hxy]; exact hzm⟩

theorem ordered_head_le (x : alarm_t) (rest : List alarm_t) (h : Ordered (x :: rest)) :
    ∀ y ∈ rest, x.messageNum ≤ y.messageNum := by
  obtain ⟨hhead, htail⟩ := h
  rcases hhead with ⟨_, hlt⟩ | ⟨_, z, rest3, hz, hzt, hzm⟩
  · exact fun y hy => le_of_lt (hlt y hy)
  · subst hz
    obtain ⟨hhead2, _⟩ := htail
    intro y hy
    rcases List.mem_cons.1 hy with rfl | hy
    · exact le_of_eq hzm.symm
    · rcases hhead2 with ⟨_, hlt⟩ | ⟨ht0, _⟩
      · rw [← hzm]; exact le_of_lt (hlt y hy)
      · rw [hzt] at ht0; exact absurd ht0 (by decide)

/-- In a list of the invariant shape a message number without a Register entry has no
entry at all. -/
theorem ordered_no_register (l : List alarm_t) (m : Int) (ho : Ordered l)
    (hno : ∀ x ∈ l, ¬ (x.alarmRequestType = 1 ∧ x.messageNum = m)) :
    ∀ x ∈ l, x.messageNum ≠ m := by
  induction l with
  | nil => simp
  | cons x rest ih =>
    obtain ⟨hhead, htail⟩ := ho
    have ih2 := ih htail (fun y hy => hno y (List.mem_cons_of_mem _ hy))
    intro y hy
    rcases List.mem_cons.1 hy with rfl | hy
    · rcases hhead with ⟨ht, _⟩ | ⟨_, z, rest3, hz, _, hzm⟩
      · exact fun hm => hno y (List.mem_cons_self _ _) ⟨ht, hm⟩
      · rw [← hzm]
        exact ih2 z (by rw [hz]; exact List.mem_cons_self _ _)
    · exact ih2 y hy

theorem mem_insertRegister (l : List alarm_t) (a y : alarm_t)
    (hy : y ∈ insertRegister l a) : y = { a with alarmExistsFlag := 1 } ∨ y ∈ l := by
  obtain ⟨pre, post, h1, _, _, h4⟩ := insertRegister_split l a
  rw [h4] at hy
  rw [h1]
  rcases List.mem_append.1 hy with h | h
  · exact Or.inr (List.mem_append_left _ h)
  · rcases List.mem_cons.1 h with h | h
    · exact Or.inl h
    · exact Or.inr (List.mem_append_right _ h)

theorem mem_insertCancel (l : List alarm_t) (a y : alarm_t)
    (hy : y ∈ insertCancel l a) : y = { a with alarmExistsFlag := 1 } ∨ y ∈ l := by
  induction l with
  | nil => simp [insertCancel] at hy
  | cons x rest ih =>
    by_cases h : x.messageNum ≥ a.messageNum
    · simp only [insertCancel, if_pos h] at hy
      rcases List.mem_cons.1 hy with h2 | h2
      · exact Or.inl h2
      · exact Or.inr h2
    · simp only [insertCancel, if_neg h] at hy
      rcases List.mem_cons.1 hy with h2 | h2
      · exact Or.inr (by rw [h2]; exact List.mem_cons_self _ _)
      · rcases ih h2 with h3 | h3
        · exact Or.inl h3
        · exact Or.inr (List.mem_cons_of_mem _ h3)

theorem ordered_insertRegister (l : List alarm_t) (a : alarm_t) (ha : a.alarmRequestType = 1)
    (ho : Ordered l) (hno : ∀ x ∈ l, x.messageNum ≠ a.messageNum) :
    Ordered (insertRegister l a) := by
  induction l with
  | nil => exact ⟨Or.inl ⟨ha, by simp⟩, trivial⟩
  | cons x rest ih =>
    by_cases h : x.messageNum ≥ a.messageNum
    · simp only [insertRegister, if_pos h]
      refine ⟨Or.inl ⟨ha, ?_⟩, ho⟩
      have hx : a.messageNum < x.messageNum :=
        lt_of_le_of_ne h (fun e => hno x (List.mem_cons_self _ _) e.symm)
      intro y hy
      rcases List.mem_cons.1 hy with rfl | hy
      · exact hx
      · exact lt_of_lt_of_le hx (ordered_head_le x rest ho y hy)
    · simp only [insertRegister, if_neg h]
      have hlt : x.messageNum < a.messageNum := lt_of_not_ge h
      obtain ⟨hhead, htail⟩ := ho
      refine ⟨?_, ih htail (fun y hy => hno y (List.mem_cons_of_mem _ hy))⟩
      rcases hhead with ⟨ht, hall⟩ | ⟨ht, z, rest3, hz, hzt, hzm⟩
      · left
        refine ⟨ht, ?_⟩
        intro y hy
        rcases mem_insertRegister rest a y hy with h2 | h2
        · rw [h2]; exact hlt
        · exact hall y h2
      · right
        refine ⟨ht, z, insertRegister rest3 a, ?_, hzt, hzm⟩
        have hz2 : ¬ z.messageNum ≥ a.messageNum := by rw [hzm]; exact h
        rw [hz]
        simp only [insertRegister, if_neg hz2]

theorem ordered_insertCancel (l : List alarm_t) (c : alarm_t) (hc : c.alarmRequestType = 0)
    (ho : Ordered l)
    (hex : ∃ e ∈ l, e.messageNum = c.messageNum)
    (hty : ∀ x ∈ l, x.messageNum = c.messageNum → x.alarmRequestType = 1) :
    Ordered (insertCancel l c) := by
  induction l with
  | nil => simp at hex
  | cons x rest ih =>
    by_cases h : x.messageNum ≥ c.messageNum
    · simp only [insertCancel, if_pos h]
      have hx : x.messageNum = c.messageNum := by
        obtain ⟨e, he, hem⟩ := hex
        rcases List.mem_cons.1 he with rfl | he
        · exact hem
        · exact le_antisymm (by rw [← hem]; exact ordered_head_le x rest ho e he) h
      exact ⟨Or.inr ⟨hc, x, rest, rfl, hty x (List.mem_cons_self _ _) hx, hx⟩, ho⟩
    · simp only [insertCancel, if_neg h]
      have hlt : x.messageNum < c.messageNum := lt_of_not_ge h
      have hex2 : ∃ e ∈ rest, e.messageNum = c.messageNum := by
        obtain ⟨e, he, hem⟩ := hex
        rcases List.mem_cons.1 he with rfl | he
        · exact absurd hem (ne_of_lt hlt)
        · exact ⟨e, he, hem⟩
      obtain ⟨hhead, htail⟩ := ho
      refine ⟨?_, ih htail hex2 (fun y hy => hty y (List.mem_cons_of_mem _ hy))⟩
      rcases hhead with ⟨ht, hall⟩ | ⟨ht, z, rest3, hz, hzt, hzm⟩
      · left
        refine ⟨ht, ?_⟩
        intro y hy
        rcases mem_insertCancel rest c y hy with h2 | h2
        · rw [h2]; exact hlt
        · exact hall y h2
      · right
        refine ⟨ht, z, insertCancel rest3 c, ?_, hzt, hzm⟩
        have hz2 : ¬ z.messageNum ≥ c.messageNum := by rw [hzm]; exact h
        rw [hz]
        simp only [insertCancel, if_neg hz2]

theorem unlinkPointer_first (pre rest : List alarm_t) (c : alarm_t)
    (hpre : ∀ x ∈ pre, x.addr ≠ c.addr) :
    unlinkPointer (pre ++ c :: rest) c.addr =
      (some { c with alarmExistsFlag := 0 }, pre ++ rest) := by
  induction pre with
  | nil => simp [unlinkPointer]
  | cons x pre2 ih =>
    have hx : ¬ x.addr = c.addr := hpre x (List.mem_cons_self _ _)
    have ih2 := ih (fun y hy => hpre y (List.mem_cons_of_mem _ hy))
    rw [List.cons_append]
    simp only [unlinkPointer, if_neg hx]
    rw [ih2]
    rfl

theorem unlinkNumber_first (pre rest : List alarm_t) (r : alarm_t) (m : Int)
    (hr : r.messageNum = m) (hpre : ∀ x ∈ pre, x.messageNum ≠ m) :
    unlinkNumber (pre ++ r :: rest) m =
      (some { r with alarmExistsFlag := 0 }, pre ++ rest) := by
  induction pre with
  | nil => simp [unlinkNumber, hr]
  | cons x pre2 ih =>
    have hx : ¬ x.messageNum = m := hpre x (List.mem_cons_self _ _)
    have ih2 := ih (fun y hy => hpre y (List.mem_cons_of_mem _ hy))
    rw [List.cons_append]
    simp only [unlinkNumber, if_neg hx]
    rw [ih2]
    rfl

/-- A Cancel node of a list of the invariant shape, with pairwise distinct addresses,
splits the list: before it come nodes of other addresses and smaller message numbers,
directly after it the Register node of its message number, then nodes of greater
message numbers; without the two nodes the list still has the invariant shape. -/
theorem ordered_split_cancel (l : List alarm_t) (c : alarm_t) (ho : Ordered l)
    (hnd : (l.map (fun x => x.addr)).Nodup) (hc : c ∈ l) (hct : c.alarmRequestType = 0) :
    ∃ pre r post, l = pre ++ c :: r :: post ∧ r.alarmRequestType = 1 ∧
      r.messageNum = c.messageNum ∧
      (∀ x ∈ pre, x.addr ≠ c.addr ∧ x.messageNum < c.messageNum) ∧
      (∀ x ∈ post, c.messageNum < x.messageNum) ∧ Ordered (pre ++ post) := by
  induction l with
  | nil => simp at hc
  | cons x rest ih =>
    obtain ⟨hhead, htail⟩ := ho
    rw [List.map_cons, List.nodup_cons] at hnd
    obtain ⟨hnotin, hnd2⟩ := hnd
    by_cases hxc : c = x
    · subst hxc
      rcases hhead with ⟨ht, _⟩ | ⟨_, z, rest3, hz, hzt, hzm⟩
      · rw [hct] at ht; exact absurd ht (by decide)
      · subst hz
        obtain ⟨hhead2, htail2⟩ := htail
        refine ⟨[], z, rest3, rfl, hzt, hzm, by simp, ?_, htail2⟩
        rcases hhead2 with ⟨_, hlt⟩ | ⟨ht0, _⟩
        · intro y hy; rw [← hzm]; exact hlt y hy
        · rw [hzt] at ht0; exact absurd ht0 (by decide)
    · have hc2 : c ∈ rest := by
        rcases List.mem_cons.1 hc with h | h
        · exact absurd h hxc
        · exact h
      obtain ⟨pre, r, post, h1, h2, h3, h4, h5, h6⟩ := ih htail hnd2 hc2
      have hsub : ∀ y ∈ pre ++ post, y ∈ rest := by
        intro y hy
        rw [h1]
        rcases List.mem_append.1 hy with h | h
        · exact List.mem_append_left _ h
        · exact List.mem_append_right _
            (List.mem_cons_of_mem _ (List.mem_cons_of_mem _ h))
      have hxaddr : x.addr ≠ c.addr := by
        intro e
        exact hnotin (by rw [e]; exact List.mem_map_of_mem (fun x => x.addr) hc2)
      have hxlt : x.messageNum < c.messageNum := by
        rcases hhead with ⟨_, hlt⟩ | ⟨ht, z, rest3, hz, hzt, hzm⟩
        · exact hlt c hc2
        · cases pre with
          | nil =>
            rw [hz, List.nil_append, List.cons.injEq] at h1
            rw [h1.1, hct] at hzt
            exact absurd hzt (by decide)
          | cons w pre2 =>
            rw [hz, List.cons_append, List.cons.injEq] at h1
            rw [← hzm, h1.1]
            exact (h4 w (List.mem_cons_self _ _)).2
      refine ⟨x :: pre, r, post, by rw [h1]; rfl, h2, h3, ?_, h5, ?_, h6⟩
      · intro y hy
        rcases List.mem_cons.1 hy with rfl | hy
        · exact ⟨hxaddr, hxlt⟩
        · exact h4 y hy
      · rcases hhead with ⟨ht, hlt⟩ | ⟨ht, z, rest3, hz, hzt, hzm⟩
        · exact Or.inl ⟨ht, fun y hy => hlt y (hsub y hy)⟩
        · right
          refine ⟨ht, ?_⟩
          cases pre with
          | nil =>
            rw [hz, List.nil_append, List.cons.injEq] at h1
            rw [h1.1, hct] at hzt
            exact absurd hzt (by decide)
          | cons w pre2 =>
            rw [hz, List.cons_append, List.cons.injEq] at h1
            exact ⟨z, pre2 ++ post, by rw [h1.1]; rfl, hzt, hzm⟩

/-- With a list of the invariant shape the Register entries are strictly ascending. -/
theorem ordered_registers (l : List alarm_t) (ho : Ordered l) :
    ((l.filter (fun x => decide (x.alarmRequestType = 1))).map
      (fun x => x.messageNum)).Pairwise (fun a b => a < b) := by
  induction l with
  | nil => simp
  | cons x rest ih =>
    have hle := ordered_head_le x rest ho
    obtain ⟨hhead, htail⟩ := ho
    have ih2 := ih htail
    rcases hhead with ⟨ht, hlt⟩ | ⟨ht, _⟩
    · rw [List.filter_cons_of_pos (by simpa using ht), List.map_cons, List.pairwise_cons]
      refine ⟨?_, ih2⟩
      intro b hb
      obtain ⟨y, hy, hyb⟩ := List.mem_map.1 hb
      rw [← hyb]
      exact hlt y (List.mem_of_mem_filter hy)
    · rw [List.filter_cons_of_neg (by rw [ht]; decide)]
      exact ih2

theorem addr_map_of_key_eq {l l2 : List alarm_t} (h : l.map key = l2.map key) :
    l.map (fun x => x.addr) = l2.map (fun x => x.addr) := by
  have h2 := congrArg (List.map (fun k : Nat × Int × Int × Int => k.1)) h
  simpa [List.map_map, Function.comp, key] using h2

/-- The listed nodes of a state with the invariant have pairwise distinct addresses. -/
theorem Inv.nodup_list {s : State} (hi : Inv s) : (s.list.map (fun x => x.addr)).Nodup := by
  have h := hi.nodup
  rw [List.map_append] at h
  exact (List.nodup_append.1 h).1

/-- A step that writes none of the key fields of the listed nodes and leaves the unlinked
nodes and the pointer of the dispatcher keeps the invariant. -/
theorem inv_of_key_eq (s s2 : State) (hi : Inv s) (hal : s2.alarm = s.alarm)
    (hun : s2.unlinked = s.unlinked) (hk : s2.list.map key = s.list.map key) : Inv s2 := by
  refine ⟨ordered_congr s.list s2.list hk.symm hi.ordered, ?_, ?_, ?_, ?_⟩
  · intro y hy
    obtain ⟨x, hx, hxy⟩ := mem_of_key_eq hk.symm hy
    rw [← key_flag hxy]
    exact hi.exists_flag x hx
  · rw [hun]
    exact hi.unlinked_flag
  · rw [List.map_append, addr_map_of_key_eq hk, hun, ← List.map_append]
    exact hi.nodup
  · intro p hp
    rw [hal] at hp
    obtain ⟨c, hc, hcp, hct⟩ := hi.pending p hp
    obtain ⟨c2, hc2, hk2⟩ := mem_of_key_eq hk hc
    exact ⟨c2, hc2, by rw [key_addr hk2]; exact hcp, by rw [key_type hk2]; exact hct⟩

/-- A step that links one node of a fresh address and with `alarmExistsFlag = 1`, the
list keeping the invariant shape, keeps the invariant. -/
theorem inv_of_insert (s s2 : State) (pre post : List alarm_t) (a : alarm_t) (hi : Inv s)
    (hal : s2.alarm = s.alarm) (hun : s2.unlinked = s.unlinked)
    (h1 : s.list = pre ++ post) (h2 : s2.list = pre ++ a :: post)
    (hflag : a.alarmExistsFlag = 1)
    (hfresh : ∀ x ∈ s.list ++ s.unlinked, x.addr ≠ a.addr)
    (ho : Ordered s2.list) : Inv s2 := by
  refine ⟨ho, ?_, ?_, ?_, ?_⟩
  · intro y hy
    rw [h2] at hy
    rcases List.mem_append.1 hy with h | h
    · exact hi.exists_flag y (by rw [h1]; exact List.mem_append_left _ h)
    · rcases List.mem_cons.1 h with h | h
      · rw [h]; exact hflag
      · exact hi.exists_flag y (by rw [h1]; exact List.mem_append_right _ h)
  · rw [hun]
    exact hi.unlinked_flag
  · have hnd := hi.nodup
    rw [h1, List.append_assoc, List.map_append] at hnd
    rw [h2, hun, List.append_assoc, List.cons_append, List.map_append, List.map_cons]
    refine List.nodup_middle.2 (List.nodup_cons.2 ⟨?_, hnd⟩)
    intro hmem
    rw [← List.map_append, ← List.append_assoc, ← h1] at hmem
    obtain ⟨x, hx, hxa⟩ := List.mem_map.1 hmem
    exact hfresh x hx hxa
  · intro p hp
    rw [hal] at hp
    obtain ⟨c, hc, hcp, hct⟩ := hi.pending p hp
    refine ⟨c, ?_, hcp, hct⟩
    rw [h1] at hc
    rw [h2]
    rcases List.mem_append.1 hc with h | h
    · exact List.mem_append_left _ h
    · exact List.mem_append_right _ (List.mem_cons_of_mem _ h)

theorem inv_init : Inv State.init :=
  ⟨trivial, by simp [State.init], by simp [State.init], by simp [State.init],
    by simp [State.init]⟩

theorem main_request_type (raw : alarm_t) (cmd : Command) :
    (main_request raw cmd).alarmRequestType = 1 ∨
      (main_request raw cmd).alarmRequestType = 0 := by
  cases cmd with
  | register _ _ _ => exact Or.inl rfl
  | cancel _ => exact Or.inr rfl

theorem main_request_addr (raw : alarm_t) (cmd : Command) :
    (main_request raw cmd).addr = raw.addr := by
  cases cmd <;> rfl

/-- Every node of a list of the invariant shape has type 0 or 1. -/
theorem ordered_type (l : List alarm_t) (ho : Ordered l) :
    ∀ z ∈ l, z.alarmRequestType = 1 ∨ z.alarmRequestType = 0 := by
  induction l with
  | nil => simp
  | cons w rest ih =>
    intro z hz
    rcases List.mem_cons.1 hz with rfl | hz
    · rcases ho.1 with h | h
      · exact Or.inl h.1
      · exact Or.inr h.1
    · exact ih ho.2 z hz

/-- The invariant is kept by `alarm_insert` of a node of type 0 or 1 with a fresh
address. -/
theorem inv_alarm_insert (s s2 : State) (a : alarm_t) (hi : Inv s)
    (hal : s2.alarm = s.alarm) (hun : s2.unlinked = s.unlinked)
    (hl : s2.list = (alarm_insert s.list a).1)
    (hty : a.alarmRequestType = 1 ∨ a.alarmRequestType = 0)
    (hfresh : ∀ x ∈ s.list ++ s.unlinked, x.addr ≠ a.addr) : Inv s2 := by
  rcases hty with hty | hty
  · by_cases hA : findTypeA s.list a = 0
    · have hno := (findTypeA_eq_zero_iff s.list a).1 hA
      obtain ⟨pre, post, h1, _, _, h4⟩ := insertRegister_split s.list a
      have hl2 : s2.list = insertRegister s.list a := by
        rw [hl]
        simp only [alarm_insert, if_pos hty, hA, ne_eq, not_true_eq_false, if_false]
      refine inv_of_insert s s2 pre post { a with alarmExistsFlag := 1 } hi hal hun h1
        (by rw [hl2, h4]) rfl hfresh ?_
      rw [hl2]
      exact ordered_insertRegister s.list a hty hi.ordered
        (ordered_no_register s.list a.messageNum hi.ordered hno)
    · refine inv_of_key_eq s s2 hi hal hun ?_
      rw [hl]
      simp only [alarm_insert, if_pos hty, ne_eq, hA, not_false_eq_true, if_true]
      exact key_changeAlarm s.list a
  · have hn1 : ¬ a.alarmRequestType = 1 := by rw [hty]; decide
    by_cases hA : findTypeA s.list a = 0
    · refine inv_of_key_eq s s2 hi hal hun ?_
      rw [hl]
      simp only [alarm_insert, if_neg hn1, hA, if_true]
    · by_cases hB : findTypeB s.list a = 0
      · have hex : ∃ e ∈ s.list, e.alarmRequestType = 1 ∧ e.messageNum = a.messageNum := by
          by_contra hcon
          exact hA ((findTypeA_eq_zero_iff s.list a).2 (fun x hx hx2 => hcon ⟨x, hx, hx2⟩))
        obtain ⟨e, he, het, hem⟩ := hex
        have hnoB := (findTypeB_eq_zero_iff s.list a).1 hB
        obtain ⟨pre, y, post, h1, _, _, h4⟩ :=
          cancel_accepted s.list a e hn1 he het hem hnoB
        have hl2 : s2.list = insertCancel s.list a := by
          rw [hl]
          simp only [alarm_insert, if_neg hn1, if_neg hA, hB, ne_eq, not_true_eq_false,
            if_false]
        have hl3 : s2.list = pre ++ { a with alarmExistsFlag := 1 } :: (y :: post) := by
          rw [hl, h4]
        refine inv_of_insert s s2 pre (y :: post) { a with alarmExistsFlag := 1 } hi hal hun
          h1 hl3 rfl hfresh ?_
        rw [hl2]
        refine ordered_insertCancel s.list a hty hi.ordered ⟨e, he, hem⟩ ?_
        intro x hx hxm
        rcases ordered_type s.list hi.ordered x hx with h | h
        · exact h
        · exact absurd ⟨h, hxm⟩ (hnoB x hx)
      · refine inv_of_key_eq s s2 hi hal hun ?_
        rw [hl]
        simp only [alarm_insert, if_neg hn1, if_neg hA, ne_eq, hB, not_false_eq_true, if_true]

theorem inv_submit (s : State) (now : Int) (raw : alarm_t) (cmd : Command) (hi : Inv s)
    (hfresh : ∀ x ∈ s.list ++ s.unlinked, x.addr ≠ raw.addr) :
    Inv (s.submit now raw cmd) := by
  refine inv_alarm_insert s (s.submit now raw cmd)
    { main_request raw cmd with
      time := now + (main_request raw cmd).seconds, newAlarmFlag := 1, changeTracker := 0 }
    hi rfl rfl rfl (main_request_type raw cmd) ?_
  intro x hx
  show x.addr ≠ (main_request raw cmd).addr
  rw [main_request_addr]
  exact hfresh x hx

/-- The node the scan selects is on the list the scan leaves. -/
theorem scanNew_mem (l : List alarm_t) (a : alarm_t) (h : (scanNew l).1 = some a) :
    a ∈ (scanNew l).2 := by
  induction l with
  | nil => simp [scanNew] at h
  | cons x rest ih =>
    by_cases hx : x.newAlarmFlag = 1
    · simp only [scanNew, if_pos hx, Option.some.injEq] at h ⊢
      rw [← h]
      exact List.mem_cons_self _ _
    · simp only [scanNew, if_neg hx] at h ⊢
      exact List.mem_cons_of_mem _ (ih h)

theorem inv_scan (s : State) (hi : Inv s) : Inv s.scan := by
  have hk : s.scan.list.map key = s.list.map key := key_scanNew s.list
  have hi2 : Inv { s.scan with alarm := s.alarm } := inv_of_key_eq s _ hi rfl rfl hk
  refine ⟨hi2.ordered, hi2.exists_flag, hi2.unlinked_flag, hi2.nodup, ?_⟩
  intro p hp
  have hp2 : pendingRemoval (scanNew s.list).1 = some p := hp
  cases hsel : (scanNew s.list).1 with
  | none => rw [hsel] at hp2; simp [pendingRemoval] at hp2
  | some a =>
    rw [hsel] at hp2
    by_cases hat : a.alarmRequestType = 0
    · simp only [pendingRemoval, if_pos hat, Option.some.injEq] at hp2
      exact ⟨a, scanNew_mem s.list a hsel, hp2, hat⟩
    · simp [pendingRemoval, hat] at hp2

/-- In a sequence of nodes with pairwise distinct addresses the search for the address of
a member finds that member. -/
theorem find_addr_of_mem (l : List alarm_t) (c : alarm_t)
    (hnd : (l.map (fun x => x.addr)).Nodup) (hc : c ∈ l) :
    l.find? (fun x => decide (x.addr = c.addr)) = some c := by
  induction l with
  | nil => simp at hc
  | cons x rest ih =>
    rw [List.map_cons, List.nodup_cons] at hnd
    by_cases hxc : x = c
    · subst hxc
      rw [List.find?_cons_of_pos _ (by simp)]
    · have hc2 : c ∈ rest := by
        rcases List.mem_cons.1 hc with h | h
        · exact absurd h.symm hxc
        · exact h
      have hne : ¬ x.addr = c.addr := by
        intro e
        exact hnd.1 (by rw [e]; exact List.mem_map_of_mem (fun x => x.addr) hc2)
      rw [List.find?_cons_of_neg _ (by simpa using hne)]
      exact ih hnd.2 hc2

/-- A pointer to a node that is linked or was unlinked dereferences to that node. -/
theorem node_of_mem (s : State) (c : alarm_t)
    (hnd : ((s.list ++ s.unlinked).map (fun x => x.addr)).Nodup)
    (hc : c ∈ s.list ++ s.unlinked) : s.node c.addr = some c :=
  find_addr_of_mem (s.list ++ s.unlinked) c hnd hc

/-- The pointer of the dispatcher dereferences to the listed Cancel node it selected. -/
theorem node_of_listed (s : State) (c : alarm_t)
    (hnd : ((s.list ++ s.unlinked).map (fun x => x.addr)).Nodup)
    (hc : c ∈ s.list) : s.node c.addr = some c :=
  node_of_mem s c hnd (List.mem_append_left _ hc)

/-- The removal part on a listed Cancel node `c`, in a list of the invariant shape with
distinct addresses: both loops find their node, whatever `alarmRemove` held before. -/
theorem alarm_thread_remove_listed (l : List alarm_t) (c : alarm_t) (ho : Ordered l)
    (hnd : (l.map (fun x => x.addr)).Nodup) (hc : c ∈ l) (hct : c.alarmRequestType = 0) :
    ∃ pre r post, l = pre ++ c :: r :: post ∧ r.alarmRequestType = 1 ∧
      r.messageNum = c.messageNum ∧ (∀ x ∈ pre ++ post, x.messageNum ≠ c.messageNum) ∧
      Ordered (pre ++ post) ∧
      ∀ garbage, alarm_thread_remove l c garbage =
        { list := pre ++ post
          first := some { c with alarmExistsFlag := 0 }
          second := some { r with alarmExistsFlag := 0 }
          out := [Output.cancelLine c.messageNum c.message] } := by
  obtain ⟨pre, r, post, h1, h2, h3, h4, h5, h6⟩ := ordered_split_cancel l c ho hnd hc hct
  refine ⟨pre, r, post, h1, h2, h3, ?_, h6, ?_⟩
  · intro x hx
    rcases List.mem_append.1 hx with h | h
    · exact ne_of_lt (h4 x h).2
    · exact (ne_of_lt (h5 x h)).symm
  · intro garbage
    have hu1 := unlinkPointer_first pre (r :: post) c (fun x hx => (h4 x hx).1)
    have hu2 := unlinkNumber_first pre post r c.messageNum h3
      (fun x hx => ne_of_lt (h4 x hx).2)
    simp only [alarm_thread_remove, if_pos hct, h1, hu1, hu2]

/-- What the removal step does to a state with the invariant whose dispatcher holds a
selected node. -/
theorem remove_pending (s : State) (hi : Inv s) (p : Nat) (hp : s.alarm = some p) :
    ∃ c r pre post, s.node p = some c ∧ c.alarmRequestType = 0 ∧
      s.list = pre ++ c :: r :: post ∧
      r.alarmRequestType = 1 ∧ r.messageNum = c.messageNum ∧
      (∀ x ∈ pre ++ post, x.messageNum ≠ c.messageNum) ∧ Ordered (pre ++ post) ∧
      ∀ garbage,
        alarm_thread_remove s.list c garbage =
          { list := pre ++ post
            first := some { c with alarmExistsFlag := 0 }
            second := some { r with alarmExistsFlag := 0 }
            out := [Output.cancelLine c.messageNum c.message] } ∧
        (s.remove garbage).list = pre ++ post ∧
        (s.remove garbage).unlinked = s.unlinked ++
          [{ c with alarmExistsFlag := 0 }, { r with alarmExistsFlag := 0 }] ∧
        (s.remove garbage).alarm = none := by
  obtain ⟨c, hc, hcp, hct⟩ := hi.pending p hp
  have hnode : s.node p = some c := by rw [← hcp]; exact node_of_listed s c hi.nodup hc
  obtain ⟨pre, r, post, h1, h2, h3, h4, h6, h7⟩ :=
    alarm_thread_remove_listed s.list c hi.ordered hi.nodup_list hc hct
  refine ⟨c, r, pre, post, hnode, hct, h1, h2, h3, h4, h6, ?_⟩
  intro garbage
  refine ⟨h7 garbage, ?_, ?_, ?_⟩
  · simp only [State.remove, hp, hnode, h7 garbage]
  · simp only [State.remove, hp, hnode, h7 garbage, Option.toList, List.append_assoc,
      List.singleton_append]
  · simp only [State.remove, hp, hnode]

theorem inv_remove (s : State) (garbage : Int) (hi : Inv s) : Inv (s.remove garbage) := by
  cases hal : s.alarm with
  | none =>
    have h : s.remove garbage = s := by simp only [State.remove, hal]
    rw [h]; exact hi
  | some p =>
    obtain ⟨c, r, pre, post, _, _, h1, _, _, _, h6, h7⟩ := remove_pending s hi p hal
    obtain ⟨_, hl, hun, hal2⟩ := h7 garbage
    have hsub : ∀ x ∈ pre ++ post, x ∈ s.list := by
      intro x hx
      rw [h1]
      rcases List.mem_append.1 hx with h | h
      · exact List.mem_append_left _ h
      · exact List.mem_append_right _ (List.mem_cons_of_mem _ (List.mem_cons_of_mem _ h))
    refine ⟨by rw [hl]; exact h6, ?_, ?_, ?_, ?_⟩
    · intro x hx
      rw [hl] at hx
      exact hi.exists_flag x (hsub x hx)
    · intro x hx
      rw [hun] at hx
      rcases List.mem_append.1 hx with h | h
      · exact hi.unlinked_flag x h
      · rcases List.mem_cons.1 h with h | h
        · rw [h]
        · rw [List.mem_singleton.1 h]
    · rw [hl, hun]
      have hnd := hi.nodup
      rw [h1] at hnd
      have e1 : (pre ++ c :: r :: post) ++ s.unlinked =
          pre ++ ([c, r] ++ (post ++ s.unlinked)) := by simp
      have e2 : (pre ++ post) ++ (s.unlinked ++ [c, r]) =
          pre ++ ((post ++ s.unlinked) ++ [c, r]) := by simp
      have hperm : List.Perm ((pre ++ c :: r :: post) ++ s.unlinked)
          ((pre ++ post) ++ (s.unlinked ++ [c, r])) := by
        rw [e1, e2]
        exact List.Perm.append_left pre List.perm_append_comm
      have hmap : List.map (fun x : alarm_t => x.addr) ((pre ++ post) ++ (s.unlinked ++
          [{ c with alarmExistsFlag := 0 }, { r with alarmExistsFlag := 0 }])) =
          List.map (fun x : alarm_t => x.addr)
            ((pre ++ post) ++ (s.unlinked ++ [c, r])) := by
        simp
      rw [hmap]
      exact (List.Perm.nodup_iff (hperm.map _)).1 hnd
    · intro q hq
      rw [hal2] at hq
      exact absurd hq (by simp)

theorem work_list (s : State) (i : Nat) : (s.work i).list = s.list := by
  unfold State.work
  split
  · rfl
  · split <;> rfl

theorem work_alarm (s : State) (i : Nat) : (s.work i).alarm = s.alarm := by
  unfold State.work
  split
  · rfl
  · split <;> rfl

theorem work_unlinked (s : State) (i : Nat) : (s.work i).unlinked = s.unlinked := by
  unfold State.work
  split
  · rfl
  · split <;> rfl

theorem inv_work (s : State) (i : Nat) (hi : Inv s) : Inv (s.work i) :=
  inv_of_key_eq s (s.work i) hi (work_alarm s i) (work_unlinked s i) (by rw [work_list])

/-- Every reachable state satisfies the invariant. -/
theorem reachable_inv (s : State) (h : Reachable s) : Inv s := by
  induction h with
  | init => exact inv_init
  | submit s now raw cmd _ hfresh ih => exact inv_submit s now raw cmd ih hfresh
  | scan s _ _ ih => exact inv_scan s ih
  | remove s garbage _ ih => exact inv_remove s garbage ih
  | work s i _ ih => exact inv_work s i ih

theorem reachable_step (s s2 : State) (h : Reachable s) (hs : Step s s2) : Reachable s2 := by
  cases hs with
  | submit now raw cmd hfresh => exact Reachable.submit s now raw cmd h hfresh
  | scan hal => exact Reachable.scan s h hal
  | remove garbage => exact Reachable.remove s garbage h
  | work i => exact Reachable.work s i h

/-! ### No step clears `changeTracker` -/

theorem changeAlarm_keeps (l : List alarm_t) (a : alarm_t) :
    ∀ x ∈ l, ∃ y ∈ changeAlarm l a, y.addr = x.addr ∧
      (x.changeTracker = 1 → y.changeTracker = 1) := by
  induction l with
  | nil => simp
  | cons next rest ih =>
    intro x hx
    by_cases h : next.alarmRequestType = 1 ∧ a.messageNum = next.messageNum
    · simp only [changeAlarm, if_pos h]
      rcases List.mem_cons.1 hx with rfl | hx
      · exact ⟨_, List.mem_cons_self _ _, rfl, fun _ => rfl⟩
      · exact ⟨x, List.mem_cons_of_mem _ hx, rfl, fun hc => hc⟩
    · simp only [changeAlarm, if_neg h]
      rcases List.mem_cons.1 hx with rfl | hx
      · exact ⟨x, List.mem_cons_self _ _, rfl, fun hc => hc⟩
      · obtain ⟨y, hy, hy2⟩ := ih x hx
        exact ⟨y, List.mem_cons_of_mem _ hy, hy2⟩

theorem scanNew_keeps (l : List alarm_t) :
    ∀ x ∈ l, ∃ y ∈ (scanNew l).2, y.addr = x.addr ∧
      (x.changeTracker = 1 → y.changeTracker = 1) := by
  induction l with
  | nil => simp
  | cons next rest ih =>
    intro x hx
    by_cases h : next.newAlarmFlag = 1
    · simp only [scanNew, if_pos h]
      rcases List.mem_cons.1 hx with rfl | hx
      · exact ⟨_, List.mem_cons_self _ _, rfl, fun hc => hc⟩
      · exact ⟨x, List.mem_cons_of_mem _ hx, rfl, fun hc => hc⟩
    · simp only [scanNew, if_neg h]
      rcases List.mem_cons.1 hx with rfl | hx
      · exact ⟨x, List.mem_cons_self _ _, rfl, fun hc => hc⟩
      · obtain ⟨y, hy, hy2⟩ := ih x hx
        exact ⟨y, List.mem_cons_of_mem _ hy, hy2⟩

theorem mem_insertRegister_of_mem (l : List alarm_t) (a x : alarm_t) (hx : x ∈ l) :
    x ∈ insertRegister l a := by
  obtain ⟨pre, post, h1, _, _, h4⟩ := insertRegister_split l a
  rw [h4]
  rw [h1] at hx
  rcases List.mem_append.1 hx with h | h
  · exact List.mem_append_left _ h
  · exact List.mem_append_right _ (List.mem_cons_of_mem _ h)

theorem mem_insertCancel_of_mem (l : List alarm_t) (a x : alarm_t) (hx : x ∈ l) :
    x ∈ insertCancel l a := by
  induction l with
  | nil => simp at hx
  | cons next rest ih =>
    by_cases h : next.messageNum ≥ a.messageNum
    · simp only [insertCancel, if_pos h]
      exact List.mem_cons_of_mem _ hx
    · simp only [insertCancel, if_neg h]
      rcases List.mem_cons.1 hx with rfl | hx
      · exact List.mem_cons_self _ _
      · exact List.mem_cons_of_mem _ (ih hx)

theorem alarm_insert_keeps (l : List alarm_t) (a : alarm_t) :
    ∀ x ∈ l, ∃ y ∈ (alarm_insert l a).1, y.addr = x.addr ∧
      (x.changeTracker = 1 → y.changeTracker = 1) := by
  intro x hx
  unfold alarm_insert
  split_ifs
  · exact changeAlarm_keeps l a x hx
  · exact ⟨x, mem_insertRegister_of_mem l a x hx, rfl, fun hc => hc⟩
  · exact ⟨x, hx, rfl, fun hc => hc⟩
  · exact ⟨x, hx, rfl, fun hc => hc⟩
  · exact ⟨x, mem_insertCancel_of_mem l a x hx, rfl, fun hc => hc⟩

/-- A step takes every node that is linked or was unlinked to a node of the same address,
linked or unlinked, whose `changeTracker` is 1 if it was 1 before. -/
theorem step_keeps (s s2 : State) (hi : Inv s) (hs : Step s s2) :
    ∀ x ∈ s.list ++ s.unlinked, ∃ y ∈ s2.list ++ s2.unlinked, y.addr = x.addr ∧
      (x.changeTracker = 1 → y.changeTracker = 1) := by
  have hlift : ∀ (l2 : List alarm_t),
      (∀ x ∈ s.list, ∃ y ∈ l2, y.addr = x.addr ∧
        (x.changeTracker = 1 → y.changeTracker = 1)) →
      ∀ x ∈ s.list ++ s.unlinked, ∃ y ∈ l2 ++ s.unlinked, y.addr = x.addr ∧
        (x.changeTracker = 1 → y.changeTracker = 1) := by
    intro l2 h x hx
    rcases List.mem_append.1 hx with hx | hx
    · obtain ⟨y, hy, hy2⟩ := h x hx
      exact ⟨y, List.mem_append_left _ hy, hy2⟩
    · exact ⟨x, List.mem_append_right _ hx, rfl, fun hc => hc⟩
  cases hs with
  | submit now raw cmd hfresh => exact hlift _ (alarm_insert_keeps s.list _)
  | scan hal => exact hlift _ (scanNew_keeps s.list)
  | work i =>
    rw [work_list, work_unlinked]
    exact fun x hx => ⟨x, hx, rfl, fun hc => hc⟩
  | remove garbage =>
    cases hal : s.alarm with
    | none =>
      have h : s.remove garbage = s := by simp only [State.remove, hal]
      rw [h]
      exact fun x hx => ⟨x, hx, rfl, fun hc => hc⟩
    | some p =>
      obtain ⟨c, r, pre, post, _, _, h1, _, _, _, _, h7⟩ := remove_pending s hi p hal
      obtain ⟨_, hl, hun, _⟩ := h7 garbage
      intro x hx
      rw [hl, hun]
      rw [h1] at hx
      simp only [List.mem_append, List.mem_cons, List.mem_singleton,
        List.not_mem_nil, or_false] at hx ⊢
      rcases hx with (hx | hx | hx | hx) | hx
      · exact ⟨x, Or.inl (Or.inl hx), rfl, fun hc => hc⟩
      · exact ⟨{ c with alarmExistsFlag := 0 }, Or.inr (Or.inr (Or.inl rfl)),
          by rw [hx], fun hc => by rw [hx] at hc; exact hc⟩
      · exact ⟨{ r with alarmExistsFlag := 0 }, Or.inr (Or.inr (Or.inr rfl)),
          by rw [hx], fun hc => by rw [hx] at hc; exact hc⟩
      · exact ⟨x, Or.inl (Or.inr hx), rfl, fun hc => hc⟩
      · exact ⟨x, Or.inr (Or.inl hx), rfl, fun hc => hc⟩

/-- No step of the program clears `changeTracker`: when the node a pointer refers to has
`changeTracker == 1` in a reachable state, then after any step the pointer refers to a
node with `changeTracker == 1`. -/
theorem changeTracker_stays (s s2 : State) (h : Reachable s) (hs : Step s s2)
    (p : Nat) (a : alarm_t) (hn : s.node p = some a) (hc : a.changeTracker = 1) :
    ∃ a2, s2.node p = some a2 ∧ a2.changeTracker = 1 := by
  have hi := reachable_inv s h
  have hi2 := reachable_inv s2 (reachable_step s s2 h hs)
  have hmem : a ∈ s.list ++ s.unlinked := List.mem_of_find?_eq_some hn
  have hap : a.addr = p := by
    have := List.find?_some hn
    simpa using this
  obtain ⟨y, hy, hya, hyc⟩ := step_keeps s s2 hi hs a hmem
  refine ⟨y, ?_, hyc hc⟩
  rw [← hap, ← hya]
  exact node_of_mem s2 y hi2.nodup hy

/-! ### The example states are reachable -/

theorem exOne_reachable : Reachable exOne :=
  Reachable.submit _ _ _ _ Reachable.init (by decide)

theorem exTwo_reachable : Reachable exTwo :=
  Reachable.submit _ _ _ _ exOne_reachable (by decide)

theorem exCancelled_reachable : Reachable exCancelled :=
  Reachable.submit _ _ _ _ exTwo_reachable (by decide)

theorem exSelected_reachable : Reachable exSelected :=
  Reachable.scan _ (Reachable.scan _ exCancelled_reachable (by decide)) (by decide)

theorem exNotice_reachable : Reachable exNotice :=
  Reachable.work _ _ (Reachable.work _ _ (Reachable.work _ _
    (Reachable.submit _ _ _ _
      (Reachable.work _ _ (Reachable.scan _ exOne_reachable (by decide))) (by decide))))

/-! ### The claims on reachable states -/

/-- C1: in every state reachable from the empty list by submitted requests, dispatcher
scans, dispatcher removals and display-thread passes, the Register entries on the list
are in strictly ascending order of message number, so no two of them share one. -/
theorem registers_strictly_ascending (s : State) (h : Reachable s) :
    ((s.list.filter (fun x => decide (x.alarmRequestType = 1))).map
        (fun x => x.messageNum)).Pairwise (fun a b => a < b) ∧
      ((s.list.filter (fun x => decide (x.alarmRequestType = 1))).map
        (fun x => x.messageNum)).Nodup := by
  have hp := ordered_registers s.list (reachable_inv s h).ordered
  exact ⟨hp, hp.imp (fun hab => ne_of_lt hab)⟩

/-- A concrete instance: the state after `5 Message(2) A`,
`4 Message(1) B` and `Cancel: Message(2)`. -/
theorem registers_strictly_ascending_witness :
    Reachable exCancelled ∧
      ((exCancelled.list.filter (fun x => decide (x.alarmRequestType = 1))).map
        (fun x => x.messageNum)).Pairwise (fun a b => a < b) ∧
      ((exCancelled.list.filter (fun x => decide (x.alarmRequestType = 1))).map
        (fun x => x.messageNum)).Nodup :=
  ⟨exCancelled_reachable, registers_strictly_ascending exCancelled exCancelled_reachable⟩

/-- C8: in every reachable state in which the dispatcher holds a selected Cancel node
`c`, the removal part finds `c` in its first loop, so that `alarmRemove` is assigned
before it is read and the outcome does not depend on what it held; it unlinks `c` and the
Register entry `r` of the same message number, which directly follows `c`, sets
`alarmExistsFlag = 0` on both, prints the cancel line, and leaves every other entry
listed, unchanged and in the same order; no entry with that message number is left. -/
theorem dispatcher_removal (s : State) (h : Reachable s) (p : Nat)
    (hp : s.alarm = some p) :
    ∃ c r pre post, s.node p = some c ∧ c.alarmRequestType = 0 ∧
      s.list = pre ++ c :: r :: post ∧
      r.alarmRequestType = 1 ∧ r.messageNum = c.messageNum ∧
      (∀ x ∈ pre ++ post, x.messageNum ≠ c.messageNum) ∧
      ∀ garbage,
        alarm_thread_remove s.list c garbage =
          { list := pre ++ post
            first := some { c with alarmExistsFlag := 0 }
            second := some { r with alarmExistsFlag := 0 }
            out := [Output.cancelLine c.messageNum c.message] } ∧
        (s.remove garbage).list = pre ++ post ∧
        (s.remove garbage).unlinked = s.unlinked ++
          [{ c with alarmExistsFlag := 0 }, { r with alarmExistsFlag := 0 }] ∧
        (s.remove garbage).alarm = none := by
  obtain ⟨c, r, pre, post, h1, h2, h3, h4, h5, h6, _, h8⟩ :=
    remove_pending s (reachable_inv s h) p hp
  exact ⟨c, r, pre, post, h1, h2, h3, h4, h5, h6, h8⟩

/-- A concrete instance: the dispatcher has selected the Cancel node of
message 2 (address 3). -/
theorem dispatcher_removal_witness :
    Reachable exSelected ∧ exSelected.alarm = some 3 ∧
    ∃ c r pre post, exSelected.node 3 = some c ∧ c.alarmRequestType = 0 ∧
      exSelected.list = pre ++ c :: r :: post ∧
      r.alarmRequestType = 1 ∧ r.messageNum = c.messageNum ∧
      (∀ x ∈ pre ++ post, x.messageNum ≠ c.messageNum) ∧
      ∀ garbage,
        alarm_thread_remove exSelected.list c garbage =
          { list := pre ++ post
            first := some { c with alarmExistsFlag := 0 }
            second := some { r with alarmExistsFlag := 0 }
            out := [Output.cancelLine c.messageNum c.message] } ∧
        (exSelected.remove garbage).list = pre ++ post ∧
        (exSelected.remove garbage).unlinked = exSelected.unlinked ++
          [{ c with alarmExistsFlag := 0 }, { r with alarmExistsFlag := 0 }] ∧
        (exSelected.remove garbage).alarm = none :=
  ⟨exSelected_reachable, by decide,
    dispatcher_removal exSelected exSelected_reachable 3 (by decide)⟩

theorem scanNew_none (l : List alarm_t) (h : ∀ x ∈ l, x.newAlarmFlag ≠ 1) :
    scanNew l = (none, l) := by
  induction l with
  | nil => rfl
  | cons x rest ih =>
    have hx : ¬ x.newAlarmFlag = 1 := h x (List.mem_cons_self _ _)
    have ih2 := ih (fun y hy => h y (List.mem_cons_of_mem _ hy))
    simp only [scanNew, if_neg hx]
    rw [ih2]

theorem scanNew_none_iff (l : List alarm_t) :
    (scanNew l).1 = none ↔ ∀ x ∈ l, x.newAlarmFlag ≠ 1 := by
  constructor
  · intro h
    induction l with
    | nil => simp
    | cons x rest ih =>
      by_cases hx : x.newAlarmFlag = 1
      · simp [scanNew, hx] at h
      · simp only [scanNew, if_neg hx] at h
        intro y hy
        rcases List.mem_cons.1 hy with rfl | hy
        · exact hx
        · exact ih h y hy
  · intro h
    rw [scanNew_none l h]

/-- A pass on a listed node with `changeTracker == 1` and `temp == 0` prints the plain
message line and sets `temp`. -/
theorem iteration_changed_first (e : alarm_t) (hflag : e.alarmExistsFlag ≠ 0)
    (hch : e.changeTracker = 1) :
    periodic_display_iteration e 0 =
      { temp := 1, out := [Output.messageLine e.messageNum e.message], exited := false } := by
  simp [periodic_display_iteration, hflag, hch]

/-- A pass on a listed node with `changeTracker == 1` and `temp` set prints the
`MESSAGE CHANGED` line and leaves `temp`. -/
theorem iteration_changed_later (e : alarm_t) (temp : Int) (hflag : e.alarmExistsFlag ≠ 0)
    (hch : e.changeTracker = 1) (htemp : temp ≠ 0) :
    periodic_display_iteration e temp =
      { temp := temp, out := [Output.messageChanged e.messageNum e.message],
        exited := false } := by
  simp [periodic_display_iteration, hflag, hch, htemp]

theorem run_changed_later (later : List alarm_t) (temp : Int) (htemp : temp ≠ 0)
    (hlater : ∀ x ∈ later, x.alarmExistsFlag ≠ 0 ∧ x.changeTracker = 1) :
    periodic_display_run later temp =
      later.map (fun x => Output.messageChanged x.messageNum x.message) := by
  induction later with
  | nil => rfl
  | cons x rest ih =>
    have hx := hlater x (List.mem_cons_self _ _)
    have ih2 := ih (fun y hy => hlater y (List.mem_cons_of_mem _ hy))
    simp only [periodic_display_run, iteration_changed_later x temp hx.1 hx.2 htemp,
      Bool.false_eq_true, if_false, ih2, List.map_cons, List.singleton_append]

/-- C10 as amended: while the bound entry stays listed with `changeTracker == 1` (no
display thread and no other step writes 0 to it), a display thread whose `temp` is still
0 prints the plain message line at its first pass and the `MESSAGE CHANGED` line at
every later pass, and a display thread whose `temp` is already set prints the
`MESSAGE CHANGED` line at every pass. -/
theorem change_notice_after_first_pass (e : alarm_t) (later : List alarm_t) (temp : Int)
    (he : e.alarmExistsFlag ≠ 0 ∧ e.changeTracker = 1)
    (hlater : ∀ x ∈ later, x.alarmExistsFlag ≠ 0 ∧ x.changeTracker = 1) :
    periodic_display_run (e :: later) 0 =
        Output.messageLine e.messageNum e.message ::
          later.map (fun x => Output.messageChanged x.messageNum x.message) ∧
      (temp ≠ 0 →
        periodic_display_run (e :: later) temp =
          (e :: later).map (fun x => Output.messageChanged x.messageNum x.message)) := by
  constructor
  · simp only [periodic_display_run, iteration_changed_first e he.1 he.2,
      Bool.false_eq_true, if_false, List.singleton_append]
    rw [run_changed_later later 1 (by decide) hlater]
  · intro htemp
    refine run_changed_later (e :: later) temp htemp ?_
    intro x hx
    rcases List.mem_cons.1 hx with rfl | hx
    · exact he
    · exact hlater x hx

/-- A concrete instance: three passes on the Register node of
message 2 after it has been registered again. -/
theorem change_notice_after_first_pass_witness :
    periodic_display_run
        ({ exRegister2 with changeTracker := 1 } ::
          [{ exRegister2 with changeTracker := 1 }, { exRegister2 with changeTracker := 1 }])
        0 =
        Output.messageLine 2 "A" ::
          [{ exRegister2 with changeTracker := 1 },
            { exRegister2 with changeTracker := 1 }].map
            (fun x => Output.messageChanged x.messageNum x.message) ∧
      ((1 : Int) ≠ 0 →
        periodic_display_run
          ({ exRegister2 with changeTracker := 1 } ::
            [{ exRegister2 with changeTracker := 1 },
              { exRegister2 with changeTracker := 1 }]) 1 =
          ({ exRegister2 with changeTracker := 1 } ::
            [{ exRegister2 with changeTracker := 1 },
              { exRegister2 with changeTracker := 1 }]).map
            (fun x => Output.messageChanged x.messageNum x.message)) :=
  change_notice_after_first_pass { exRegister2 with changeTracker := 1 }
    [{ exRegister2 with changeTracker := 1 }, { exRegister2 with changeTracker := 1 }] 1
    (by decide) (by decide)

/-- The counterexample to C10: `5 Message(2) A`, a dispatcher scan, one pass of the
display thread, then `3 Message(2) B` and three more passes.  The first line printed
after the change is the plain line, not the `MESSAGE CHANGED` line, and the
`MESSAGE CHANGED` line is printed at both later passes. -/
theorem change_notice_counterexample :
    Reachable exNotice ∧
      exChanged.list.map (fun x => (x.messageNum, x.alarmExistsFlag, x.changeTracker)) =
        [(2, 1, 1)] ∧
      exChanged.out = [Output.displayCreated 2 "A", Output.messageLine 2 "A"] ∧
      exNotice.list = exChanged.list ∧
      exNotice.out = exChanged.out ++
        [Output.messageLine 2 "B", Output.messageChanged 2 "B",
          Output.messageChanged 2 "B"] :=
  ⟨exNotice_reachable, by decide, by decide, by decide, by decide⟩

/-! ### Witnesses and the counterexample for the list operations -/

/-- A concrete instance: `6 Message(3) D` is submitted at time
104 to the list of `exCancelled`. -/
theorem register_new_links_in_order_witness :
    ∃ pre post, exCancelled.list = pre ++ post ∧
      (∀ x ∈ pre, x.messageNum < exRegister3.messageNum) ∧
      (∀ y, post.head? = some y → exRegister3.messageNum ≤ y.messageNum) ∧
      main_submit 104 exCancelled.list exRegister3 =
        (pre ++
          { exRegister3 with
            time := 104 + exRegister3.seconds
            newAlarmFlag := 1
            changeTracker := 0
            alarmExistsFlag := 1 } :: post, []) :=
  register_new_links_in_order exCancelled.list 104 exRegister3 (by decide) (by decide)

/-- A concrete instance: `Cancel: Message(9)` on the list of
`exTwo`. -/
theorem cancel_nonexistent_unchanged_witness :
    alarm_insert exTwo.list exCancel9 = (exTwo.list, [Output.doesNotExist 9]) :=
  cancel_nonexistent_unchanged exTwo.list exCancel9 (by decide) (by decide)

/-- A concrete instance: `Cancel: Message(2)` twice on the list of
`exTwo`. -/
theorem cancel_twice_duplicate_witness :
    (alarm_insert exTwo.list exCancel2).2 = [] ∧
      { exCancel2 with alarmExistsFlag := 1 } ∈ (alarm_insert exTwo.list exCancel2).1 ∧
      (alarm_insert exTwo.list exCancel2).1.length = exTwo.list.length + 1 ∧
      alarm_insert (alarm_insert exTwo.list exCancel2).1 exCancel2Again =
        ((alarm_insert exTwo.list exCancel2).1, [Output.multiple 2]) :=
  cancel_twice_duplicate exTwo.list exCancel2 exCancel2Again exRegister2
    (by decide) (by decide) (by decide) (by decide) (by decide) (by decide) (by decide)

/-- A concrete instance: `Cancel: Message(2)` on the list of
`exTwo`. -/
theorem cancel_keeps_register_entry_witness :
    exRegister2 ∈ (alarm_insert exTwo.list exCancel2).1 ∧
      (∀ x ∈ exTwo.list, x ∈ (alarm_insert exTwo.list exCancel2).1) ∧
      (∀ x ∈ (alarm_insert exTwo.list exCancel2).1,
        x ∈ exTwo.list ∨ x = { exCancel2 with alarmExistsFlag := 1 }) ∧
      ∃ pre y post, exTwo.list = pre ++ y :: post ∧
        (∀ x ∈ pre, x.messageNum < exCancel2.messageNum) ∧
        exCancel2.messageNum ≤ y.messageNum ∧
        (alarm_insert exTwo.list exCancel2).1 =
          pre ++ { exCancel2 with alarmExistsFlag := 1 } :: y :: post :=
  cancel_keeps_register_entry exTwo.list exCancel2 exRegister2
    (by decide) (by decide) (by decide) (by decide) (by decide)

/-- The counterexample to C7: in the reachable state `exTwo` the list holds the Register
entry of message 2 and no Cancel entry; after `alarm_insert` has accepted
`Cancel: Message(2)` that entry is on the list with `alarmExistsFlag == 1`, not 0. -/
theorem cancel_soft_delete_counterexample :
    Reachable exTwo ∧ exTwo.list = [exRegister1, exRegister2] ∧
      alarm_insert exTwo.list exCancel2 =
        ([exRegister1, { exCancel2 with alarmExistsFlag := 1 }, exRegister2], []) ∧
      lookupRegister (alarm_insert exTwo.list exCancel2).1 2 = some exRegister2 ∧
      exRegister2.alarmExistsFlag = 1 :=
  ⟨exTwo_reachable, by decide, by decide, by decide, by decide⟩

/-! ## The display thread: one pass -/

/-- C11: a pass of a display thread whose node has `alarmExistsFlag == 0` prints the
`DISPLAY THREAD EXITING` line and nothing else and returns, so that the thread prints
nothing after it (the run stops, and the step removes the thread); a pass on a node with
`alarmExistsFlag == 1` and `changeTracker` 0 or 1 takes exactly one of the three print
branches, prints exactly one line and goes on to the next pass. -/
theorem display_pass_cases (alarm : alarm_t) (temp : Int) :
    (alarm.alarmExistsFlag = 0 →
      periodic_display_iteration alarm temp =
          { temp := temp, out := [Output.displayExiting alarm.messageNum], exited := true } ∧
        (∀ later, periodic_display_run (alarm :: later) temp =
          [Output.displayExiting alarm.messageNum]) ∧
        ∀ (s : State) (i : Nat) (w : Worker), s.workers.get? i = some w →
          s.node w.alarm = some alarm → w.temp = temp →
          (s.work i).workers = s.workers.eraseIdx i ∧
            (s.work i).out = s.out ++ [Output.displayExiting alarm.messageNum]) ∧
      (alarm.alarmExistsFlag = 1 → alarm.changeTracker = 0 ∨ alarm.changeTracker = 1 →
        (periodic_display_iteration alarm temp).exited = false ∧
          ((alarm.changeTracker = 0 ∧ ¬ (alarm.changeTracker = 1 ∧ temp ≠ 0) ∧
              ¬ (alarm.changeTracker = 1 ∧ ¬ temp ≠ 0) ∧
              (periodic_display_iteration alarm temp).out =
                [Output.messageLine alarm.messageNum alarm.message]) ∨
            (¬ alarm.changeTracker = 0 ∧ (alarm.changeTracker = 1 ∧ temp ≠ 0) ∧
              ¬ (alarm.changeTracker = 1 ∧ ¬ temp ≠ 0) ∧
              (periodic_display_iteration alarm temp).out =
                [Output.messageChanged alarm.messageNum alarm.message]) ∨
            (¬ alarm.changeTracker = 0 ∧ ¬ (alarm.changeTracker = 1 ∧ temp ≠ 0) ∧
              (alarm.changeTracker = 1 ∧ ¬ temp ≠ 0) ∧
              (periodic_display_iteration alarm temp).out =
                [Output.messageLine alarm.messageNum alarm.message]))) := by
  constructor
  · intro h0
    have hit : periodic_display_iteration alarm temp =
        { temp := temp, out := [Output.displayExiting alarm.messageNum], exited := true } := by
      simp [periodic_display_iteration, h0]
    refine ⟨hit, ?_, ?_⟩
    · intro later
      simp [periodic_display_run, hit]
    · intro s i w hw hn ht
      subst ht
      simp only [State.work, hw, hn, hit, if_true, and_self]
  · intro h1 hct
    have hne : ¬ alarm.alarmExistsFlag = 0 := by rw [h1]; decide
    rcases hct with hct | hct
    · refine ⟨by simp [periodic_display_iteration, hne], Or.inl ?_⟩
      simp [periodic_display_iteration, hne, hct]
    · by_cases ht : temp = 0
      · refine ⟨by simp [periodic_display_iteration, hne], Or.inr (Or.inr ?_)⟩
        simp [periodic_display_iteration, hne, hct, ht]
      · refine ⟨by simp [periodic_display_iteration, hne], Or.inr (Or.inl ?_)⟩
        simp [periodic_display_iteration, hne, hct, ht]

/-- A concrete instance: the Register node of message 2 after its removal (flag 0) and
while it is listed (flag 1, `changeTracker` 0), with `temp` 0. -/
theorem display_pass_cases_witness :
    periodic_display_iteration { exRegister2 with alarmExistsFlag := 0 } 0 =
        { temp := 0, out := [Output.displayExiting 2], exited := true } ∧
      periodic_display_run [{ exRegister2 with alarmExistsFlag := 0 }, exRegister2] 0 =
        [Output.displayExiting 2] ∧
      (periodic_display_iteration exRegister2 0).exited = false ∧
      (periodic_display_iteration exRegister2 0).out = [Output.messageLine 2 "A"] :=
  ⟨((display_pass_cases { exRegister2 with alarmExistsFlag := 0 } 0).1 (by decide)).1,
    ((display_pass_cases { exRegister2 with alarmExistsFlag := 0 } 0).1 (by decide)).2.1
      [exRegister2],
    ((display_pass_cases exRegister2 0).2 (by decide) (by decide)).1, by decide⟩

/-- C19: a pass of a display thread writes no field of any node: the list, its order,
the unlinked nodes and what every pointer refers to are as before the pass (the code of
`periodic_display_thread` only reads through `alarm`; it does not clear `changeTracker`
either), and so is the pointer of the dispatcher. -/
theorem display_pass_writes_nothing (s : State) (i : Nat) :
    (s.work i).list = s.list ∧ (s.work i).unlinked = s.unlinked ∧
      (∀ p, (s.work i).node p = s.node p) ∧ (s.work i).alarm = s.alarm := by
  refine ⟨work_list s i, work_unlinked s i, ?_, work_alarm s i⟩
  intro p
  unfold State.node
  rw [work_list, work_unlinked]

/-! ## Cancel entries on the list -/

theorem ordered_suffix (pre post : List alarm_t) (h : Ordered (pre ++ post)) :
    Ordered post := by
  induction pre with
  | nil => exact h
  | cons x pre2 ih => exact ih h.2

/-- In a list of the invariant shape a Cancel node after the head has a greater message
number than the head. -/
theorem ordered_head_lt_cancel (x : alarm_t) (rest : List alarm_t)
    (h : Ordered (x :: rest)) :
    ∀ y ∈ rest, y.alarmRequestType = 0 → x.messageNum < y.messageNum := by
  obtain ⟨hhead, htail⟩ := h
  rcases hhead with ⟨_, hlt⟩ | ⟨_, z, rest3, hz, hzt, hzm⟩
  · exact fun y hy _ => hlt y hy
  · subst hz
    intro y hy hy0
    rcases List.mem_cons.1 hy with rfl | hy
    · rw [hzt] at hy0; exact absurd hy0 (by decide)
    · rcases htail.1 with ⟨_, hlt⟩ | ⟨ht0, _⟩
      · rw [← hzm]; exact hlt y hy
      · rw [hzt] at ht0; exact absurd ht0 (by decide)

theorem ordered_countCancel (l : List alarm_t) (m : Int) (ho : Ordered l) :
    countCancel l m ≤ 1 := by
  induction l with
  | nil => simp [countCancel]
  | cons x rest ih =>
    have ih2 := ih ho.2
    unfold countCancel at ih2 ⊢
    by_cases hx : x.alarmRequestType = 0 ∧ x.messageNum = m
    · rw [List.countP_cons_of_pos _ _ (by simpa using hx)]
      have h0 : List.countP (fun x => decide (x.alarmRequestType = 0 ∧ x.messageNum = m))
          rest = 0 := by
        rw [List.countP_eq_zero]
        intro y hy
        have hlt := ordered_head_lt_cancel x rest ho y hy
        simp only [decide_eq_true_eq, not_and]
        intro hy0 hym
        have := hlt hy0
        rw [hx.2, hym] at this
        exact lt_irrefl _ this
      rw [h0]
    · rw [List.countP_cons_of_neg _ _ (by simpa using hx)]
      exact ih2

/-- C20: in every reachable state each message number has at most one Cancel entry on
the list, and every Cancel entry is directly followed by the Register entry with its
message number; and a Cancel request that `alarm_insert` accepts (a Register entry and no
Cancel entry with its number is listed) is linked, directly before that Register
entry. -/
theorem cancel_entries_paired (s : State) (h : Reachable s) :
    (∀ m, countCancel s.list m ≤ 1) ∧
      (∀ pre c post, s.list = pre ++ c :: post → c.alarmRequestType = 0 →
        ∃ r rest, post = r :: rest ∧ r.alarmRequestType = 1 ∧
          r.messageNum = c.messageNum) ∧
      (∀ c : alarm_t, c.alarmRequestType = 0 → findTypeA s.list c ≠ 0 →
        findTypeB s.list c = 0 →
        ∃ pre r post, s.list = pre ++ r :: post ∧ r.alarmRequestType = 1 ∧
          r.messageNum = c.messageNum ∧
          alarm_insert s.list c =
            (pre ++ { c with alarmExistsFlag := 1 } :: r :: post, [])) := by
  have hi := reachable_inv s h
  refine ⟨fun m => ordered_countCancel s.list m hi.ordered, ?_, ?_⟩
  · intro pre c post hl hc
    have ho : Ordered (c :: post) := ordered_suffix pre (c :: post) (by rw [← hl]; exact hi.ordered)
    rcases ho.1 with ⟨ht, _⟩ | ⟨_, r, rest, hr⟩
    · rw [hc] at ht; exact absurd ht (by decide)
    · exact ⟨r, rest, hr⟩
  · intro c hc hA hB
    have hex : ∃ e ∈ s.list, e.alarmRequestType = 1 ∧ e.messageNum = c.messageNum := by
      by_contra hcon
      exact hA ((findTypeA_eq_zero_iff s.list c).2 (fun x hx hx2 => hcon ⟨x, hx, hx2⟩))
    obtain ⟨e, he, het, hem⟩ := hex
    have hnoB := (findTypeB_eq_zero_iff s.list c).1 hB
    have hc1 : c.alarmRequestType ≠ 1 := by rw [hc]; decide
    obtain ⟨pre, y, post, h1, h2, h3, h4⟩ := cancel_accepted s.list c e hc1 he het hem hnoB
    have hy : y ∈ s.list := by rw [h1]; simp
    have ho : Ordered (y :: post) := ordered_suffix pre (y :: post) (by rw [← h1]; exact hi.ordered)
    have hym : y.messageNum = c.messageNum := by
      rw [h1] at he
      rcases List.mem_append.1 he with hep | hep
      · exact absurd hem (ne_of_lt (h2 e hep))
      · rcases List.mem_cons.1 hep with hep | hep
        · rw [← hep]; exact hem
        · exact le_antisymm (by rw [← hem]; exact ordered_head_le y post ho e hep) h3
    have hyt : y.alarmRequestType = 1 := by
      rcases ordered_type s.list hi.ordered y hy with ht | ht
      · exact ht
      · exact absurd ⟨ht, hym⟩ (hnoB y hy)
    exact ⟨pre, y, post, h1, hyt, hym, h4⟩

/-- A concrete instance: the state after `5 Message(2) A`, `4 Message(1) B` and
`Cancel: Message(2)`. -/
theorem cancel_entries_paired_witness :
    Reachable exCancelled ∧
    ((∀ m, countCancel exCancelled.list m ≤ 1) ∧
      (∀ pre c post, exCancelled.list = pre ++ c :: post → c.alarmRequestType = 0 →
        ∃ r rest, post = r :: rest ∧ r.alarmRequestType = 1 ∧
          r.messageNum = c.messageNum) ∧
      (∀ c : alarm_t, c.alarmRequestType = 0 → findTypeA exCancelled.list c ≠ 0 →
        findTypeB exCancelled.list c = 0 →
        ∃ pre r post, exCancelled.list = pre ++ r :: post ∧ r.alarmRequestType = 1 ∧
          r.messageNum = c.messageNum ∧
          alarm_insert exCancelled.list c =
            (pre ++ { c with alarmExistsFlag := 1 } :: r :: post, []))) :=
  ⟨exCancelled_reachable, cancel_entries_paired exCancelled exCancelled_reachable⟩

/-! ## One display thread for a Register entry -/

theorem created_reachable (s : State) (cs : List Nat) (h : Created s cs) : Reachable s := by
  induction h with
  | init => exact Reachable.init
  | submit s cs now raw cmd _ hfresh ih => exact Reachable.submit s now raw cmd ih hfresh
  | scan s cs _ hal ih => exact Reachable.scan s ih hal
  | remove s cs garbage _ ih => exact Reachable.remove s garbage ih
  | work s cs i _ ih => exact Reachable.work s i ih

theorem changeAlarm_pres (P : alarm_t → Prop)
    (hP : ∀ x a : alarm_t, P x →
      P { x with seconds := a.seconds, message := a.message, changeTracker := 1 })
    (l : List alarm_t) (a : alarm_t) :
    ∀ x ∈ l, P x → ∃ y ∈ changeAlarm l a, y.addr = x.addr ∧ P y := by
  induction l with
  | nil => simp
  | cons next rest ih =>
    intro x hx hpx
    by_cases h : next.alarmRequestType = 1 ∧ a.messageNum = next.messageNum
    · simp only [changeAlarm, if_pos h]
      rcases List.mem_cons.1 hx with rfl | hx
      · exact ⟨_, List.mem_cons_self _ _, rfl, hP x a hpx⟩
      · exact ⟨x, List.mem_cons_of_mem _ hx, rfl, hpx⟩
    · simp only [changeAlarm, if_neg h]
      rcases List.mem_cons.1 hx with rfl | hx
      · exact ⟨x, List.mem_cons_self _ _, rfl, hpx⟩
      · obtain ⟨y, hy, hy2⟩ := ih x hx hpx
        exact ⟨y, List.mem_cons_of_mem _ hy, hy2⟩

theorem scanNew_pres (P : alarm_t → Prop)
    (hP : ∀ x : alarm_t, P x → P { x with newAlarmFlag := 0 }) (l : List alarm_t) :
    ∀ x ∈ l, P x → ∃ y ∈ (scanNew l).2, y.addr = x.addr ∧ P y := by
  induction l with
  | nil => simp
  | cons next rest ih =>
    intro x hx hpx
    by_cases h : next.newAlarmFlag = 1
    · simp only [scanNew, if_pos h]
      rcases List.mem_cons.1 hx with rfl | hx
      · exact ⟨_, List.mem_cons_self _ _, rfl, hP x hpx⟩
      · exact ⟨x, List.mem_cons_of_mem _ hx, rfl, hpx⟩
    · simp only [scanNew, if_neg h]
      rcases List.mem_cons.1 hx with rfl | hx
      · exact ⟨x, List.mem_cons_self _ _, rfl, hpx⟩
      · obtain ⟨y, hy, hy2⟩ := ih x hx hpx
        exact ⟨y, List.mem_cons_of_mem _ hy, hy2⟩

theorem alarm_insert_pres (P : alarm_t → Prop)
    (hP : ∀ x a : alarm_t, P x →
      P { x with seconds := a.seconds, message := a.message, changeTracker := 1 })
    (l : List alarm_t) (a : alarm_t) :
    ∀ x ∈ l, P x → ∃ y ∈ (alarm_insert l a).1, y.addr = x.addr ∧ P y := by
  intro x hx hpx
  unfold alarm_insert
  split_ifs
  · exact changeAlarm_pres P hP l a x hx hpx
  · exact ⟨x, mem_insertRegister_of_mem l a x hx, rfl, hpx⟩
  · exact ⟨x, hx, rfl, hpx⟩
  · exact ⟨x, hx, rfl, hpx⟩
  · exact ⟨x, mem_insertCancel_of_mem l a x hx, rfl, hpx⟩

/-- A property of nodes that the three writes to listed nodes keep (the rewrite of
`changeAlarm`, `newAlarmFlag = 0` of the scan, `alarmExistsFlag = 0` of the removal) is
kept, node by node, by every step. -/
theorem step_pres (P : alarm_t → Prop)
    (hchange : ∀ x a : alarm_t, P x →
      P { x with seconds := a.seconds, message := a.message, changeTracker := 1 })
    (hscan : ∀ x : alarm_t, P x → P { x with newAlarmFlag := 0 })
    (hunlink : ∀ x : alarm_t, P x → P { x with alarmExistsFlag := 0 })
    (s s2 : State) (hi : Inv s) (hs : Step s s2) :
    ∀ x ∈ s.list ++ s.unlinked, P x →
      ∃ y ∈ s2.list ++ s2.unlinked, y.addr = x.addr ∧ P y := by
  have hlift : ∀ (l2 : List alarm_t),
      (∀ x ∈ s.list, P x → ∃ y ∈ l2, y.addr = x.addr ∧ P y) →
      ∀ x ∈ s.list ++ s.unlinked, P x → ∃ y ∈ l2 ++ s.unlinked, y.addr = x.addr ∧ P y := by
    intro l2 h x hx hpx
    rcases List.mem_append.1 hx with hx | hx
    · obtain ⟨y, hy, hy2⟩ := h x hx hpx
      exact ⟨y, List.mem_append_left _ hy, hy2⟩
    · exact ⟨x, List.mem_append_right _ hx, rfl, hpx⟩
  cases hs with
  | submit now raw cmd hfresh => exact hlift _ (alarm_insert_pres P hchange s.list _)
  | scan hal => exact hlift _ (scanNew_pres P hscan s.list)
  | work i =>
    rw [work_list, work_unlinked]
    exact fun x hx hpx => ⟨x, hx, rfl, hpx⟩
  | remove garbage =>
    cases hal : s.alarm with
    | none =>
      have h : s.remove garbage = s := by simp only [State.remove, hal]
      rw [h]
      exact fun x hx hpx => ⟨x, hx, rfl, hpx⟩
    | some p =>
      obtain ⟨c, r, pre, post, _, _, h1, _, _, _, _, h7⟩ := remove_pending s hi p hal
      obtain ⟨_, hl, hun, _⟩ := h7 garbage
      intro x hx hpx
      rw [hl, hun]
      rw [h1] at hx
      simp only [List.mem_append, List.mem_cons, List.mem_singleton,
        List.not_mem_nil, or_false] at hx ⊢
      rcases hx with (hx | hx | hx | hx) | hx
      · exact ⟨x, Or.inl (Or.inl hx), rfl, hpx⟩
      · exact ⟨{ c with alarmExistsFlag := 0 }, Or.inr (Or.inr (Or.inl rfl)),
          by rw [hx], by rw [hx] at hpx; exact hunlink c hpx⟩
      · exact ⟨{ r with alarmExistsFlag := 0 }, Or.inr (Or.inr (Or.inr rfl)),
          by rw [hx], by rw [hx] at hpx; exact hunlink r hpx⟩
      · exact ⟨x, Or.inl (Or.inr hx), rfl, hpx⟩
      · exact ⟨x, Or.inr (Or.inl hx), rfl, hpx⟩

/-- The same, for what a pointer refers to in a reachable state. -/
theorem node_pres (P : alarm_t → Prop)
    (hchange : ∀ x a : alarm_t, P x →
      P { x with seconds := a.seconds, message := a.message, changeTracker := 1 })
    (hscan : ∀ x : alarm_t, P x → P { x with newAlarmFlag := 0 })
    (hunlink : ∀ x : alarm_t, P x → P { x with alarmExistsFlag := 0 })
    (s s2 : State) (h : Reachable s) (hs : Step s s2)
    (p : Nat) (a : alarm_t) (hn : s.node p = some a) (hpa : P a) :
    ∃ a2, s2.node p = some a2 ∧ P a2 := by
  have hi := reachable_inv s h
  have hi2 := reachable_inv s2 (reachable_step s s2 h hs)
  have hmem : a ∈ s.list ++ s.unlinked := List.mem_of_find?_eq_some hn
  have hap : a.addr = p := by
    have := List.find?_some hn
    simpa using this
  obtain ⟨y, hy, hya, hyp⟩ := step_pres P hchange hscan hunlink s s2 hi hs a hmem hpa
  refine ⟨y, ?_, hyp⟩
  rw [← hap, ← hya]
  exact node_of_mem s2 y hi2.nodup hy

/-- The node the scan selects had `newAlarmFlag == 1` on the list and has
`newAlarmFlag == 0` after the scan. -/
theorem scanNew_selected (l : List alarm_t) (a : alarm_t) (h : (scanNew l).1 = some a) :
    a.newAlarmFlag = 0 ∧ ∃ x ∈ l, x.addr = a.addr ∧ x.newAlarmFlag = 1 := by
  induction l with
  | nil => simp [scanNew] at h
  | cons x rest ih =>
    by_cases hx : x.newAlarmFlag = 1
    · simp only [scanNew, if_pos hx, Option.some.injEq] at h
      rw [← h]
      exact ⟨rfl, x, List.mem_cons_self _ _, rfl, hx⟩
    · simp only [scanNew, if_neg hx] at h
      obtain ⟨h1, y, hy, hy2⟩ := ih h
      exact ⟨h1, y, List.mem_cons_of_mem _ hy, hy2⟩

/-- Two nodes of the same address in a sequence with distinct addresses are one node. -/
theorem eq_of_addr_eq (l : List alarm_t) (x y : alarm_t)
    (hnd : (l.map (fun x => x.addr)).Nodup) (hx : x ∈ l) (hy : y ∈ l)
    (h : x.addr = y.addr) : x = y := by
  have h1 := find_addr_of_mem l x hnd hx
  have h2 := find_addr_of_mem l y hnd hy
  rw [h, h2] at h1
  exact (Option.some.inj h1).symm

theorem map_alarm_set (ws : List Worker) (i : Nat) (w : Worker) (t : Int)
    (hw : ws.get? i = some w) :
    (ws.set i { w with temp := t }).map (fun w => w.alarm) =
      ws.map (fun w => w.alarm) := by
  induction ws generalizing i with
  | nil => simp
  | cons x rest ih =>
    cases i with
    | zero =>
      simp only [List.get?_cons_zero, Option.some.injEq] at hw
      subst hw
      rfl
    | succ n =>
      simp only [List.get?_cons_succ] at hw
      simp only [List.set_cons_succ, List.map_cons, ih n hw]

/-- After a pass the running display threads are among those that ran before it. -/
theorem work_workers_sublist (s : State) (i : Nat) :
    ((s.work i).workers.map (fun w => w.alarm)).Sublist
      (s.workers.map (fun w => w.alarm)) := by
  unfold State.work
  split
  · exact List.Sublist.refl _
  · rename_i w hw
    split
    · exact List.Sublist.refl _
    · rename_i a ha
      split_ifs
      · exact List.Sublist.map _ (List.eraseIdx_sublist _ _)
      · rw [map_alarm_set s.workers i w _ hw]

/-- The invariant behind C16: the creation branch was taken for pairwise different
nodes, each of them is a node with `newAlarmFlag == 0` now, and the running display
threads are among them in the order of their creation. -/
theorem created_inv (s : State) (cs : List Nat) (h : Created s cs) :
    cs.Nodup ∧
      (∀ p ∈ cs, ∃ a ∈ s.list ++ s.unlinked, a.addr = p ∧ a.newAlarmFlag = 0) ∧
      (s.workers.map (fun w => w.alarm)).Sublist cs := by
  induction h with
  | init => exact ⟨List.nodup_nil, by simp, by simp [State.init]⟩
  | submit s cs now raw cmd hc hfresh ih =>
    have hi := reachable_inv s (created_reachable s cs hc)
    refine ⟨ih.1, ?_, ih.2.2⟩
    intro p hp
    obtain ⟨a, ha, hap, haf⟩ := ih.2.1 p hp
    obtain ⟨y, hy, hya, hyf⟩ := step_pres (fun x => x.newAlarmFlag = 0)
      (fun _ _ hx => hx) (fun _ _ => rfl) (fun _ hx => hx) s _ hi
      (Step.submit s now raw cmd hfresh) a ha haf
    exact ⟨y, hy, by rw [hya, hap], hyf⟩
  | remove s cs garbage hc ih =>
    have hi := reachable_inv s (created_reachable s cs hc)
    have hw : (s.remove garbage).workers = s.workers := by
      unfold State.remove
      split
      · rfl
      · split <;> rfl
    refine ⟨ih.1, ?_, by rw [hw]; exact ih.2.2⟩
    intro p hp
    obtain ⟨a, ha, hap, haf⟩ := ih.2.1 p hp
    obtain ⟨y, hy, hya, hyf⟩ := step_pres (fun x => x.newAlarmFlag = 0)
      (fun _ _ hx => hx) (fun _ _ => rfl) (fun _ hx => hx) s _ hi
      (Step.remove s garbage) a ha haf
    exact ⟨y, hy, by rw [hya, hap], hyf⟩
  | work s cs i hc ih =>
    refine ⟨ih.1, ?_, ?_⟩
    · rw [work_list, work_unlinked]
      exact ih.2.1
    · exact List.Sublist.trans (work_workers_sublist s i) ih.2.2
  | scan s cs hc hal ih =>
    have hi := reachable_inv s (created_reachable s cs hc)
    have hkeep : ∀ p ∈ cs, ∃ a ∈ s.scan.list ++ s.scan.unlinked,
        a.addr = p ∧ a.newAlarmFlag = 0 := by
      intro p hp
      obtain ⟨a, ha, hap, haf⟩ := ih.2.1 p hp
      obtain ⟨y, hy, hya, hyf⟩ := step_pres (fun x => x.newAlarmFlag = 0)
        (fun _ _ hx => hx) (fun _ _ => rfl) (fun _ hx => hx) s _ hi
        (Step.scan s hal) a ha haf
      exact ⟨y, hy, by rw [hya, hap], hyf⟩
    have hsub : (s.scan.workers.map (fun w => w.alarm)).Sublist
        (cs ++ (createdWorker (alarm_thread_scan s.list).1).map (fun w => w.alarm)) := by
      show ((s.workers ++ createdWorker (alarm_thread_scan s.list).1).map
        (fun w => w.alarm)).Sublist _
      rw [List.map_append]
      exact List.Sublist.append ih.2.2 (List.Sublist.refl _)
    cases hsel : (scanNew s.list).1 with
    | none =>
      have hcw : createdWorker (alarm_thread_scan s.list).1 = [] := by
        show createdWorker (scanNew s.list).1 = []
        rw [hsel]; rfl
      rw [hcw] at hsub ⊢
      simp only [List.map_nil, List.append_nil] at hsub ⊢
      exact ⟨ih.1, hkeep, hsub⟩
    | some a =>
      by_cases hat : a.alarmRequestType = 1
      · have hcw : createdWorker (alarm_thread_scan s.list).1 = [⟨a.addr, 0⟩] := by
          show createdWorker (scanNew s.list).1 = _
          rw [hsel]; simp [createdWorker, hat]
        rw [hcw] at hsub ⊢
        simp only [List.map_cons, List.map_nil] at hsub ⊢
        obtain ⟨haf, x, hx, hxa, hxf⟩ := scanNew_selected s.list a hsel
        refine ⟨?_, ?_, hsub⟩
        · rw [List.nodup_append]
          refine ⟨ih.1, List.nodup_singleton _, ?_⟩
          intro p hp hp2
          rw [List.mem_singleton] at hp2
          obtain ⟨b, hb, hbp, hbf⟩ := ih.2.1 p hp
          have hxb : x = b := eq_of_addr_eq (s.list ++ s.unlinked) x b hi.nodup
            (List.mem_append_left _ hx) hb (by rw [hxa, hbp, hp2])
          rw [hxb, hbf] at hxf
          exact absurd hxf (by decide)
        · intro p hp
          rcases List.mem_append.1 hp with hp | hp
          · exact hkeep p hp
          · rw [List.mem_singleton] at hp
            exact ⟨a, List.mem_append_left _ (scanNew_mem s.list a hsel), hp.symm, haf⟩
      · have hcw : createdWorker (alarm_thread_scan s.list).1 = [] := by
          show createdWorker (scanNew s.list).1 = _
          rw [hsel]; simp [createdWorker, hat]
        rw [hcw] at hsub ⊢
        simp only [List.map_nil, List.append_nil] at hsub ⊢
        exact ⟨ih.1, hkeep, hsub⟩
theorem exSelected_created : Created exSelected [2] :=
  Created.scan _ _ (Created.scan _ _
    (Created.submit _ _ _ _ _ (Created.submit _ _ _ _ _
      (Created.submit _ _ _ _ _ Created.init (by decide)) (by decide)) (by decide))
    (by decide)) (by decide)

/-- C16: along every sequence of submissions, dispatcher scans and removals and
display-thread passes, the dispatcher takes its thread-creation branch at most once for a
node (the addresses `cs` of the nodes it was taken for are pairwise different), and no two
running display threads are bound to one node.  The node a scan selects has
`newAlarmFlag == 0` after the scan, and no step, the re-registration through
`changeAlarm` included, takes a node whose `newAlarmFlag` is not 1 to one whose
`newAlarmFlag` is 1. -/
theorem worker_created_once (s : State) (cs : List Nat) (h : Created s cs) :
    cs.Nodup ∧ (s.workers.map (fun w => w.alarm)).Nodup ∧
      (∀ p ∈ cs, ∃ a, s.node p = some a ∧ a.newAlarmFlag = 0) ∧
      (∀ a, (scanNew s.list).1 = some a → a.newAlarmFlag = 0 ∧ a ∈ s.scan.list) ∧
      (∀ s2, Step s s2 → ∀ p a, s.node p = some a → a.newAlarmFlag ≠ 1 →
        ∃ a2, s2.node p = some a2 ∧ a2.newAlarmFlag ≠ 1) := by
  have hr := created_reachable s cs h
  have hi := reachable_inv s hr
  obtain ⟨h1, h2, h3⟩ := created_inv s cs h
  refine ⟨h1, List.Nodup.sublist h3 h1, ?_, ?_, ?_⟩
  · intro p hp
    obtain ⟨a, ha, hap, haf⟩ := h2 p hp
    exact ⟨a, by rw [← hap]; exact node_of_mem s a hi.nodup ha, haf⟩
  · intro a ha
    exact ⟨(scanNew_selected s.list a ha).1, scanNew_mem s.list a ha⟩
  · intro s2 hs p a hn hne
    exact node_pres (fun x => x.newAlarmFlag ≠ 1) (fun _ _ hx => hx)
      (fun _ _ => show (0 : Int) ≠ 1 by decide) (fun _ hx => hx) s s2 hr hs p a hn hne

/-- A concrete instance: after `5 Message(2) A`, `4 Message(1) B`, `Cancel: Message(2)`
and two dispatcher scans the creation branch has been taken for the node of address 2,
the Register node of message 1. -/
theorem worker_created_once_witness :
    Created exSelected [2] ∧
    ([2] : List Nat).Nodup ∧ (exSelected.workers.map (fun w => w.alarm)).Nodup ∧
      (∀ p ∈ ([2] : List Nat), ∃ a, exSelected.node p = some a ∧ a.newAlarmFlag = 0) ∧
      (∀ a, (scanNew exSelected.list).1 = some a →
        a.newAlarmFlag = 0 ∧ a ∈ exSelected.scan.list) ∧
      (∀ s2, Step exSelected s2 → ∀ p a, exSelected.node p = some a →
        a.newAlarmFlag ≠ 1 → ∃ a2, s2.node p = some a2 ∧ a2.newAlarmFlag ≠ 1) :=
  ⟨exSelected_created, worker_created_once exSelected [2] exSelected_created⟩

/-! ## Consecutive dispatcher cycles -/

/-- A scan that selects a node splits the list at the first node with
`newAlarmFlag == 1`. -/
theorem scanNew_split (l : List alarm_t) (a : alarm_t) (h : (scanNew l).1 = some a) :
    ∃ pre a0 post, l = pre ++ a0 :: post ∧ a0.newAlarmFlag = 1 ∧
      (∀ x ∈ pre, x.newAlarmFlag ≠ 1) ∧ a = { a0 with newAlarmFlag := 0 } ∧
      (scanNew l).2 = pre ++ a :: post := by
  induction l with
  | nil => simp [scanNew] at h
  | cons x rest ih =>
    by_cases hx : x.newAlarmFlag = 1
    · simp only [scanNew, if_pos hx, Option.some.injEq] at h ⊢
      exact ⟨[], x, rest, rfl, hx, by simp, h.symm, by rw [h]; rfl⟩
    · simp only [scanNew, if_neg hx] at h ⊢
      obtain ⟨pre, a0, post, h1, h2, h3, h4, h5⟩ := ih h
      refine ⟨x :: pre, a0, post, by rw [h1]; rfl, h2, ?_, h4, by rw [h5]; rfl⟩
      intro y hy
      rcases List.mem_cons.1 hy with rfl | hy
      · exact hx
      · exact h3 y hy

theorem remove_none (s : State) (garbage : Int) (hal : s.alarm = none) :
    s.remove garbage = s := by
  simp only [State.remove, hal]

/-- What a dispatcher cycle from the top of the loop does, by the node its scan
selects. -/
theorem cycle_facts (s : State) (garbage : Int) (hr : Reachable s) (hal : s.alarm = none) :
    Reachable (s.cycle garbage) ∧ (s.cycle garbage).alarm = none ∧
      ((scanNew s.list).1 = none →
        (s.cycle garbage).list = s.list ∧ (s.cycle garbage).out = s.out ∧
          ∀ x ∈ s.list, x.newAlarmFlag ≠ 1) ∧
      (∀ a, (scanNew s.list).1 = some a →
        (∃ a0 ∈ s.list, a0.newAlarmFlag = 1 ∧ a0.messageNum = a.messageNum) ∧
        (s.cycle garbage).out = s.out ++ [cycleLine a] ∧
        ∀ x ∈ (s.cycle garbage).list, x.newAlarmFlag = 1 →
          a.messageNum < x.messageNum) := by
  have hrs : Reachable s.scan := Reachable.scan s hr hal
  have hrc : Reachable (s.cycle garbage) := Reachable.remove s.scan garbage hrs
  have his := reachable_inv s.scan hrs
  have hlist : s.scan.list = (scanNew s.list).2 := rfl
  have hout : s.scan.out = s.out ++ (alarm_thread_scan s.list).2.2 := rfl
  have hpend : s.scan.alarm = pendingRemoval (scanNew s.list).1 := rfl
  refine ⟨hrc, ?_, ?_, ?_⟩
  · cases hp : s.scan.alarm with
    | none =>
      show (s.scan.remove garbage).alarm = none
      rw [remove_none s.scan garbage hp]; exact hp
    | some p =>
      obtain ⟨_, _, _, _, _, _, _, _, _, _, _, h7⟩ := remove_pending s.scan his p hp
      exact (h7 garbage).2.2.2
  · intro hnone
    have hp : s.scan.alarm = none := by rw [hpend, hnone]; rfl
    have hc : s.cycle garbage = s.scan := remove_none s.scan garbage hp
    have hno := (scanNew_none_iff s.list).1 hnone
    rw [hc, hlist, hout, scanNew_none s.list hno]
    refine ⟨rfl, ?_, hno⟩
    show s.out ++ (match (scanNew s.list).1 with
      | some alarm =>
        if alarm.alarmRequestType = 1 then
          [Output.displayCreated alarm.messageNum alarm.message]
        else []
      | none => []) = s.out
    rw [hnone]
    simp
  · intro a ha
    obtain ⟨pre, a0, post, h1, h2, h3, h4, h5⟩ := scanNew_split s.list a ha
    have ham : a0.messageNum = a.messageNum := by rw [h4]
    have hamem : a ∈ s.scan.list := scanNew_mem s.list a ha
    have hos : Ordered (a :: post) :=
      ordered_suffix pre (a :: post) (by rw [← h5, ← hlist]; exact his.ordered)
    have hpost : ∀ x ∈ s.scan.list, x.newAlarmFlag = 1 → x ∈ post := by
      intro x hx hxf
      rw [hlist, h5] at hx
      rcases List.mem_append.1 hx with hx | hx
      · exact absurd hxf (h3 x hx)
      · rcases List.mem_cons.1 hx with hx | hx
        · rw [hx, h4] at hxf
          exact absurd hxf (show ¬ (0 : Int) = 1 by decide)
        · exact hx
    refine ⟨⟨a0, by rw [h1]; simp, h2, ham⟩, ?_⟩
    have hscanout : (alarm_thread_scan s.list).2.2 =
        if a.alarmRequestType = 1 then
          [Output.displayCreated a.messageNum a.message] else [] := by
      show (match (scanNew s.list).1 with
        | some alarm =>
          if alarm.alarmRequestType = 1 then
            [Output.displayCreated alarm.messageNum alarm.message]
          else []
        | none => []) = _
      rw [ha]
    rcases ordered_type s.scan.list his.ordered a hamem with hat | hat
    · have hp : s.scan.alarm = none := by
        rw [hpend, ha]
        simp [pendingRemoval, hat]
      have hc : s.cycle garbage = s.scan := remove_none s.scan garbage hp
      rw [hc, hout, hscanout]
      refine ⟨by simp [cycleLine, hat], ?_⟩
      intro x hx hxf
      rcases hos.1 with ⟨_, hlt⟩ | ⟨ht0, _⟩
      · exact hlt x (hpost x hx hxf)
      · rw [hat] at ht0; exact absurd ht0 (by decide)
    · have hp : s.scan.alarm = some a.addr := by
        rw [hpend, ha]
        simp [pendingRemoval, hat]
      obtain ⟨c, r, pre2, post2, hn, _, hl2, _, _, h4b, _, h7⟩ :=
        remove_pending s.scan his a.addr hp
      have hca : c = a := by
        have := node_of_listed s.scan a his.nodup hamem
        rw [hn] at this
        exact Option.some.inj this
      subst hca
      obtain ⟨hrem, hl3, _, _⟩ := h7 garbage
      have hout2 : (s.cycle garbage).out = s.scan.out ++ [Output.cancelLine c.messageNum c.message] := by
        show (s.scan.remove garbage).out = _
        simp only [State.remove, hp, hn, hrem]
      have hne1 : ¬ c.alarmRequestType = 1 := by rw [hat]; decide
      refine ⟨by rw [hout2, hout, hscanout]; simp [cycleLine, hne1], ?_⟩
      intro x hx hxf
      have hx2 : x ∈ pre2 ++ post2 := by rw [← hl3]; exact hx
      have hxs : x ∈ s.scan.list := by
        rw [hl2]
        rcases List.mem_append.1 hx2 with h | h
        · exact List.mem_append_left _ h
        · exact List.mem_append_right _ (List.mem_cons_of_mem _ (List.mem_cons_of_mem _ h))
      exact lt_of_le_of_ne (ordered_head_le c post hos x (hpost x hxs hxf))
        (fun e => h4b x hx2 e.symm)

/-- Consecutive cycles from a state whose pending entries all have message numbers above
`b` select nodes with message numbers above `b`, in strictly ascending order, and print
one line for each of them. -/
theorem cycles_ascending (gs : List Int) :
    ∀ (s : State) (b : Int), Reachable s → s.alarm = none →
      (∀ x ∈ s.list, x.newAlarmFlag = 1 → b < x.messageNum) →
      (∀ a ∈ s.selected gs, b < a.messageNum) ∧
        ((s.selected gs).map (fun a => a.messageNum)).Pairwise (fun m n => m < n) ∧
        (s.cycles gs).out = s.out ++ (s.selected gs).map cycleLine := by
  induction gs with
  | nil =>
    intro s b _ _ _
    simp [State.selected, State.cycles]
  | cons g later ih =>
    intro s b hr hal hb
    obtain ⟨hrc, halc, hnone, hsome⟩ := cycle_facts s g hr hal
    cases hsel : (scanNew s.list).1 with
    | none =>
      obtain ⟨hl, ho, _⟩ := hnone hsel
      obtain ⟨i1, i2, i3⟩ := ih (s.cycle g) b hrc halc (by rw [hl]; exact hb)
      simp only [State.selected, State.cycles, hsel, Option.toList, List.nil_append]
      exact ⟨i1, i2, by rw [i3, ho]⟩
    | some a =>
      obtain ⟨⟨a0, ha0, ha0f, ha0m⟩, ho, hbound⟩ := hsome a hsel
      have hba : b < a.messageNum := by rw [← ha0m]; exact hb a0 ha0 ha0f
      obtain ⟨i1, i2, i3⟩ := ih (s.cycle g) a.messageNum hrc halc hbound
      simp only [State.selected, State.cycles, hsel, Option.toList, List.singleton_append,
        List.map_cons, List.pairwise_cons, List.mem_cons, forall_eq_or_imp]
      refine ⟨⟨hba, fun x hx => lt_trans hba (i1 x hx)⟩, ⟨?_, i2⟩, ?_⟩
      · intro m hm
        obtain ⟨x, hx, hxm⟩ := List.mem_map.1 hm
        rw [← hxm]
        exact i1 x hx
      · rw [i3, ho]
        simp

/-- C17: from a reachable state with the dispatcher at the top of its loop, consecutive
dispatcher cycles with no submission in between select the pending entries in strictly
ascending, hence non-decreasing, order of message number, each scan taking the first
pending entry from the head; the lines the cycles print are the creation line or the
cancel line of the selected nodes in that order, so the message numbers of these lines
ascend as well. -/
theorem cycles_in_ascending_order (s : State) (h : Reachable s) (hal : s.alarm = none)
    (gs : List Int) :
    ((s.selected gs).map (fun a => a.messageNum)).Pairwise (fun m n => m < n) ∧
      ((s.selected gs).map (fun a => a.messageNum)).Pairwise (fun m n => m ≤ n) ∧
      (s.cycles gs).out = s.out ++ (s.selected gs).map cycleLine ∧
      (((s.cycles gs).out.drop s.out.length).map Output.num).Pairwise (fun m n => m < n) := by
  have hmain : ((s.selected gs).map (fun a => a.messageNum)).Pairwise (fun m n => m < n) ∧
      (s.cycles gs).out = s.out ++ (s.selected gs).map cycleLine := by
    cases gs with
    | nil => simp [State.selected, State.cycles]
    | cons g later =>
      obtain ⟨hrc, halc, hnone, hsome⟩ := cycle_facts s g h hal
      cases hsel : (scanNew s.list).1 with
      | none =>
        obtain ⟨hl, ho, hno⟩ := hnone hsel
        obtain ⟨_, i2, i3⟩ := cycles_ascending later (s.cycle g) 0 hrc halc
          (fun x hx hxf => absurd hxf (hno x (by rw [← hl]; exact hx)))
        simp only [State.selected, State.cycles, hsel, Option.toList, List.nil_append]
        exact ⟨i2, by rw [i3, ho]⟩
      | some a =>
        obtain ⟨_, ho, hbound⟩ := hsome a hsel
        obtain ⟨i1, i2, i3⟩ := cycles_ascending later (s.cycle g) a.messageNum hrc halc hbound
        simp only [State.selected, State.cycles, hsel, Option.toList, List.singleton_append,
          List.map_cons, List.pairwise_cons]
        refine ⟨⟨?_, i2⟩, ?_⟩
        · intro m hm
          obtain ⟨x, hx, hxm⟩ := List.mem_map.1 hm
          rw [← hxm]
          exact i1 x hx
        · rw [i3, ho]
          simp
  obtain ⟨h1, h2⟩ := hmain
  have hnum : ∀ a : alarm_t, (cycleLine a).num = a.messageNum := by
    intro a
    unfold cycleLine
    split_ifs <;> rfl
  refine ⟨h1, h1.imp (fun hmn => le_of_lt hmn), h2, ?_⟩
  rw [h2, List.drop_left, List.map_map]
  have : (Output.num ∘ cycleLine) = (fun a : alarm_t => a.messageNum) := by
    funext a
    exact hnum a
  rw [this]
  exact h1
/-- A concrete instance: three cycles after `5 Message(2) A`, `4 Message(1) B` and
`Cancel: Message(2)`, all three entries pending.  The cycles select the Register node of
message 1, then the Cancel node of message 2, then nothing. -/
theorem cycles_in_ascending_order_witness :
    Reachable exCancelled ∧ exCancelled.alarm = none ∧
      (exCancelled.selected [7, 7, 7]).map (fun a => a.messageNum) = [1, 2] ∧
      (exCancelled.cycles [7, 7, 7]).out =
        [Output.displayCreated 1 "B", Output.cancelLine 2 ""] ∧
      ((exCancelled.selected [7, 7, 7]).map (fun a => a.messageNum)).Pairwise
        (fun m n => m < n) ∧
      ((exCancelled.selected [7, 7, 7]).map (fun a => a.messageNum)).Pairwise
        (fun m n => m ≤ n) ∧
      (exCancelled.cycles [7, 7, 7]).out =
        exCancelled.out ++ (exCancelled.selected [7, 7, 7]).map cycleLine ∧
      (((exCancelled.cycles [7, 7, 7]).out.drop exCancelled.out.length).map
        Output.num).Pairwise (fun m n => m < n) :=
  ⟨exCancelled_reachable, by decide, by decide, by decide,
    cycles_in_ascending_order exCancelled exCancelled_reachable (by decide) [7, 7, 7]⟩

/-! ## The scenario with two cancellations -/

theorem onlyRegister3_cycle (s : State) (g : Int) (h : OnlyRegister3 s) :
    OnlyRegister3 (s.cycle g) := by
  obtain ⟨hal, r, hl, hrt, hrm⟩ := h
  by_cases hf : r.newAlarmFlag = 1
  · have hscan : scanNew s.list =
        (some { r with newAlarmFlag := 0 }, [{ r with newAlarmFlag := 0 }]) := by
      rw [hl]; simp [scanNew, hf]
    have hp : s.scan.alarm = none := by
      show pendingRemoval (scanNew s.list).1 = none
      rw [hscan]; simp [pendingRemoval, hrt]
    have hc : s.cycle g = s.scan := remove_none s.scan g hp
    rw [hc]
    refine ⟨hp, { r with newAlarmFlag := 0 }, ?_, hrt, hrm⟩
    show (scanNew s.list).2 = _
    rw [hscan]
  · have hscan : scanNew s.list = (none, [r]) := by
      rw [hl]; simp [scanNew, hf]
    have hp : s.scan.alarm = none := by
      show pendingRemoval (scanNew s.list).1 = none
      rw [hscan]; rfl
    have hc : s.cycle g = s.scan := remove_none s.scan g hp
    rw [hc]
    refine ⟨hp, r, ?_, hrt, hrm⟩
    show (scanNew s.list).2 = _
    rw [hscan]

theorem onlyRegister3_cycles (gs : List Int) :
    ∀ s : State, OnlyRegister3 s → OnlyRegister3 (s.cycles gs) := by
  induction gs with
  | nil => exact fun s h => h
  | cons g later ih => exact fun s h => ih (s.cycle g) (onlyRegister3_cycle s g h)

theorem scenarioFirstCancel_list (t1 : Int) (raw1 : alarm_t) (gs1 : List Int) :
    OnlyRegister3 (scenarioFirstCancel t1 raw1 gs1) := by
  refine onlyRegister3_cycles gs1 _ ⟨rfl, ?_⟩
  refine ⟨⟨raw1.addr, 2, t1 + 2, "X", 3, 1, 0, 1, 1⟩, ?_, rfl, rfl⟩
  simp [State.submit, State.init, main_submit, main_request, alarm_insert, findTypeA,
    insertRegister]

/-- A state with the dispatcher at the top of its loop and nothing on the list stays so
over dispatcher cycles. -/
theorem empty_cycles (gs : List Int) :
    ∀ s : State, s.alarm = none → s.list = [] → (s.cycles gs).list = [] := by
  induction gs with
  | nil => exact fun s _ hl => hl
  | cons g later ih =>
    intro s hal hl
    have hscan : scanNew s.list = (none, []) := by rw [hl]; rfl
    have hp : s.scan.alarm = none := by
      show pendingRemoval (scanNew s.list).1 = none
      rw [hscan]; rfl
    have hc : s.cycle g = s.scan := remove_none s.scan g hp
    refine ih (s.cycle g) (by rw [hc]; exact hp) ?_
    rw [hc]
    show (scanNew s.list).2 = []
    rw [hscan]

/-- One dispatcher cycle on the list that holds a pending Cancel node and the Register
node of its message number empties the list. -/
theorem cancelled_cycle (s : State) (g : Int) (c r : alarm_t)
    (hl : s.list = [c, r]) (hct : c.alarmRequestType = 0) (hcf : c.newAlarmFlag = 1)
    (hm : r.messageNum = c.messageNum) :
    (s.cycle g).alarm = none ∧ (s.cycle g).list = [] := by
  have hscan : scanNew s.list =
      (some { c with newAlarmFlag := 0 }, [{ c with newAlarmFlag := 0 }, r]) := by
    rw [hl]; simp [scanNew, hcf]
  have hp : s.scan.alarm = some c.addr := by
    show pendingRemoval (scanNew s.list).1 = _
    rw [hscan]; simp [pendingRemoval, hct]
  have hlist : s.scan.list = [{ c with newAlarmFlag := 0 }, r] := by
    show (scanNew s.list).2 = _
    rw [hscan]
  have hn : s.scan.node c.addr = some { c with newAlarmFlag := 0 } := by
    unfold State.node
    rw [hlist]
    simp
  have hrem : (alarm_thread_remove s.scan.list { c with newAlarmFlag := 0 } g).list = [] := by
    rw [hlist]
    simp [alarm_thread_remove, hct, unlinkPointer, unlinkNumber, hm]
  constructor
  · show (s.scan.remove g).alarm = none
    simp only [State.remove, hp, hn]
  · show (s.scan.remove g).list = []
    simp only [State.remove, hp, hn, hrem]

/-- C15 as amended: from the empty list, after `2 Message(3) X`, any dispatcher cycles,
the first `Cancel: Message(3)` is accepted (no error line, the request is linked).  The
second `Cancel: Message(3)` gets the `Multiple` error when no dispatcher cycle ran since
the first one, and the `Does NOT Exist` error when at least one ran: that cycle has
unlinked the Cancel node and the Register node. -/
theorem cancel_twice_scenario (t1 t2 t3 : Int) (raw1 raw2 raw3 : alarm_t)
    (gs1 gs2 : List Int) :
    main_submit t2 (scenarioFirstCancel t1 raw1 gs1).list (main_request raw2 (.cancel 3)) =
        ({ main_request raw2 (.cancel 3) with
            time := t2 + 0, newAlarmFlag := 1, changeTracker := 0, alarmExistsFlag := 1 }
          :: (scenarioFirstCancel t1 raw1 gs1).list, []) ∧
      (gs2 = [] →
        (main_submit t3 (scenarioSecondCancel t1 raw1 gs1 t2 raw2 gs2).list
          (main_request raw3 (.cancel 3))).2 = [Output.multiple 3]) ∧
      (gs2 ≠ [] →
        (main_submit t3 (scenarioSecondCancel t1 raw1 gs1 t2 raw2 gs2).list
          (main_request raw3 (.cancel 3))).2 = [Output.doesNotExist 3]) := by
  obtain ⟨hal, r, hl, hrt, hrm⟩ := scenarioFirstCancel_list t1 raw1 gs1
  have hfirst : main_submit t2 (scenarioFirstCancel t1 raw1 gs1).list
      (main_request raw2 (.cancel 3)) =
      ({ main_request raw2 (.cancel 3) with
          time := t2 + 0, newAlarmFlag := 1, changeTracker := 0, alarmExistsFlag := 1 }
        :: (scenarioFirstCancel t1 raw1 gs1).list, []) := by
    rw [hl]
    simp [main_submit, main_request, alarm_insert, findTypeA, findTypeB, insertCancel,
      hrt, hrm]
  have hsub : ((scenarioFirstCancel t1 raw1 gs1).submit t2 raw2 (.cancel 3)).list =
      [{ main_request raw2 (.cancel 3) with
          time := t2 + 0, newAlarmFlag := 1, changeTracker := 0, alarmExistsFlag := 1 }, r] := by
    show (main_submit t2 (scenarioFirstCancel t1 raw1 gs1).list
      (main_request raw2 (.cancel 3))).1 = _
    rw [hfirst, hl]
  refine ⟨hfirst, ?_, ?_⟩
  · intro hgs
    subst hgs
    show (main_submit t3 ((scenarioFirstCancel t1 raw1 gs1).submit t2 raw2 (.cancel 3)).list
      (main_request raw3 (.cancel 3))).2 = _
    rw [hsub]
    simp [main_submit, main_request, alarm_insert, findTypeA, findTypeB, hrt, hrm]
  · intro hgs
    cases gs2 with
    | nil => exact absurd rfl hgs
    | cons g later =>
      obtain ⟨hal2, hl2⟩ := cancelled_cycle
        ((scenarioFirstCancel t1 raw1 gs1).submit t2 raw2 (.cancel 3)) g _ r hsub
        rfl rfl hrm
      have hempty : (scenarioSecondCancel t1 raw1 gs1 t2 raw2 (g :: later)).list = [] :=
        empty_cycles later _ hal2 hl2
      rw [hempty]
      simp [main_submit, main_request, alarm_insert, findTypeA]

/-- A concrete instance: no dispatcher cycle before the first cancel; none, and one,
between the two cancels. -/
theorem cancel_twice_scenario_witness :
    (main_submit 102 (scenarioSecondCancel 100 (rawNode 1) [] 101 (rawNode 2) []).list
        (main_request (rawNode 3) (.cancel 3))).2 = [Output.multiple 3] ∧
      (main_submit 102 (scenarioSecondCancel 100 (rawNode 1) [] 101 (rawNode 2) [7]).list
        (main_request (rawNode 3) (.cancel 3))).2 = [Output.doesNotExist 3] :=
  ⟨(cancel_twice_scenario 100 101 102 (rawNode 1) (rawNode 2) (rawNode 3) [] []).2.1 rfl,
    (cancel_twice_scenario 100 101 102 (rawNode 1) (rawNode 2) (rawNode 3) [] [7]).2.2
      (by decide)⟩

/-- The counterexample to C15: `2 Message(3) X`, `Cancel: Message(3)`, one dispatcher
cycle, `Cancel: Message(3)`.  The cycle selects the Cancel node and unlinks it and the
Register node, so the list is empty and the second cancel prints `Does NOT Exist`, not
`Multiple`. -/
theorem cancel_twice_counterexample :
    (scenarioFirstCancel 100 (rawNode 1) []).list.map
        (fun x => (x.messageNum, x.alarmRequestType)) = [(3, 1)] ∧
      ((scenarioFirstCancel 100 (rawNode 1) []).submit 101 (rawNode 2) (.cancel 3)).list.map
        (fun x => (x.messageNum, x.alarmRequestType)) = [(3, 0), (3, 1)] ∧
      (scenarioSecondCancel 100 (rawNode 1) [] 101 (rawNode 2) [7]).list = [] ∧
      (scenarioSecondCancel 100 (rawNode 1) [] 101 (rawNode 2) [7]).out =
        [Output.cancelLine 3 ""] ∧
      (main_submit 102 (scenarioSecondCancel 100 (rawNode 1) [] 101 (rawNode 2) [7]).list
        (main_request (rawNode 3) (.cancel 3))).2 = [Output.doesNotExist 3] ∧
      (main_submit 102 (scenarioSecondCancel 100 (rawNode 1) [] 101 (rawNode 2) [7]).list
        (main_request (rawNode 3) (.cancel 3))).2 ≠ [Output.multiple 3] :=
  ⟨by decide, by decide, by decide, by decide, by decide, by decide⟩

/-! ## The gate -/

theorem sem_wait_pos (v : Nat) (h : 0 < v) : sem_wait v = some (v - 1) := by
  unfold sem_wait
  rw [if_neg (by omega)]

theorem sem_wait_some (v w : Nat) (h : sem_wait v = some w) : 0 < v ∧ w = v - 1 := by
  unfold sem_wait at h
  split_ifs at h with h0
  exact ⟨by omega, (Option.some.inj h).symm⟩

/-- What an enter that does not block does to the gate. -/
theorem gate_enter_some (g g2 : Gate) (h : gate_enter g = some g2) :
    0 < g.alarm_mutex1 ∧ g2.counter = g.counter + 1 ∧ g2.alarm_mutex1 = g.alarm_mutex1 ∧
      (g.counter = 0 → 0 < g.alarm_cond1 ∧ g2.alarm_cond1 = g.alarm_cond1 - 1) ∧
      (g.counter ≠ 0 → g2.alarm_cond1 = g.alarm_cond1) := by
  unfold gate_enter at h
  cases hm : sem_wait g.alarm_mutex1 with
  | none => rw [hm] at h; exact absurd h (by simp)
  | some m =>
    obtain ⟨hm1, hm2⟩ := sem_wait_some _ _ hm
    rw [hm] at h
    simp only at h
    by_cases hc : g.counter + 1 = 1
    · rw [if_pos hc] at h
      cases hcd : sem_wait g.alarm_cond1 with
      | none => rw [hcd] at h; exact absurd h (by simp)
      | some c =>
        obtain ⟨hc1, hc2⟩ := sem_wait_some _ _ hcd
        rw [hcd] at h
        simp only [Option.some.injEq] at h
        subst h
        refine ⟨hm1, rfl, ?_, fun _ => ⟨hc1, hc2⟩, fun hne => absurd (by omega) hne⟩
        show sem_post m = g.alarm_mutex1
        unfold sem_post
        omega
    · rw [if_neg hc] at h
      simp only [Option.some.injEq] at h
      subst h
      refine ⟨hm1, rfl, ?_, fun h0 => absurd (by omega) hc, fun _ => rfl⟩
      show sem_post m = g.alarm_mutex1
      unfold sem_post
      omega

/-- What an exit that does not block does to the gate. -/
theorem gate_exit_some (g g2 : Gate) (h : gate_exit g = some g2) :
    0 < g.alarm_mutex1 ∧ g2.counter = g.counter - 1 ∧ g2.alarm_mutex1 = g.alarm_mutex1 ∧
      (g2.counter = 0 → g2.alarm_cond1 = g.alarm_cond1 + 1) ∧
      (g2.counter ≠ 0 → g2.alarm_cond1 = g.alarm_cond1) := by
  unfold gate_exit at h
  cases hm : sem_wait g.alarm_mutex1 with
  | none => rw [hm] at h; exact absurd h (by simp)
  | some m =>
    obtain ⟨hm1, hm2⟩ := sem_wait_some _ _ hm
    rw [hm] at h
    simp only at h
    by_cases hc : g.counter - 1 = 0
    · rw [if_pos hc] at h
      simp only [Option.some.injEq] at h
      subst h
      refine ⟨hm1, rfl, ?_, fun _ => rfl, fun hne => absurd hc hne⟩
      show sem_post m = g.alarm_mutex1
      unfold sem_post
      omega
    · rw [if_neg hc] at h
      simp only [Option.some.injEq] at h
      subst h
      refine ⟨hm1, rfl, ?_, fun h0 => absurd h0 hc, fun _ => rfl⟩
      show sem_post m = g.alarm_mutex1
      unfold sem_post
      omega

/-- An enter on a gate whose mutex is free, and whose permit is free when the counter is
0, does not block. -/
theorem gate_enter_runs (g : Gate) (hm : 0 < g.alarm_mutex1)
    (hc : g.counter = 0 → 0 < g.alarm_cond1) : ∃ g2, gate_enter g = some g2 := by
  unfold gate_enter
  rw [sem_wait_pos _ hm]
  simp only
  by_cases h1 : g.counter + 1 = 1
  · rw [if_pos h1, sem_wait_pos _ (hc (by omega))]
    exact ⟨_, rfl⟩
  · rw [if_neg h1]
    exact ⟨_, rfl⟩

/-- An exit on a gate whose mutex is free does not block. -/
theorem gate_exit_runs (g : Gate) (hm : 0 < g.alarm_mutex1) : ∃ g2, gate_exit g = some g2 := by
  unfold gate_exit
  rw [sem_wait_pos _ hm]
  simp only
  split_ifs <;> exact ⟨_, rfl⟩

theorem gate_run_balanced (ops : List GateOp) :
    ∀ (n : Nat) (g : Gate), GateAt n g → balancedFrom n ops = true →
      ∃ g2 n2, gate_run g ops = some g2 ∧ GateAt n2 g2 ∧
        (n2 : Int) = n + (ops.count GateOp.enter : Int) - (ops.count GateOp.exit : Int) := by
  induction ops with
  | nil =>
    intro n g hg _
    exact ⟨g, n, rfl, hg, by simp⟩
  | cons op later ih =>
    intro n g hg hb
    obtain ⟨h1, h2, h3, h4⟩ := hg
    cases op with
    | enter =>
      obtain ⟨g1, he⟩ := gate_enter_runs g (by omega)
        (fun h0 => by rw [h3 (by omega)]; omega)
      obtain ⟨_, e2, e3, e4, e5⟩ := gate_enter_some g g1 he
      have hg1 : GateAt (n + 1) g1 := by
        refine ⟨by rw [e2, h1]; simp, by rw [e3, h2], fun h => absurd h (by omega), ?_⟩
        intro _
        by_cases hn : n = 0
        · rw [(e4 (by rw [h1, hn]; rfl)).2, h3 hn]
        · rw [e5 (by rw [h1]; exact_mod_cast hn), h4 hn]
      have hb2 : balancedFrom (n + 1) later = true := by
        simpa only [balancedFrom] using hb
      obtain ⟨g2, n2, hr, hg2, hn2⟩ := ih (n + 1) g1 hg1 hb2
      refine ⟨g2, n2, ?_, hg2, ?_⟩
      · simp only [gate_run, gate_step, he, hr]
      · have c1 : List.count GateOp.enter (GateOp.enter :: later) =
            List.count GateOp.enter later + 1 := List.count_cons_self _ _
        have c2 : List.count GateOp.exit (GateOp.enter :: later) =
            List.count GateOp.exit later := List.count_cons_of_ne (by decide) _
        rw [hn2, c1, c2]
        push_cast
        ring
    | exit =>
      cases n with
      | zero => simp [balancedFrom] at hb
      | succ k =>
        obtain ⟨g1, he⟩ := gate_exit_runs g (by omega)
        obtain ⟨_, e2, e3, e4, e5⟩ := gate_exit_some g g1 he
        have hc1 : g1.counter = k := by rw [e2, h1]; push_cast; ring
        have hg1 : GateAt k g1 := by
          refine ⟨hc1, by rw [e3, h2], ?_, ?_⟩
          · intro hk
            rw [e4 (by rw [hc1, hk]; rfl), h4 (by omega)]
          · intro hk
            rw [e5 (by rw [hc1]; exact_mod_cast hk), h4 (by omega)]
        have hb2 : balancedFrom k later = true := by
          simpa only [balancedFrom] using hb
        obtain ⟨g2, n2, hr, hg2, hn2⟩ := ih k g1 hg1 hb2
        refine ⟨g2, n2, ?_, hg2, ?_⟩
        · simp only [gate_run, gate_step, he, hr]
        · have c1 : List.count GateOp.exit (GateOp.exit :: later) =
              List.count GateOp.exit later + 1 := List.count_cons_self _ _
          have c2 : List.count GateOp.enter (GateOp.exit :: later) =
              List.count GateOp.enter later := List.count_cons_of_ne (by decide) _
          rw [hn2, c1, c2]
          push_cast
          ring

/-- C12: from `counter == 0` with the permit free, every sequence of enters and exits in
which no prefix has more exits than enters runs without blocking; after it `counter` is
the number of enters minus the number of exits, and the permit `alarm_cond1` is held
(value 0) exactly when `counter > 0` and free (value 1) exactly when `counter == 0`.  An
enter takes the permit exactly when it finds `counter == 0`, and an exit releases it
exactly when it leaves `counter == 0`. -/
theorem gate_counter_permit (ops : List GateOp) (h : balancedFrom 0 ops = true) :
    (∃ g, gate_run gate_free ops = some g ∧
        g.counter = (ops.count GateOp.enter : Int) - (ops.count GateOp.exit : Int) ∧
        (g.alarm_cond1 = 0 ↔ 0 < g.counter) ∧ (g.alarm_cond1 = 1 ↔ g.counter = 0)) ∧
      (∀ g g2, gate_enter g = some g2 →
        (g.counter = 0 → g2.alarm_cond1 + 1 = g.alarm_cond1) ∧
          (g.counter ≠ 0 → g2.alarm_cond1 = g.alarm_cond1)) ∧
      (∀ g g2, gate_exit g = some g2 →
        (g2.counter = 0 → g2.alarm_cond1 = g.alarm_cond1 + 1) ∧
          (g2.counter ≠ 0 → g2.alarm_cond1 = g.alarm_cond1)) := by
  refine ⟨?_, ?_, ?_⟩
  · obtain ⟨g, n, hr, ⟨h1, _, h3, h4⟩, hn⟩ := gate_run_balanced ops 0 gate_free
      ⟨rfl, rfl, fun _ => rfl, fun h0 => absurd rfl h0⟩ h
    refine ⟨g, hr, ?_, ?_, ?_⟩
    · rw [h1, hn]; simp
    · rw [h1]
      constructor
      · intro hc
        by_cases hn0 : n = 0
        · rw [h3 hn0] at hc; exact absurd hc (by decide)
        · exact_mod_cast Nat.pos_of_ne_zero hn0
      · intro hpos
        exact h4 (by intro hn0; rw [hn0] at hpos; exact absurd hpos (by decide))
    · rw [h1]
      constructor
      · intro hc
        by_cases hn0 : n = 0
        · rw [hn0]; rfl
        · rw [h4 hn0] at hc; exact absurd hc (by decide)
      · intro hz
        exact h3 (by exact_mod_cast hz)
  · intro g g2 he
    obtain ⟨_, _, _, e4, e5⟩ := gate_enter_some g g2 he
    refine ⟨fun h0 => ?_, e5⟩
    obtain ⟨hp, he2⟩ := e4 h0
    omega
  · intro g g2 he
    obtain ⟨_, _, _, e4, e5⟩ := gate_exit_some g g2 he
    exact ⟨e4, e5⟩

/-- A concrete instance: enter, enter, exit, enter, exit, exit. -/
theorem gate_counter_permit_witness :
    gate_run gate_free
        [GateOp.enter, GateOp.enter, GateOp.exit, GateOp.enter, GateOp.exit, GateOp.exit] =
        some gate_free ∧
      gate_run gate_free [GateOp.enter, GateOp.enter, GateOp.exit] =
        some { counter := 1, alarm_mutex1 := 1, alarm_cond1 := 0 } ∧
      ∃ g, gate_run gate_free [GateOp.enter, GateOp.enter, GateOp.exit] = some g ∧
        g.counter = (([GateOp.enter, GateOp.enter, GateOp.exit] : List GateOp).count
            GateOp.enter : Int) -
          (([GateOp.enter, GateOp.enter, GateOp.exit] : List GateOp).count GateOp.exit : Int) ∧
        (g.alarm_cond1 = 0 ↔ 0 < g.counter) ∧ (g.alarm_cond1 = 1 ↔ g.counter = 0) :=
  ⟨by decide, by decide,
    (gate_counter_permit [GateOp.enter, GateOp.enter, GateOp.exit] (by decide)).1⟩

/-! ## Gate operations of a pass -/

/-- An operation of one thread keeps the invariant of the gate. -/
theorem thread_step_inv (g g2 : Gate) (k : Nat) (pre post : List Pc) (t t2 : Pc)
    (cancel : Bool) (h : GateInv g k (pre ++ t :: post))
    (hs : thread_step g cancel t = some (g2, t2)) : GateInv g2 k (pre ++ t2 :: post) := by
  unfold GateInv at h ⊢
  simp only [List.count_append, List.count_cons] at h ⊢
  cases t
  case outside =>
    simp only [thread_step] at hs
    cases hw : sem_wait g.alarm_mutex1 with
    | none => simp [hw] at hs
    | some m =>
      obtain ⟨hpos, hm⟩ := sem_wait_some _ _ hw
      simp only [hw, Option.some.injEq, Prod.mk.injEq] at hs
      obtain ⟨rfl, rfl⟩ := hs
      simp only [beq_iff_eq, reduceCtorEq, if_false, if_true, add_zero] at h ⊢
      obtain ⟨h1, h2, h3, h4, h5, h6⟩ := h
      refine ⟨?_, ?_, ?_, ?_, ?_, ?_⟩ <;> omega
  case enterLocked =>
    simp only [thread_step, Option.some.injEq, Prod.mk.injEq] at hs
    obtain ⟨rfl, rfl⟩ := hs
    by_cases hc : g.counter + 1 = 1
    · simp only [if_pos hc, beq_iff_eq, reduceCtorEq, if_false, if_true, add_zero] at h ⊢
      obtain ⟨h1, h2, h3, h4, h5, h6⟩ := h
      refine ⟨?_, ?_, ?_, ?_, ?_, ?_⟩ <;> omega
    · simp only [if_neg hc, beq_iff_eq, reduceCtorEq, if_false, if_true, add_zero] at h ⊢
      obtain ⟨h1, h2, h3, h4, h5, h6⟩ := h
      refine ⟨?_, ?_, ?_, ?_, ?_, ?_⟩ <;> omega
  case enterWait =>
    simp only [thread_step] at hs
    cases hw : sem_wait g.alarm_cond1 with
    | none => simp [hw] at hs
    | some m =>
      obtain ⟨hpos, hm⟩ := sem_wait_some _ _ hw
      simp only [hw, Option.some.injEq, Prod.mk.injEq] at hs
      obtain ⟨rfl, rfl⟩ := hs
      simp only [beq_iff_eq, reduceCtorEq, if_false, if_true, add_zero] at h ⊢
      obtain ⟨h1, h2, h3, h4, h5, h6⟩ := h
      refine ⟨?_, ?_, ?_, ?_, ?_, ?_⟩ <;> omega
  case enterUnlock =>
    simp only [thread_step, sem_post, Option.some.injEq, Prod.mk.injEq] at hs
    obtain ⟨rfl, rfl⟩ := hs
    simp only [beq_iff_eq, reduceCtorEq, if_false, if_true, add_zero] at h ⊢
    obtain ⟨h1, h2, h3, h4, h5, h6⟩ := h
    refine ⟨?_, ?_, ?_, ?_, ?_, ?_⟩ <;> omega
  case inside =>
    simp only [thread_step] at hs
    cases hw : sem_wait g.alarm_mutex1 with
    | none => simp [hw] at hs
    | some m =>
      obtain ⟨hpos, hm⟩ := sem_wait_some _ _ hw
      simp only [hw, Option.some.injEq, Prod.mk.injEq] at hs
      obtain ⟨rfl, rfl⟩ := hs
      simp only [beq_iff_eq, reduceCtorEq, if_false, if_true, add_zero] at h ⊢
      obtain ⟨h1, h2, h3, h4, h5, h6⟩ := h
      refine ⟨?_, ?_, ?_, ?_, ?_, ?_⟩ <;> omega
  case exitLocked =>
    simp only [thread_step, Option.some.injEq, Prod.mk.injEq] at hs
    obtain ⟨rfl, rfl⟩ := hs
    by_cases hc : g.counter - 1 = 0
    · simp only [if_pos hc, beq_iff_eq, reduceCtorEq, if_false, if_true, add_zero] at h ⊢
      obtain ⟨h1, h2, h3, h4, h5, h6⟩ := h
      refine ⟨?_, ?_, ?_, ?_, ?_, ?_⟩ <;> omega
    · simp only [if_neg hc, beq_iff_eq, reduceCtorEq, if_false, if_true, add_zero] at h ⊢
      obtain ⟨h1, h2, h3, h4, h5, h6⟩ := h
      refine ⟨?_, ?_, ?_, ?_, ?_, ?_⟩ <;> omega
  case exitPost =>
    simp only [thread_step, sem_post, Option.some.injEq, Prod.mk.injEq] at hs
    obtain ⟨rfl, rfl⟩ := hs
    simp only [beq_iff_eq, reduceCtorEq, if_false, if_true, add_zero] at h ⊢
    obtain ⟨h1, h2, h3, h4, h5, h6⟩ := h
    refine ⟨?_, ?_, ?_, ?_, ?_, ?_⟩ <;> omega
  case exitUnlock =>
    simp only [thread_step, sem_post, Option.some.injEq, Prod.mk.injEq] at hs
    obtain ⟨rfl, rfl⟩ := hs
    cases cancel
    · simp only [Bool.false_eq_true, beq_iff_eq, reduceCtorEq, if_false, if_true,
        add_zero] at h ⊢
      obtain ⟨h1, h2, h3, h4, h5, h6⟩ := h
      refine ⟨?_, ?_, ?_, ?_, ?_, ?_⟩ <;> omega
    · simp only [beq_iff_eq, reduceCtorEq, if_false, if_true, add_zero] at h ⊢
      obtain ⟨h1, h2, h3, h4, h5, h6⟩ := h
      refine ⟨?_, ?_, ?_, ?_, ?_, ?_⟩ <;> omega
  case removeWait =>
    simp only [thread_step] at hs
    cases hw : sem_wait g.alarm_cond1 with
    | none => simp [hw] at hs
    | some m =>
      obtain ⟨hpos, hm⟩ := sem_wait_some _ _ hw
      simp only [hw, Option.some.injEq, Prod.mk.injEq] at hs
      obtain ⟨rfl, rfl⟩ := hs
      simp only [beq_iff_eq, reduceCtorEq, if_false, if_true, add_zero] at h ⊢
      obtain ⟨h1, h2, h3, h4, h5, h6⟩ := h
      refine ⟨?_, ?_, ?_, ?_, ?_, ?_⟩ <;> omega
  case removing =>
    simp only [thread_step, sem_post, Option.some.injEq, Prod.mk.injEq] at hs
    obtain ⟨rfl, rfl⟩ := hs
    simp only [beq_iff_eq, reduceCtorEq, if_false, if_true, add_zero] at h ⊢
    obtain ⟨h1, h2, h3, h4, h5, h6⟩ := h
    refine ⟨?_, ?_, ?_, ?_, ?_, ?_⟩ <;> omega
theorem producer_step_inv (s : Sys) (g : Gate) (p : ProducerPc)
    (h : GateInv s.gate s.inserting s.threads)
    (hs : producer_step s.gate s.producer = some (g, p)) :
    GateInv g (if p = ProducerPc.inserting then 1 else 0) s.threads := by
  unfold GateInv at h ⊢
  unfold Sys.inserting at h
  cases hp : s.producer
  case reading =>
    rw [hp] at hs h
    simp only [producer_step, Option.some.injEq, Prod.mk.injEq] at hs
    obtain ⟨rfl, rfl⟩ := hs
    simp only [reduceCtorEq, if_false] at h ⊢
    exact h
  case insertWait =>
    rw [hp] at hs h
    simp only [producer_step] at hs
    cases hw : sem_wait s.gate.alarm_cond1 with
    | none => simp [hw] at hs
    | some m =>
      obtain ⟨hpos, hm⟩ := sem_wait_some _ _ hw
      simp only [hw, Option.some.injEq, Prod.mk.injEq] at hs
      obtain ⟨rfl, rfl⟩ := hs
      simp only [reduceCtorEq, if_false, if_true] at h ⊢
      obtain ⟨h1, h2, h3, h4, h5, h6⟩ := h
      refine ⟨?_, ?_, ?_, ?_, ?_, ?_⟩ <;> omega
  case inserting =>
    rw [hp] at hs h
    simp only [producer_step, sem_post, Option.some.injEq, Prod.mk.injEq] at hs
    obtain ⟨rfl, rfl⟩ := hs
    simp only [reduceCtorEq, if_false, if_true] at h ⊢
    obtain ⟨h1, h2, h3, h4, h5, h6⟩ := h
    refine ⟨?_, ?_, ?_, ?_, ?_, ?_⟩ <;> omega

/-- Every operation of every thread keeps the invariant of the gate. -/
theorem sys_step_inv (s s2 : Sys) (h : GateInv s.gate s.inserting s.threads)
    (hs : SysStep s s2) : GateInv s2.gate s2.inserting s2.threads := by
  cases hs with
  | producer g p hp => exact producer_step_inv s g p h hp
  | dispatcher cancel g pc hd =>
    exact thread_step_inv s.gate g s.inserting [] s.workers s.dispatcher pc cancel h hd
  | create hd =>
    unfold GateInv at h ⊢
    show _ ∧ _
    simp only [Sys.threads, Sys.inserting, List.count_cons, List.count_append,
      List.count_nil, beq_iff_eq, reduceCtorEq, if_false, add_zero, zero_add] at h ⊢
    exact h
  | worker pre post pc pc2 g hw ht =>
    have h2 : GateInv s.gate s.inserting ((s.dispatcher :: pre) ++ pc :: post) := by
      have : s.threads = (s.dispatcher :: pre) ++ pc :: post := by
        unfold Sys.threads
        rw [hw]
        rfl
      rw [← this]
      exact h
    exact thread_step_inv s.gate g s.inserting (s.dispatcher :: pre) post pc pc2 false h2 ht

/-- The invariant of the gate holds in every state reachable from the free gate. -/
theorem sys_free_inv (s : Sys) (h : SysReachable sys_free s) :
    GateInv s.gate s.inserting s.threads := by
  induction h with
  | start =>
    unfold GateInv
    simp [sys_free, gate_free, Sys.threads, Sys.inserting]
  | step s s2 _ hs ih => exact sys_step_inv s s2 ih hs

/-- C13: from `counter == 0` with both semaphores free, in every state reachable by the
operations of `main`, the dispatcher and the display threads in any interleaving: while
`main` is in `alarm_insert` or the dispatcher is in its removal, neither the dispatcher
nor any display thread is inside its bracketed section, and `main` is not in
`alarm_insert` while the dispatcher is in its removal. -/
theorem gate_mutual_exclusion (s : Sys) (h : SysReachable sys_free s) :
    ((s.producer = ProducerPc.inserting ∨ s.dispatcher = Pc.removing) →
        s.dispatcher ≠ Pc.inside ∧ ∀ w ∈ s.workers, w ≠ Pc.inside) ∧
      ¬ (s.producer = ProducerPc.inserting ∧ s.dispatcher = Pc.removing) := by
  have hinv := sys_free_inv s h
  unfold GateInv at hinv
  obtain ⟨_, _, h3, h4, _, _⟩ := hinv
  have hrem : s.dispatcher = Pc.removing → 0 < s.threads.count Pc.removing := by
    intro hd
    unfold Sys.threads
    rw [hd]
    simp
  have hins : s.producer = ProducerPc.inserting → s.inserting = 1 := by
    intro hp
    unfold Sys.inserting
    rw [if_pos hp]
  have hnotin : s.threads.count Pc.inside = 0 →
      s.dispatcher ≠ Pc.inside ∧ ∀ w ∈ s.workers, w ≠ Pc.inside := by
    intro h0
    rw [List.count_eq_zero] at h0
    refine ⟨fun hd => h0 (by unfold Sys.threads; rw [hd]; simp), ?_⟩
    intro w hw hwi
    exact h0 (by unfold Sys.threads; rw [← hwi]; exact List.mem_cons_of_mem _ hw)
  constructor
  · intro hmut
    apply hnotin
    rcases hmut with hp | hd
    · have := hins hp
      omega
    · have := hrem hd
      omega
  · rintro ⟨hp, hd⟩
    have h1 := hins hp
    have h2 := hrem hd
    omega

theorem exInserting_reachable : SysReachable sys_free exInserting :=
  SysReachable.step _ _
    (SysReachable.step _ _ SysReachable.start
      (SysStep.producer sys_free gate_free ProducerPc.insertWait (by decide)))
    (SysStep.producer _ { counter := 0, alarm_mutex1 := 1, alarm_cond1 := 0 }
      ProducerPc.inserting (by decide))

/-- A concrete instance: `main` has accepted a line and is in `alarm_insert`. -/
theorem gate_mutual_exclusion_witness :
    SysReachable sys_free exInserting ∧
    (((exInserting.producer = ProducerPc.inserting ∨ exInserting.dispatcher = Pc.removing) →
        exInserting.dispatcher ≠ Pc.inside ∧ ∀ w ∈ exInserting.workers, w ≠ Pc.inside) ∧
      ¬ (exInserting.producer = ProducerPc.inserting ∧
        exInserting.dispatcher = Pc.removing)) :=
  ⟨exInserting_reachable, gate_mutual_exclusion exInserting exInserting_reachable⟩
/-! ## Deadlock -/

/-- A thread whose next operation never blocks is not at one of these places when it has
no next operation. -/
theorem thread_step_none (g : Gate) (t : Pc) (h : thread_step g false t = none) :
    ((t = Pc.outside ∨ t = Pc.inside) ∧ g.alarm_mutex1 = 0) ∨
      ((t = Pc.enterWait ∨ t = Pc.removeWait) ∧ g.alarm_cond1 = 0) := by
  cases t
  case outside =>
    left
    refine ⟨Or.inl rfl, ?_⟩
    by_contra h0
    simp [thread_step, sem_wait, h0] at h
  case inside =>
    left
    refine ⟨Or.inr rfl, ?_⟩
    by_contra h0
    simp [thread_step, sem_wait, h0] at h
  case enterWait =>
    right
    refine ⟨Or.inl rfl, ?_⟩
    by_contra h0
    simp [thread_step, sem_wait, h0] at h
  case removeWait =>
    right
    refine ⟨Or.inr rfl, ?_⟩
    by_contra h0
    simp [thread_step, sem_wait, h0] at h
  all_goals simp [thread_step] at h

/-- With both semaphores free at the start, the threads are never all blocked: in every
reachable state some thread has a next operation. -/
theorem free_gate_no_deadlock (s : Sys) (h : SysReachable sys_free s) : ¬ AllBlocked s := by
  intro hb
  obtain ⟨hprod, hthreads⟩ := hb
  have hinv := sys_free_inv s h
  unfold GateInv at hinv
  obtain ⟨h1, h2, h3, h4, h5, h6⟩ := hinv
  have hzero : ∀ pc : Pc, pc ≠ Pc.outside → pc ≠ Pc.inside → pc ≠ Pc.enterWait →
      pc ≠ Pc.removeWait → s.threads.count pc = 0 := by
    intro pc n1 n2 n3 n4
    rw [List.count_eq_zero]
    intro hmem
    rcases thread_step_none s.gate pc (hthreads pc hmem) with ⟨h | h, _⟩ | ⟨h | h, _⟩
    · exact n1 h
    · exact n2 h
    · exact n3 h
    · exact n4 h
  have hin : 0 < s.threads.count Pc.inside → s.gate.alarm_mutex1 = 0 := by
    intro hpos
    have hmem : Pc.inside ∈ s.threads := List.count_pos_iff.1 hpos
    rcases thread_step_none s.gate Pc.inside (hthreads _ hmem) with ⟨_, h0⟩ | ⟨h | h, _⟩
    · exact h0
    · exact absurd h (by decide)
    · exact absurd h (by decide)
  have hp : s.producer = ProducerPc.insertWait ∧ s.gate.alarm_cond1 = 0 := by
    cases hpc : s.producer
    case reading => rw [hpc] at hprod; simp [producer_step] at hprod
    case inserting => rw [hpc] at hprod; simp [producer_step] at hprod
    case insertWait =>
      refine ⟨rfl, ?_⟩
      by_contra h0
      rw [hpc] at hprod
      simp [producer_step, sem_wait, h0] at hprod
  have hins : s.inserting = 0 := by
    unfold Sys.inserting
    rw [hp.1]
    rfl
  have z1 := hzero Pc.enterLocked (by decide) (by decide) (by decide) (by decide)
  have z2 := hzero Pc.enterUnlock (by decide) (by decide) (by decide) (by decide)
  have z3 := hzero Pc.exitLocked (by decide) (by decide) (by decide) (by decide)
  have z4 := hzero Pc.exitPost (by decide) (by decide) (by decide) (by decide)
  have z5 := hzero Pc.exitUnlock (by decide) (by decide) (by decide) (by decide)
  have z6 := hzero Pc.removing (by decide) (by decide) (by decide) (by decide)
  have hc := hp.2
  by_cases hpos : 0 < s.threads.count Pc.inside
  · have := hin hpos
    omega
  · omega

/-- C14, the program as written: `main` initialises neither semaphore, so both have the
value 0 at the first `sem_wait`.  The dispatcher blocks at its first operation, the
`sem_wait (&alarm_mutex1)` of line 388, and `main` blocks at the `sem_wait (&alarm_cond1)`
of line 573 as soon as it has accepted a line; there is no display thread.  This state
is reached by one step, and no thread has a next operation in it: all threads are
blocked on gate semaphores. -/
theorem main_gate_deadlock :
    SysReachable main_sys main_sys_accepted ∧
      thread_step main_sys_accepted.gate false main_sys_accepted.dispatcher = none ∧
      thread_step main_sys_accepted.gate true main_sys_accepted.dispatcher = none ∧
      producer_step main_sys_accepted.gate main_sys_accepted.producer = none ∧
      main_sys_accepted.workers = [] ∧
      AllBlocked main_sys_accepted ∧
      ∀ s2, ¬ SysStep main_sys_accepted s2 := by
  refine ⟨?_, by decide, by decide, by decide, rfl, ⟨by decide, by decide⟩, ?_⟩
  · exact SysReachable.step _ _ SysReachable.start
      (SysStep.producer main_sys main_gate ProducerPc.insertWait (by decide))
  · intro s2 hs
    have hp0 : producer_step main_sys_accepted.gate main_sys_accepted.producer = none := by
      decide
    have hd0 : ∀ cancel, thread_step main_sys_accepted.gate cancel
        main_sys_accepted.dispatcher = none := by decide
    cases hs with
    | producer g p hp => rw [hp0] at hp; exact absurd hp (by simp)
    | dispatcher cancel g pc hd => rw [hd0 cancel] at hd; exact absurd hd (by simp)
    | create hd => exact absurd hd (by decide)
    | worker pre post pc pc2 g hw ht =>
      have : main_sys_accepted.workers = [] := rfl
      rw [this] at hw
      exact absurd hw (by simp)

/-! ## A Cancel entry ahead of its pending Register entry -/

theorem later_created (s : State) (cs : List Nat) (h : Created s cs) (s1 : State)
    (cs1 : List Nat) (hl : Later s cs s1 cs1) : Created s1 cs1 := by
  induction hl with
  | start => exact h
  | submit s1 cs1 now raw cmd _ hfresh ih => exact Created.submit s1 cs1 now raw cmd ih hfresh
  | scan s1 cs1 _ hal ih => exact Created.scan s1 cs1 ih hal
  | remove s1 cs1 garbage _ ih => exact Created.remove s1 cs1 garbage ih
  | work s1 cs1 i _ ih => exact Created.work s1 cs1 i ih

/-- `changeAlarm` writes no node of type 0. -/
theorem changeAlarm_cancel_mem (l : List alarm_t) (a x : alarm_t) (hx : x ∈ l)
    (h0 : x.alarmRequestType = 0) : x ∈ changeAlarm l a := by
  induction l with
  | nil => simp at hx
  | cons next rest ih =>
    by_cases h : next.alarmRequestType = 1 ∧ a.messageNum = next.messageNum
    · simp only [changeAlarm, if_pos h]
      rcases List.mem_cons.1 hx with hxn | hx
      · rw [← hxn, h0] at h; exact absurd h.1 (by decide)
      · exact List.mem_cons_of_mem _ hx
    · simp only [changeAlarm, if_neg h]
      rcases List.mem_cons.1 hx with hxn | hx
      · rw [hxn]; exact List.mem_cons_self _ _
      · exact List.mem_cons_of_mem _ (ih hx)

/-- `alarm_insert` leaves every listed node of type 0 listed and as it was. -/
theorem alarm_insert_cancel_mem (l : List alarm_t) (a x : alarm_t) (hx : x ∈ l)
    (h0 : x.alarmRequestType = 0) : x ∈ (alarm_insert l a).1 := by
  unfold alarm_insert
  split_ifs
  · exact changeAlarm_cancel_mem l a x hx h0
  · exact mem_insertRegister_of_mem l a x hx
  · exact hx
  · exact hx
  · exact mem_insertCancel_of_mem l a x hx

theorem work_out_mem (s : State) (i : Nat) (o : Output) (ho : o ∈ s.out) :
    o ∈ (s.work i).out := by
  unfold State.work
  split
  · exact ho
  · split
    · exact ho
    · exact List.mem_append_left _ ho

/-- An unlinked node has the address of no listed node. -/
theorem unlinked_not_listed (s : State) (hi : Inv s) (y : alarm_t) (hy : y ∈ s.unlinked) :
    ∀ x ∈ s.list, x.addr ≠ y.addr := by
  have h := hi.nodup
  rw [List.map_append, List.nodup_append] at h
  intro x hx e
  exact h.2.2 (List.mem_map_of_mem (fun x => x.addr) hx)
    (by rw [e]; exact List.mem_map_of_mem (fun x => x.addr) hy)

/-- An address the scan part adds to the creation record is the address of the node it
selected, which has type 1. -/
theorem created_addr (l : List alarm_t) (p : Nat)
    (hp : p ∈ (createdWorker (alarm_thread_scan l).1).map (fun w => w.alarm)) :
    ∃ a, (scanNew l).1 = some a ∧ a.alarmRequestType = 1 ∧ a.addr = p := by
  have hp2 : p ∈ (createdWorker (scanNew l).1).map (fun w => w.alarm) := hp
  cases hsel : (scanNew l).1 with
  | none => rw [hsel] at hp2; simp [createdWorker] at hp2
  | some a =>
    rw [hsel] at hp2
    by_cases hat : a.alarmRequestType = 1
    · simp only [createdWorker, if_pos hat, List.map_cons, List.map_nil,
        List.mem_singleton] at hp2
      exact ⟨a, rfl, hat, hp2.symm⟩
    · simp [createdWorker, hat] at hp2

/-- The scan on a list that holds a Cancel node and the Register node of its message
number, both with `newAlarmFlag == 1`: the node selected is the Cancel node or a node
before it, of a smaller message number; the Register node comes after the selected
node. -/
theorem pair_scan (s : State) (hi : Inv s) (c1 r1 : alarm_t) (hc : c1 ∈ s.list)
    (hr : r1 ∈ s.list) (hct : c1.alarmRequestType = 0) (hrt : r1.alarmRequestType = 1)
    (hm : r1.messageNum = c1.messageNum) (hcf : c1.newAlarmFlag = 1)
    (hrf : r1.newAlarmFlag = 1) :
    ∃ pre a0 post, s.list = pre ++ a0 :: post ∧
      (scanNew s.list).1 = some { a0 with newAlarmFlag := 0 } ∧
      (scanNew s.list).2 = pre ++ { a0 with newAlarmFlag := 0 } :: post ∧
      r1 ∈ post ∧ a0.addr ≠ r1.addr ∧
      (a0 = c1 ∨ (c1 ∈ post ∧ a0.messageNum < c1.messageNum)) := by
  have hne : (scanNew s.list).1 ≠ none :=
    fun h => (scanNew_none_iff s.list).1 h c1 hc hcf
  obtain ⟨a, ha⟩ := Option.ne_none_iff_exists'.1 hne
  obtain ⟨pre, a0, post, h1, h2, h3, h4, h5⟩ := scanNew_split s.list a ha
  have ho : Ordered (a0 :: post) := ordered_suffix pre _ (by rw [← h1]; exact hi.ordered)
  have hc2 : c1 = a0 ∨ c1 ∈ post := by
    rw [h1] at hc
    rcases List.mem_append.1 hc with h | h
    · exact absurd hcf (h3 c1 h)
    · exact List.mem_cons.1 h
  have hra : a0 ≠ r1 := by
    intro e
    rcases hc2 with h | h
    · rw [h, e, hrt] at hct
      exact absurd hct (by decide)
    · rcases ho.1 with ⟨_, hlt⟩ | ⟨ht0, _⟩
      · have := hlt c1 h
        rw [e, hm] at this
        exact lt_irrefl _ this
      · rw [e, hrt] at ht0
        exact absurd ht0 (by decide)
  have hr2 : r1 ∈ post := by
    rw [h1] at hr
    rcases List.mem_append.1 hr with h | h
    · exact absurd hrf (h3 r1 h)
    · rcases List.mem_cons.1 h with h | h
      · exact absurd h.symm hra
      · exact h
  have ha0 : a0 ∈ s.list := by rw [h1]; exact List.mem_append_right _ (List.mem_cons_self _ _)
  refine ⟨pre, a0, post, h1, by rw [ha, h4], by rw [h5, h4], hr2, ?_, ?_⟩
  · intro e
    exact hra (eq_of_addr_eq s.list a0 r1 hi.nodup_list ha0 hr e)
  · rcases hc2 with h | h
    · exact Or.inl h.symm
    · exact Or.inr ⟨h, ordered_head_lt_cancel a0 post ho c1 h hct⟩

/-- From a state in which the pair is listed or unlinked, a scan from the top of the loop
does not select the Register node of the pair. -/
theorem pair_scan_skips (s : State) (hi : Inv s) (c r : alarm_t)
    (hp : PairListed c r s ∨ PairUnlinked c r s) (hal : s.alarm = none) :
    ∀ a, (scanNew s.list).1 = some a → a.addr ≠ r.addr := by
  intro a ha
  rcases hp with ⟨c1, hc1, r1, hr1, _, hct, hcm, _, hra, hrt, hrm, hrf, hcf⟩ | hp
  · have hcf1 : c1.newAlarmFlag = 1 := by
      rcases hcf with h | h
      · exact h
      · rw [hal] at h; exact absurd h (by simp)
    obtain ⟨pre, a0, post, _, h2, _, _, h5, _⟩ :=
      pair_scan s hi c1 r1 hc1 hr1 hct hrt (by rw [hrm, hcm]) hcf1 hrf
    rw [ha, Option.some.injEq] at h2
    rw [h2, ← hra]
    exact h5
  · obtain ⟨_, _, r1, hr1, _, _, _, hnl, _⟩ := hp
    obtain ⟨_, x, hx, hxa, _⟩ := scanNew_selected s.list a ha
    rw [← hxa]
    exact hnl x hx

/-- Every step keeps the pair listed or unlinked, and adds the address of its Register
node to no creation record. -/
theorem pair_later (s : State) (cs : List Nat) (h : Created s cs) (c r : alarm_t)
    (h0 : r.addr ∉ cs) (hp0 : PairListed c r s ∨ PairUnlinked c r s)
    (s1 : State) (cs1 : List Nat) (hl : Later s cs s1 cs1) :
    r.addr ∉ cs1 ∧ (PairListed c r s1 ∨ PairUnlinked c r s1) := by
  induction hl with
  | start => exact ⟨h0, hp0⟩
  | submit s1 cs1 now raw cmd hl1 hfresh ih =>
    have hc1 := later_created s cs h s1 cs1 hl1
    have hi := reachable_inv s1 (created_reachable s1 cs1 hc1)
    have hi2 : Inv (s1.submit now raw cmd) := inv_submit s1 now raw cmd hi hfresh
    refine ⟨ih.1, ?_⟩
    rcases ih.2 with ⟨c1, hc1, r1, hr1, hca, hct, hcm, hcg, hra, hrt, hrm, hrf, hcf⟩ |
      ⟨c1, hc1, r1, hr1, hca, hra, hrf, _, hout⟩
    · left
      obtain ⟨y, hy, hya, hyt, hym, hyf⟩ := alarm_insert_pres
        (fun x => x.alarmRequestType = 1 ∧ x.messageNum = c.messageNum ∧ x.newAlarmFlag = 1)
        (fun _ _ hx => hx) s1.list
        { main_request raw cmd with
            time := now + (main_request raw cmd).seconds, newAlarmFlag := 1,
            changeTracker := 0 } r1 hr1 ⟨hrt, hrm, hrf⟩
      exact ⟨c1, alarm_insert_cancel_mem s1.list _ c1 hc1 hct, y, hy, hca, hct, hcm, hcg,
        by rw [hya, hra], hyt, hym, hyf, hcf⟩
    · right
      refine ⟨c1, hc1, r1, hr1, hca, hra, hrf, ?_, List.mem_append_left _ hout⟩
      intro x hx
      rw [← hra]
      exact unlinked_not_listed _ hi2 r1 hr1 x hx
  | scan s1 cs1 hl1 hal ih =>
    have hc1 := later_created s cs h s1 cs1 hl1
    have hi := reachable_inv s1 (created_reachable s1 cs1 hc1)
    have hi2 : Inv s1.scan := inv_scan s1 hi
    have hskip := pair_scan_skips s1 hi c r ih.2 hal
    refine ⟨?_, ?_⟩
    · intro hmem
      rcases List.mem_append.1 hmem with hmem | hmem
      · exact ih.1 hmem
      · obtain ⟨a, ha, _, hap⟩ := created_addr s1.list r.addr hmem
        exact hskip a ha hap
    · rcases ih.2 with ⟨c1, hc1, r1, hr1, hca, hct, hcm, hcg, hra, hrt, hrm, hrf, hcf⟩ |
        ⟨c1, hc1, r1, hr1, hca, hra, hrf, _, hout⟩
      · left
        have hcf1 : c1.newAlarmFlag = 1 := by
          rcases hcf with h | h
          · exact h
          · rw [hal] at h; exact absurd h (by simp)
        obtain ⟨pre, a0, post, h1, h2, h3, h4, _, h6⟩ :=
          pair_scan s1 hi c1 r1 hc1 hr1 hct hrt (by rw [hrm, hcm]) hcf1 hrf
        have hlist : s1.scan.list = pre ++ { a0 with newAlarmFlag := 0 } :: post := h3
        have hr2 : r1 ∈ s1.scan.list := by
          rw [hlist]
          exact List.mem_append_right _ (List.mem_cons_of_mem _ h4)
        rcases h6 with h6 | ⟨h6, _⟩
        · have hal2 : s1.scan.alarm = some c.addr := by
            show pendingRemoval (scanNew s1.list).1 = some c.addr
            rw [h2, h6]
            simp only [pendingRemoval, if_pos hct, hca]
          refine ⟨{ c1 with newAlarmFlag := 0 }, ?_, r1, hr2, hca, hct, hcm, hcg, hra, hrt,
            hrm, hrf, Or.inr hal2⟩
          rw [hlist, h6]
          exact List.mem_append_right _ (List.mem_cons_self _ _)
        · refine ⟨c1, ?_, r1, hr2, hca, hct, hcm, hcg, hra, hrt, hrm, hrf, Or.inl hcf1⟩
          rw [hlist]
          exact List.mem_append_right _ (List.mem_cons_of_mem _ h6)
      · right
        refine ⟨c1, hc1, r1, hr1, hca, hra, hrf, ?_, List.mem_append_left _ hout⟩
        intro x hx
        rw [← hra]
        exact unlinked_not_listed _ hi2 r1 hr1 x hx
  | remove s1 cs1 garbage hl1 ih =>
    have hc1 := later_created s cs h s1 cs1 hl1
    have hi := reachable_inv s1 (created_reachable s1 cs1 hc1)
    have hi2 : Inv (s1.remove garbage) := inv_remove s1 garbage hi
    refine ⟨ih.1, ?_⟩
    cases hal : s1.alarm with
    | none => rw [remove_none s1 garbage hal]; exact ih.2
    | some q =>
      obtain ⟨c2, r2, pre, post, hnode, hct2, h1, hrt2, hrm2, hne, _, h7⟩ :=
        remove_pending s1 hi q hal
      obtain ⟨h7a, hlist, hun, hal2⟩ := h7 garbage
      have hout : (s1.remove garbage).out =
          s1.out ++ [Output.cancelLine c2.messageNum c2.message] := by
        simp only [State.remove, hal, hnode, h7a]
      have hc2q : c2.addr = q := by
        have := List.find?_some hnode
        simpa using this
      have hc2l : c2 ∈ s1.list := by
        rw [h1]; exact List.mem_append_right _ (List.mem_cons_self _ _)
      rcases ih.2 with ⟨c1, hc1, r1, hr1, hca, hct, hcm, hcg, hra, hrt, hrm, hrf, hcf⟩ |
        ⟨c1, hc1, r1, hr1, hca, hra, hrf, _, hout1⟩
      · have hr1cases : r1 ∈ pre ++ post ∨ r1 = r2 := by
          rw [h1] at hr1
          rcases List.mem_append.1 hr1 with hx | hx
          · exact Or.inl (List.mem_append_left _ hx)
          · rcases List.mem_cons.1 hx with hx | hx
            · rw [hx, hct2] at hrt; exact absurd hrt (by decide)
            · rcases List.mem_cons.1 hx with hx | hx
              · exact Or.inr hx
              · exact Or.inl (List.mem_append_right _ hx)
        have hc1cases : c1 ∈ pre ++ post ∨ c1 = c2 := by
          rw [h1] at hc1
          rcases List.mem_append.1 hc1 with hx | hx
          · exact Or.inl (List.mem_append_left _ hx)
          · rcases List.mem_cons.1 hx with hx | hx
            · exact Or.inr hx
            · rcases List.mem_cons.1 hx with hx | hx
              · rw [hx, hrt2] at hct; exact absurd hct (by decide)
              · exact Or.inl (List.mem_append_right _ hx)
        by_cases hq : q = c.addr
        · right
          have hcc : c1 = c2 :=
            eq_of_addr_eq s1.list c1 c2 hi.nodup_list hc1 hc2l (by rw [hca, hc2q, hq])
          have hrr : r1 = r2 := by
            rcases hr1cases with hx | hx
            · exact absurd (by rw [hrm, ← hcm, hcc]) (hne r1 hx)
            · exact hx
          have hr2u : ({ r2 with alarmExistsFlag := 0 } : alarm_t) ∈
              (s1.remove garbage).unlinked := by
            rw [hun]
            exact List.mem_append_right _
              (List.mem_cons_of_mem _ (List.mem_cons_self _ _))
          refine ⟨{ c2 with alarmExistsFlag := 0 }, ?_, { r2 with alarmExistsFlag := 0 },
            hr2u, ?_, ?_, ?_, ?_, ?_⟩
          · rw [hun]
            exact List.mem_append_right _ (List.mem_cons_self _ _)
          · show c2.addr = c.addr
            rw [← hcc]; exact hca
          · show r2.addr = r.addr
            rw [← hrr]; exact hra
          · show r2.newAlarmFlag = 1
            rw [← hrr]; exact hrf
          · intro x hx
            have := unlinked_not_listed _ hi2 _ hr2u x hx
            have hra2 : r2.addr = r.addr := by rw [← hrr]; exact hra
            rw [← hra2]
            exact this
          · rw [hout, ← hcc, hcm, hcg]
            exact List.mem_append_right _ (List.mem_singleton_self _)
        · left
          have hcf1 : c1.newAlarmFlag = 1 := by
            rcases hcf with hx | hx
            · exact hx
            · rw [hal, Option.some.injEq] at hx; exact absurd hx hq
          have hc1l : c1 ∈ pre ++ post := by
            rcases hc1cases with hx | hx
            · exact hx
            · exact absurd (by rw [← hc2q, ← hx, hca]) hq
          have hr1l : r1 ∈ pre ++ post := by
            rcases hr1cases with hx | hx
            · exact hx
            · exact absurd (by rw [hcm, ← hrm, hx, hrm2]) (hne c1 hc1l)
          refine ⟨c1, by rw [hlist]; exact hc1l, r1, by rw [hlist]; exact hr1l, hca, hct,
            hcm, hcg, hra, hrt, hrm, hrf, Or.inl hcf1⟩
      · right
        refine ⟨c1, by rw [hun]; exact List.mem_append_left _ hc1, r1,
          by rw [hun]; exact List.mem_append_left _ hr1, hca, hra, hrf, ?_,
          by rw [hout]; exact List.mem_append_left _ hout1⟩
        intro x hx
        rw [← hra]
        exact unlinked_not_listed _ hi2 r1
          (by rw [hun]; exact List.mem_append_left _ hr1) x hx
  | work s1 cs1 i _ ih =>
    refine ⟨ih.1, ?_⟩
    rcases ih.2 with ⟨c1, hc1, r1, hr1, hca, hct, hcm, hcg, hra, hrt, hrm, hrf, hcf⟩ |
      ⟨c1, hc1, r1, hr1, hca, hra, hrf, hnl, hout⟩
    · left
      exact ⟨c1, by rw [work_list]; exact hc1, r1, by rw [work_list]; exact hr1, hca, hct,
        hcm, hcg, hra, hrt, hrm, hrf, by rw [work_alarm]; exact hcf⟩
    · right
      exact ⟨c1, by rw [work_unlinked]; exact hc1, r1, by rw [work_unlinked]; exact hr1,
        hca, hra, hrf, by rw [work_list]; exact hnl, work_out_mem s1 i _ hout⟩

/-- The removal of the selected Cancel node of the pair unlinks both nodes and prints
the cancel line. -/
theorem pair_remove (s : State) (hi : Inv s) (c r : alarm_t)
    (hp : PairListed c r s ∨ PairUnlinked c r s) (hal : s.alarm = some c.addr)
    (garbage : Int) :
    (s.remove garbage).out = s.out ++ [Output.cancelLine c.messageNum c.message] ∧
      ¬ PairListed c r (s.remove garbage) := by
  obtain ⟨c2, r2, pre, post, hnode, _, h1, _, _, _, _, h7⟩ :=
    remove_pending s hi c.addr hal
  obtain ⟨h7a, _, hun, _⟩ := h7 garbage
  have hout : (s.remove garbage).out =
      s.out ++ [Output.cancelLine c2.messageNum c2.message] := by
    simp only [State.remove, hal, hnode, h7a]
  have hc2a : c2.addr = c.addr := by
    have := List.find?_some hnode
    simpa using this
  have hc2l : c2 ∈ s.list := by
    rw [h1]; exact List.mem_append_right _ (List.mem_cons_self _ _)
  have hi2 : Inv (s.remove garbage) := inv_remove s garbage hi
  refine ⟨?_, ?_⟩
  · rcases hp with ⟨c1, hc1, _, _, hca, _, hcm, hcg, _⟩ | ⟨c1, hc1, _, _, hca, _⟩
    · have hcc : c1 = c2 :=
        eq_of_addr_eq s.list c1 c2 hi.nodup_list hc1 hc2l (by rw [hca, hc2a])
      rw [hout, ← hcc, hcm, hcg]
    · exact absurd (by rw [hc2a, hca]) (unlinked_not_listed s hi c1 hc1 c2 hc2l)
  · rintro ⟨c1, hc1, _, _, hca, _⟩
    have hc2u : ({ c2 with alarmExistsFlag := 0 } : alarm_t) ∈
        (s.remove garbage).unlinked := by
      rw [hun]
      exact List.mem_append_right _ (List.mem_cons_self _ _)
    have := unlinked_not_listed _ hi2 _ hc2u c1 hc1
    exact this (by rw [hca]; exact hc2a.symm)

theorem exPending_created : Created exPending [] :=
  Created.submit _ _ _ _ _ (Created.submit _ _ _ _ _ Created.init (by decide)) (by decide)

/-- C21: on every run, in a state where a Cancel node `c` and the Register node `r` of
the same message number are both listed with `newAlarmFlag == 1`: `c` is linked directly
before `r`; the scan of this list selects `c` or a node of a smaller message number, not
`r`; no display thread was created for `r` so far; and in every state the run reaches
later no display thread was created for `r`, a scan from the top of the loop does not
select `r`, and `r` is either still listed with `newAlarmFlag == 1` behind `c` or was
unlinked together with `c`, never selected, with the cancel line printed.  The removal
that runs once `c` is selected unlinks both and prints the cancel line. -/
theorem pending_cancel_shadows_register (s : State) (cs : List Nat) (h : Created s cs)
    (c r : alarm_t) (hc : c ∈ s.list) (hr : r ∈ s.list)
    (hct : c.alarmRequestType = 0) (hrt : r.alarmRequestType = 1)
    (hm : r.messageNum = c.messageNum)
    (hcf : c.newAlarmFlag = 1) (hrf : r.newAlarmFlag = 1) :
    (∃ pre post, s.list = pre ++ c :: r :: post) ∧
      (∃ a, (scanNew s.list).1 = some a ∧ a.addr ≠ r.addr ∧
        (a = { c with newAlarmFlag := 0 } ∨ a.messageNum < c.messageNum)) ∧
      r.addr ∉ cs ∧
      ∀ s1 cs1, Later s cs s1 cs1 →
        r.addr ∉ cs1 ∧
        (PairListed c r s1 ∨ PairUnlinked c r s1) ∧
        (s1.alarm = none → ∀ a, (scanNew s1.list).1 = some a → a.addr ≠ r.addr) ∧
        (s1.alarm = some c.addr → ∀ garbage,
          PairUnlinked c r (s1.remove garbage) ∧
            (s1.remove garbage).out =
              s1.out ++ [Output.cancelLine c.messageNum c.message]) := by
  have hi := reachable_inv s (created_reachable s cs h)
  have hp0 : PairListed c r s :=
    ⟨c, hc, r, hr, rfl, hct, rfl, rfl, rfl, hrt, hm, hrf, Or.inl hcf⟩
  have h0 : r.addr ∉ cs := by
    intro hmem
    obtain ⟨a, ha, hap, haf⟩ := (created_inv s cs h).2.1 r.addr hmem
    have har : a = r := eq_of_addr_eq (s.list ++ s.unlinked) a r hi.nodup ha
      (List.mem_append_left _ hr) hap
    rw [har, hrf] at haf
    exact absurd haf (by decide)
  refine ⟨?_, ?_, h0, ?_⟩
  · obtain ⟨pre, r2, post, h1, h2, h3, h4, h5, _⟩ :=
      ordered_split_cancel s.list c hi.ordered hi.nodup_list hc hct
    have hrr : r = r2 := by
      rw [h1] at hr
      rcases List.mem_append.1 hr with hx | hx
      · exact absurd hm (ne_of_lt (h4 r hx).2)
      · rcases List.mem_cons.1 hx with hx | hx
        · rw [hx, hct] at hrt; exact absurd hrt (by decide)
        · rcases List.mem_cons.1 hx with hx | hx
          · exact hx
          · exact absurd hm.symm (ne_of_lt (h5 r hx))
    exact ⟨pre, post, by rw [hrr]; exact h1⟩
  · obtain ⟨pre, a0, post, _, h2, _, _, h5, h6⟩ :=
      pair_scan s hi c r hc hr hct hrt hm hcf hrf
    refine ⟨_, h2, h5, ?_⟩
    rcases h6 with h6 | ⟨_, h6⟩
    · left; rw [h6]
    · right; exact h6
  · intro s1 cs1 hl
    have hc1 := later_created s cs h s1 cs1 hl
    have hi1 := reachable_inv s1 (created_reachable s1 cs1 hc1)
    obtain ⟨hk1, hk2⟩ := pair_later s cs h c r h0 (Or.inl hp0) s1 cs1 hl
    refine ⟨hk1, hk2, pair_scan_skips s1 hi1 c r hk2, ?_⟩
    intro hal1 garbage
    obtain ⟨hout, hnot⟩ := pair_remove s1 hi1 c r hk2 hal1 garbage
    refine ⟨?_, hout⟩
    rcases (pair_later s cs h c r h0 (Or.inl hp0) _ _
      (Later.remove s1 cs1 garbage hl)).2 with hx | hx
    · exact absurd hx hnot
    · exact hx

/-- A concrete instance: `5 Message(2) A` and `Cancel: Message(2)` are accepted before
the dispatcher scans, so both nodes of message 2 are listed with `newAlarmFlag == 1`. -/
theorem pending_cancel_shadows_register_witness :
    Created exPending [] ∧ exCancel2Listed ∈ exPending.list ∧
      exRegister2 ∈ exPending.list ∧
      (∃ pre post, exPending.list = pre ++ exCancel2Listed :: exRegister2 :: post) ∧
      (∃ a, (scanNew exPending.list).1 = some a ∧ a.addr ≠ exRegister2.addr ∧
        (a = { exCancel2Listed with newAlarmFlag := 0 } ∨
          a.messageNum < exCancel2Listed.messageNum)) ∧
      exRegister2.addr ∉ ([] : List Nat) ∧
      ∀ s1 cs1, Later exPending [] s1 cs1 →
        exRegister2.addr ∉ cs1 ∧
        (PairListed exCancel2Listed exRegister2 s1 ∨
          PairUnlinked exCancel2Listed exRegister2 s1) ∧
        (s1.alarm = none → ∀ a, (scanNew s1.list).1 = some a →
          a.addr ≠ exRegister2.addr) ∧
        (s1.alarm = some exCancel2Listed.addr → ∀ garbage,
          PairUnlinked exCancel2Listed exRegister2 (s1.remove garbage) ∧
            (s1.remove garbage).out = s1.out ++
              [Output.cancelLine exCancel2Listed.messageNum exCancel2Listed.message]) :=
  ⟨exPending_created, by decide, by decide,
    pending_cancel_shadows_register exPending [] exPending_created exCancel2Listed
      exRegister2 (by decide) (by decide) (by decide) (by decide) (by decide) (by decide)
      (by decide)⟩

/-! ## The flag `alarmExistsFlag` and the links -/

theorem exRemoved_reachable : Reachable exRemoved :=
  Reachable.remove _ _ (Reachable.scan _
    (Reachable.submit _ _ _ _
      (Reachable.work _ _ (Reachable.scan _ exOne_reachable (by decide))) (by decide))
    (by decide))

/-- C22: in every reachable state every listed node has `alarmExistsFlag == 1`; a node
that is or was linked has `alarmExistsFlag == 0` only when it is among the unlinked
nodes, and then no listed node has its address; the only step that takes a node from a
flag other than 0 to the flag 0 is the removal step of the dispatcher, which unlinks the
node in the same step; and a display thread takes its exit branch in a pass exactly when
the node it is bound to is among the unlinked nodes, no listed node having that
address. -/
theorem exists_flag_until_unlinked (s : State) (h : Reachable s) :
    (∀ x ∈ s.list, x.alarmExistsFlag = 1) ∧
      (∀ x ∈ s.list ++ s.unlinked, x.alarmExistsFlag = 0 →
        x ∈ s.unlinked ∧ ∀ y ∈ s.list, y.addr ≠ x.addr) ∧
      (∀ s2, Step s s2 → ∀ x ∈ s.list ++ s.unlinked, x.alarmExistsFlag ≠ 0 →
        ∀ y ∈ s2.list ++ s2.unlinked, y.addr = x.addr → y.alarmExistsFlag = 0 →
          x ∈ s.list ∧ y ∈ s2.unlinked ∧ (∀ z ∈ s2.list, z.addr ≠ x.addr) ∧
            ∃ garbage p, s.alarm = some p ∧ s2 = s.remove garbage) ∧
      (∀ i w a, s.workers.get? i = some w → s.node w.alarm = some a →
        ((periodic_display_iteration a w.temp).exited = true ↔ a ∈ s.unlinked) ∧
          ((periodic_display_iteration a w.temp).exited = true →
            ∀ y ∈ s.list, y.addr ≠ w.alarm)) := by
  have hi := reachable_inv s h
  have hzero : ∀ (t : State), Inv t → ∀ x ∈ t.list ++ t.unlinked, x.alarmExistsFlag = 0 →
      x ∈ t.unlinked ∧ ∀ y ∈ t.list, y.addr ≠ x.addr := by
    intro t ht x hx hx0
    rcases List.mem_append.1 hx with hxl | hxu
    · have := ht.exists_flag x hxl
      rw [hx0] at this
      exact absurd this (by decide)
    · exact ⟨hxu, unlinked_not_listed t ht x hxu⟩
  refine ⟨hi.exists_flag, hzero s hi, ?_, ?_⟩
  · intro s2 hs x hx hx0 y hy hyx hy0
    have hi2 := reachable_inv s2 (reachable_step s s2 h hs)
    have hxl : x ∈ s.list := by
      rcases List.mem_append.1 hx with hxl | hxu
      · exact hxl
      · exact absurd (hi.unlinked_flag x hxu) hx0
    obtain ⟨hyu, hynl⟩ := hzero s2 hi2 y hy hy0
    have hsame : y ∈ s.unlinked → False := fun hyu0 =>
      unlinked_not_listed s hi y hyu0 x hxl hyx.symm
    refine ⟨hxl, hyu, fun z hz => by rw [← hyx]; exact hynl z hz, ?_⟩
    cases hs with
    | submit now raw cmd hfresh => exact absurd hyu hsame
    | scan hal => exact absurd hyu hsame
    | work i => rw [work_unlinked] at hyu; exact absurd hyu hsame
    | remove garbage =>
      cases hal : s.alarm with
      | none => rw [remove_none s garbage hal] at hyu; exact absurd hyu hsame
      | some p => exact ⟨garbage, p, rfl, rfl⟩
  · intro i w a _ hn
    have hmem : a ∈ s.list ++ s.unlinked := List.mem_of_find?_eq_some hn
    have hap : a.addr = w.alarm := by
      have := List.find?_some hn
      simpa using this
    have hex : (periodic_display_iteration a w.temp).exited = true ↔
        a.alarmExistsFlag = 0 := by
      by_cases hf : a.alarmExistsFlag = 0
      · simp [periodic_display_iteration, hf]
      · simp [periodic_display_iteration, hf]
    refine ⟨?_, ?_⟩
    · rw [hex]
      exact ⟨fun hf => (hzero s hi a hmem hf).1, fun hu => hi.unlinked_flag a hu⟩
    · intro he
      rw [← hap]
      exact (hzero s hi a hmem (hex.1 he)).2

/-- A concrete instance: the display thread of message 2 runs, then `Cancel: Message(2)`
is accepted and one dispatcher cycle unlinks both nodes of message 2. -/
theorem exists_flag_until_unlinked_witness :
    Reachable exRemoved ∧
      (∀ x ∈ exRemoved.list, x.alarmExistsFlag = 1) ∧
      (∀ x ∈ exRemoved.list ++ exRemoved.unlinked, x.alarmExistsFlag = 0 →
        x ∈ exRemoved.unlinked ∧ ∀ y ∈ exRemoved.list, y.addr ≠ x.addr) ∧
      (∀ s2, Step exRemoved s2 → ∀ x ∈ exRemoved.list ++ exRemoved.unlinked,
        x.alarmExistsFlag ≠ 0 →
        ∀ y ∈ s2.list ++ s2.unlinked, y.addr = x.addr → y.alarmExistsFlag = 0 →
          x ∈ exRemoved.list ∧ y ∈ s2.unlinked ∧ (∀ z ∈ s2.list, z.addr ≠ x.addr) ∧
            ∃ garbage p, exRemoved.alarm = some p ∧ s2 = exRemoved.remove garbage) ∧
      (∀ i w a, exRemoved.workers.get? i = some w → exRemoved.node w.alarm = some a →
        ((periodic_display_iteration a w.temp).exited = true ↔ a ∈ exRemoved.unlinked) ∧
          ((periodic_display_iteration a w.temp).exited = true →
            ∀ y ∈ exRemoved.list, y.addr ≠ w.alarm)) :=
  ⟨exRemoved_reachable, exists_flag_until_unlinked exRemoved exRemoved_reachable⟩

end AlarmCond
